import Mathlib

/-!
Verification of the shortest-path / negative-cycle subsystem of the
`graphalgorithum` repository (`graphblas_algorithms`): the Bellman-Ford style
single-source and multi-source relaxation engines, the global negative-cycle
detector, and the BFS-based reachability helpers used by `dag.py`.

Sparse GraphBLAS vectors over the id space `0..n-1` are embedded as total
functions `Nat → Option Int`: `none` is a structurally absent entry (the
min-plus semiring identity, +∞), `some x` a stored weight.  Matrices are
curried row functions.  Boolean dtypes are promoted to the integer domain, as
the source does before relaxation begins; all weights are `Int`.
-/

/-- Sparse vector over the node id space: `none` = entry absent (+∞). -/
abbrev Vec := Nat → Option Int

/-- Sparse matrix, row-indexed first: `none` = no edge. -/
abbrev Mtx := Nat → Nat → Option Int

/-- Failure conditions escaping the algorithms: the `Unbounded`
("Negative cycle detected.") exception raised by the relaxation engines, and
the Python `ZeroDivisionError` that `int(cutoff // iso_value)` raises when the
shared iso edge value is 0 (its class is not part of this package). -/
inductive Err where
  | unbounded : Err
  | zeroDivision : Err
deriving DecidableEq, Repr

/-- Minimum of two optional weights, absent = +∞ (the `min` monoid of the
min-plus semiring). -/
def optMin : Option Int → Option Int → Option Int
  | none, b => b
  | some a, none => some a
  | some a, some b => some (min a b)

/-- `optLE a b`: `a ≤ b` where `none` is +∞. -/
def optLE : Option Int → Option Int → Bool
  | _, none => true
  | none, some _ => false
  | some a, some b => decide (a ≤ b)

/-- `optLT a b`: `a < b` where `none` is +∞. -/
def optLT : Option Int → Option Int → Bool
  | none, _ => false
  | some _, none => true
  | some a, some b => decide (a < b)

/-- Minimum of a list of optional weights. -/
def optMinList (l : List (Option Int)) : Option Int := l.foldr optMin none

/-- One entry of the min-plus matrix-vector product `cur @ A` (the row vector
`cur` times matrix `A`), aggregating over the id space `0..n-1`. -/
def minPlusMV (n : Nat) (cur : Vec) (A : Mtx) : Vec := fun j =>
  optMinList ((List.range n).map fun i =>
    match cur i, A i j with
    | some c, some w => some (c + w)
    | _, _ => none)

/-- `select.valuele(v, c)`: keep entries whose value is at most `c`. -/
def selectValueLE (c : Int) (v : Vec) : Vec := fun j =>
  match v j with
  | some x => if x ≤ c then some x else none
  | none => none

/-- Apply the optional cutoff: the source only executes the `select.valuele`
step when a cutoff was given. -/
def applyCutoff (c : Option Int) (v : Vec) : Vec :=
  match c with
  | none => v
  | some cc => selectValueLE cc v

/-- The improvement mask of one relaxation round:
`mask << one(cur); mask(binary.second) << binary.lt(cur & d)`.
True where `cur` is new (not in `d`) or strictly less than `d`. -/
def improveMask (cur d : Vec) : Nat → Option Bool := fun j =>
  match cur j, d j with
  | some c, some dv => some (decide (c < dv))
  | some _, none => some true
  | none, _ => none

/-- `cur(mask.V, replace) << cur`: keep entries where the mask holds value
`true`, clear everything else (destructive replace). -/
def maskV (m : Nat → Option Bool) (v : Vec) : Vec := fun j =>
  match m j with
  | some true => v j
  | _ => none

/-- `d(cur.S) << cur`: merge `cur` into `d` under the structural mask of
`cur` (entries of `cur` overwrite, other entries of `d` survive). -/
def mergeS (d cur : Vec) : Vec := fun j =>
  match cur j with
  | some c => some c
  | none => d j

/-- `cur.nvals == 0` over the id space `0..n-1`. -/
def vecEmptyB (n : Nat) (v : Vec) : Bool :=
  (List.range n).all fun j => (v j).isNone

/-- `mask << binary.lt(cur & d); mask.reduce(monoid.lor)`: does any entry
present in both `cur` and `d` satisfy `cur < d`? -/
def anyLt (n : Nat) (cur d : Vec) : Bool :=
  (List.range n).any fun j =>
    match cur j, d j with
    | some c, some dv => decide (c < dv)
    | _, _ => false

/-- `cur << select.valuelt(diag, 0); any_pair(d @ cur)`: is some node with a
negative self-loop present in the distance container `d`? -/
def anyNegDiagReached (n : Nat) (d diagv : Vec) : Bool :=
  (List.range n).any fun j =>
    (d j).isSome && (match diagv j with | some w => decide (w < 0) | none => false)

/-- Multiply every stored value by `w` (`d *= iso_value`). -/
def vecScale (w : Int) (v : Vec) : Vec := fun j => (v j).map (fun x => w * x)

/-- A graph in the shape the Graph Handle collaborator presents to this core:
a node count, an edge list (endpoints are already row/column ids, the node
key ↔ id bijection being external), and the directedness flag.  The cached
derived properties (`offdiag`, `diag`, `is_iso`, …) are computed below. -/
structure Graph where
  n : Nat
  edges : List (Nat × Nat × Int)
  directed : Bool

namespace Graph

/-- The adjacency matrix `G._A`. -/
def adj (G : Graph) (i j : Nat) : Option Int :=
  (G.edges.find? fun e => e.1 == i && e.2.1 == j).map (fun e => e.2.2)

/-- Cached property `offdiag`: the adjacency matrix with self-loops removed. -/
def offdiag (G : Graph) : Mtx := fun i j =>
  if i == j then none else G.adj i j

/-- Cached property `diag`: the self-loop weights. -/
def diag (G : Graph) : Vec := fun i => G.adj i i

/-- Cached property `is_iso`: every stored edge carries one shared value. -/
def is_iso (G : Graph) : Bool :=
  match G.edges with
  | [] => false
  | e :: es => es.all fun x => x.2.2 == e.2.2

/-- Cached property `iso_value`: the shared edge value (meaningful when
`is_iso`). -/
def iso_value (G : Graph) : Int :=
  match G.edges with
  | [] => 0
  | e :: _ => e.2.2

/-- Cached property `has_negative_edges+` (self-loops included). -/
def has_negative_edges (G : Graph) : Bool :=
  G.edges.any fun e => decide (e.2.2 < 0)

/-- Cached property `has_negative_edges-` (self-loops excluded). -/
def has_negative_edges_offdiag (G : Graph) : Bool :=
  G.edges.any fun e => !(e.1 == e.2.1) && decide (e.2.2 < 0)

/-- Cached property `has_negative_diagonal`. -/
def has_negative_diagonal (G : Graph) : Bool :=
  (List.range G.n).any fun i =>
    match G.adj i i with
    | some w => decide (w < 0)
    | none => false

/-- `G._A[index, :].nvals > 0`: does row `i` of the full adjacency matrix
hold any entry? -/
def rowNonempty (G : Graph) (i : Nat) : Bool :=
  (List.range G.n).any fun j => (G.adj i j).isSome

/-- Structural support of the cached `total_degrees-` vector (directed
graphs): the node has an off-diagonal out- or in-edge. -/
def totalDegSeed (G : Graph) (i : Nat) : Bool :=
  ((List.range G.n).any fun j => (G.offdiag i j).isSome) ||
    ((List.range G.n).any fun j => (G.offdiag j i).isSome)

/-- Structural support of the cached `degrees-` vector (undirected graphs). -/
def degSeed (G : Graph) (i : Nat) : Bool :=
  (List.range G.n).any fun j => (G.offdiag i j).isSome

/-- Well-formedness guaranteed by the Graph Handle: edge endpoints live in
the id space, at most one stored weight per (row, column) pair, and the
adjacency of an undirected graph is symmetric. -/
def WF (G : Graph) : Prop :=
  (∀ e ∈ G.edges, e.1 < G.n ∧ e.2.1 < G.n) ∧
  (G.edges.map fun e => (e.1, e.2.1)).Nodup ∧
  (G.directed = false → ∀ i ∈ List.range G.n, ∀ j ∈ List.range G.n,
    G.adj i j = G.adj j i)

instance (G : Graph) : Decidable G.WF := by
  unfold WF; infer_instance

end Graph

/-- The seed vector of the single-source form: `d[index] = 0`. -/
def srcSingle (source : Nat) : Nat → Bool := fun u => u == source

/-- A seed indicator turned into the initial distance vector
(`d(seeds.S) << 0`). -/
def seedVec (src : Nat → Bool) : Vec := fun j => if src j then some 0 else none

/-- The body of one Bellman-Ford relaxation round, shared verbatim by the
single-source loop, the matrix loop (rowwise) and the detector loop:
relax the frontier, prune by the cutoff, mask to the strictly improved
entries, and merge them into the distance container. -/
def bfStep (n : Nat) (A : Mtx) (c : Option Int) (d cur : Vec) : Vec × Vec :=
  let cur1 := applyCutoff c (minPlusMV n cur A)
  let cur2 := maskV (improveMask cur1 d) cur1
  (mergeS d cur2, cur2)

/-- The `for _i in range(n - 1)` relaxation loop with its early break on an
empty frontier.  Returns the distance container, the final frontier, and
whether the loop broke early (the `for`-`else` flag). -/
def bfLoop (n : Nat) (A : Mtx) (c : Option Int) :
    Nat → Vec → Vec → Vec × Vec × Bool
  | 0, d, cur => (d, cur, false)
  | fuel + 1, d, cur =>
    let st := bfStep n A c d cur
    if vecEmptyB n st.2 then (d, st.2, true)
    else bfLoop n A c fuel st.1 st.2

/-- The general (non-iso) part of `single_source_bellman_ford_path_length`:
seed 0 at the source, run the `n-1` round loop over `offdiag`, perform the
`for`-`else` extra-round improvement check, then re-introduce the removed
self-loops and fail if a negative one was reached. -/
def bellmanGeneral (G : Graph) (source : Nat) (cutoff : Option Int) :
    Except Err Vec :=
  let A := G.offdiag
  let n := G.n
  let d0 := seedVec (srcSingle source)
  let res := bfLoop n A cutoff (n - 1) d0 d0
  if res.2.2 = false &&
      anyLt n (applyCutoff cutoff (minPlusMV n res.2.1 A)) res.1 then
    .error .unbounded
  else if G.has_negative_diagonal && anyNegDiagReached n res.1 G.diag then
    .error .unbounded
  else
    .ok res.1

/-- Modelled from the spec: `_bfs_level` (the Level-BFS Engine, §4.1) is not
part of the sources under verification.  One frontier round: the nodes with
an incoming edge from the frontier (transposed when requested) that are not
yet visited. -/
def bfsFront (n : Nat) (A : Mtx) (transpose : Bool) (v : Vec)
    (q : Nat → Bool) : Nat → Bool := fun j =>
  ((List.range n).any fun i =>
    q i && (if transpose then A j i else A i j).isSome) && (v j).isNone

/-- Modelled from the spec: the Level-BFS loop — repeatedly expand the
frontier under the existence semiring, mask out visited nodes, record the
current hop count, and stop on an empty frontier or when the depth bound is
exhausted. -/
def bfsLevelLoop (n : Nat) (A : Mtx) (transpose : Bool) :
    Nat → Vec → (Nat → Bool) → Int → Vec
  | 0, v, _, _ => v
  | fuel + 1, v, q, k =>
    let q1 := bfsFront n A transpose v q
    if (List.range n).all (fun j => !q1 j) then v
    else
      bfsLevelLoop n A transpose fuel
        (fun j => if q1 j then some k else v j) q1 (k + 1)

/-- Modelled from the spec: `_bfs_level(G, source, cutoff)` — hop count from
`source` to every node reachable within the depth bound; the source maps
to 0, unreachable nodes are absent.  Without a bound the frontier empties
after at most `n - 1` expansions, so that is the fuel used; a bound below 0
allows no expansion at all. -/
def bfs_level (G : Graph) (source : Nat) (bound : Option Int)
    (transpose : Bool) : Vec :=
  let fuel := match bound with
    | none => G.n - 1
    | some b => min b.toNat (G.n - 1)
  bfsLevelLoop G.n G.adj transpose fuel
    (fun j => if j == source then some 0 else none) (srcSingle source) 1

/-- Modelled from the spec: `_bfs_plain` — plain reachability BFS; its result
holds an entry for every node reachable from the source, the source itself
included (hop levels are not needed, only the structural support). -/
def bfs_plain (G : Graph) (source : Nat) (transpose : Bool) :
    Nat → Option Bool := fun j =>
  if (bfs_level G source none transpose j).isSome then some true else none

/-- `single_source_bellman_ford_path_length(G, source, cutoff=None)`:
iso-valued fast path first (Level-BFS scaled by the shared edge value, with
the cutoff floor-divided by that value), the easy negative-cycle
short-circuits for a negative iso value, and otherwise the general
Bellman-Ford relaxation over `offdiag`. -/
def single_source_bellman_ford_path_length (G : Graph) (source : Nat)
    (cutoff : Option Int) : Except Err Vec :=
  if G.is_iso then
    if !G.has_negative_edges then
      if cutoff.isSome && G.iso_value == 0 then
        .error .zeroDivision
      else
        let bound := cutoff.map fun c => Int.fdiv c G.iso_value
        let d := bfs_level G source bound false
        .ok (if G.iso_value == 1 then d else vecScale G.iso_value d)
    else if (G.adj source source).isSome then
      .error .unbounded
    else if !G.directed && G.rowNonempty source then
      .error .unbounded
    else
      bellmanGeneral G source cutoff
  else
    bellmanGeneral G source cutoff

/-- `negative_edge_cycle(G)`: short-circuit on a negative self-loop or on the
absence of any negative off-diagonal edge, otherwise seed 0 at every node
with nonzero (self-loop-free) degree and run the same relaxation loop; an
early empty frontier answers `False`, a persisting improvement after the
`n - 1` rounds answers `True`. -/
def negative_edge_cycle (G : Graph) : Bool :=
  if G.has_negative_diagonal then true
  else if !G.has_negative_edges_offdiag then false
  else
    let A := G.offdiag
    let n := G.n
    let seeds := if G.directed then G.totalDegSeed else G.degSeed
    let d0 := seedVec seeds
    let res := bfLoop n A none (n - 1) d0 d0
    if res.2.2 then false
    else anyLt n (minPlusMV n res.2.1 A) res.1

/-- The rowwise state of the matrix (multi-source) form: row `r` of the
`Cur`/`D` matrices. -/
abbrev MtxState := (Nat → Vec) × (Nat → Vec)

/-- `Cur.nvals == 0` for the matrix loop (all rows empty). -/
def matEmptyB (rows n : Nat) (M : Nat → Vec) : Bool :=
  (List.range rows).all fun r => vecEmptyB n (M r)

/-- The matrix relaxation loop of `bellman_ford_path_lengths`: the same
round body applied to every row, with a global empty-frontier break. -/
def bfLoopM (rows n : Nat) (A : Mtx) :
    Nat → (Nat → Vec) → (Nat → Vec) → (Nat → Vec) × (Nat → Vec) × Bool
  | 0, D, Cur => (D, Cur, false)
  | fuel + 1, D, Cur =>
    let C2 := fun r => (bfStep n A none (D r) (Cur r)).2
    if matEmptyB rows n C2 then (D, C2, true)
    else bfLoopM rows n A fuel (fun r => mergeS (D r) (C2 r)) C2

/-- `Mask << binary.lt(Cur & D); Mask.reduce_scalar(monoid.lor)`. -/
def anyLtM (rows n : Nat) (Cur D : Nat → Vec) : Bool :=
  (List.range rows).any fun r => anyLt n (Cur r) (D r)

/-- `any_pair(D @ cur).nvals > 0` for the matrix self-loop check. -/
def anyNegDiagReachedM (rows n : Nat) (D : Nat → Vec) (diagv : Vec) : Bool :=
  (List.range rows).any fun r => anyNegDiagReached n (D r) diagv

/-- `rv = Matrix(dtype, n, n); rv[ids, :] = D`: scatter the rows of `D` to
the row ids in `ids`, every other row entirely absent. -/
def expandRows (ids : List Nat) (D : Nat → Vec) : Nat → Vec := fun r =>
  if ids.contains r then D (ids.indexOf r) else fun _ => none

/-- Modelled from the spec: `_bfs_levels(G, nodes)` — the multi-source
Level-BFS, one row per requested source (every node when `nodes` is absent). -/
def bfs_levels (G : Graph) (nodes : Option (List Nat)) : Nat → Vec :=
  match nodes with
  | none => fun r => bfs_level G r none false
  | some ns => fun r =>
    match ns[r]? with
    | some s => bfs_level G s none false
    | none => fun _ => none

/-- The initial distance matrix of the general matrix path: the 0-diagonal
over every node when `nodes` is `None`, else one row per listed source with
a single 0 at that source's id. -/
def matSeed (nodes : Option (List Nat)) : Nat → Vec :=
  match nodes with
  | none => fun r => seedVec (srcSingle r)
  | some ns => fun r =>
    match ns[r]? with
    | some s => seedVec (srcSingle s)
    | none => fun _ => none

/-- Number of rows of the distance matrix. -/
def matRows (G : Graph) (nodes : Option (List Nat)) : Nat :=
  match nodes with
  | none => G.n
  | some ns => ns.length

/-- `bellman_ford_path_lengths(G, nodes=None, *, expand_output=False)`: the
single-source algorithm broadcast over the requested sources as a matrix of
row vectors, with the same iso fast path (no cutoff exists in this form) and
the optional expansion of the result back to full node-count width. -/
def bellman_ford_path_lengths (G : Graph) (nodes : Option (List Nat))
    (expand_output : Bool) : Except Err (Nat → Vec) :=
  let rows := matRows G nodes
  if G.is_iso &&
      (!G.has_negative_edges ||
        (!G.directed &&
          (match nodes with
            | some ns => ns.any fun s => G.rowNonempty s
            | none => decide (0 < G.edges.length)))) then
    if !G.has_negative_edges then
      let D0 := bfs_levels G nodes
      let D := if G.iso_value == 1 then D0
        else fun r => vecScale G.iso_value (D0 r)
      if nodes.isSome && expand_output && rows != G.n then
        .ok (expandRows nodes.iget D)
      else
        .ok D
    else
      -- for undirected graphs, any (iso-negative) edge at a source is a cycle
      .error .unbounded
  else
    let A := G.offdiag
    let n := G.n
    let res := bfLoopM rows n A (n - 1) (matSeed nodes) (matSeed nodes)
    if res.2.2 = false &&
        anyLtM rows n (fun r => minPlusMV n (res.2.1 r) A) res.1 then
      .error .unbounded
    else if G.has_negative_diagonal &&
        anyNegDiagReachedM rows n res.1 G.diag then
      .error .unbounded
    else if nodes.isSome && expand_output && rows != G.n then
      .ok (expandRows nodes.iget res.1)
    else
      .ok res.1

/-- `descendants(G, source)` (`dag.py`): plain BFS reachability with the
source's own entry deleted before returning. -/
def descendants (G : Graph) (source : Nat) : Nat → Option Bool := fun j =>
  if j == source then none else bfs_plain G source false j

/-- `ancestors(G, source)` (`dag.py`): the same over the transposed
adjacency, with the source's own entry deleted before returning. -/
def ancestors (G : Graph) (source : Nat) : Nat → Option Bool := fun j =>
  if j == source then none else bfs_plain G source true j

/-! ### Specification-level notions: walks, simple paths, negative cycles -/

/-- Weight of the walk that starts at `u` and then visits the nodes of `l`
in order: `some` of the sum of the traversed edge weights when every step is
an edge of `A`, `none` otherwise.  The empty walk has weight 0. -/
def walkWeight (A : Mtx) : Nat → List Nat → Option Int
  | _, [] => some 0
  | u, v :: l =>
    match A u v, walkWeight A v l with
    | some w, some x => some (w + x)
    | _, _ => none

/-- Final node of the walk `u :: l`. -/
def walkEnd : Nat → List Nat → Nat
  | u, [] => u
  | _, v :: l => walkEnd v l

/-- The reference relaxation recursion: `relaxW n A c src k j` is the value
the cutoff-pruned Bellman-Ford search can know for `j` after `k` rounds —
the minimum of the previous value and the pruned full relaxation.  With
`c = none` it is exactly the least weight of a walk from a seed to `j` using
at most `k` edges. -/
def relaxW (n : Nat) (A : Mtx) (c : Option Int) (src : Nat → Bool) :
    Nat → Vec
  | 0 => seedVec src
  | k + 1 => fun j =>
    optMin (relaxW n A c src k j)
      (applyCutoff c (minPlusMV n (relaxW n A c src k) A) j)

/-- Every duplicate-free list over the id space arises here: all
permutations of all sublists of `0..n-1`. -/
def insertions (a : Nat) : List Nat → List (List Nat)
  | [] => [[a]]
  | b :: t => (a :: b :: t) :: (insertions a t).map (fun l => b :: l)

/-- All permutations of a list, by inserting the head everywhere in every
permutation of the tail (kept structurally recursive so that concrete
instances evaluate). -/
def perms : List Nat → List (List Nat)
  | [] => [[]]
  | a :: t => (perms t).flatMap (insertions a)

def simpleLists (n : Nat) : List (List Nat) :=
  ((List.range n).sublists.map perms).flatten

/-- The reference shortest-path length: the minimum weight of a
duplicate-free walk (a simple path) from a seed of `src` to `j`.  `none`
when no such path exists. -/
def spLen (n : Nat) (A : Mtx) (src : Nat → Bool) (j : Nat) : Option Int :=
  optMinList ((List.range n).flatMap fun u =>
    (simpleLists n).map fun l =>
      if src u = true ∧ (u :: l).Nodup ∧ walkEnd u l = j then
        walkWeight A u l
      else none)

/-- `j` is reachable from `u` (the empty walk makes every node reachable
from itself). -/
def HasWalk (A : Mtx) (u j : Nat) : Prop :=
  ∃ l, (walkWeight A u l).isSome ∧ walkEnd u l = j

/-- A negative cycle based at `j`: a nonempty closed walk of negative total
weight through `j`. -/
def NegCycleFrom (A : Mtx) (j : Nat) : Prop :=
  ∃ l x, l ≠ [] ∧ walkEnd j l = j ∧ walkWeight A j l = some x ∧ x < 0

/-- Some seed of `src` reaches a node carrying a negative cycle. -/
def NegCycleReachable (A : Mtx) (src : Nat → Bool) : Prop :=
  ∃ u j, src u = true ∧ HasWalk A u j ∧ NegCycleFrom A j

/-- A negative cycle exists somewhere in the graph. -/
def HasNegCycle (A : Mtx) : Prop := ∃ j, NegCycleFrom A j

/-- No edge carries a negative weight. -/
def AllNonNeg (G : Graph) : Prop := ∀ e ∈ G.edges, 0 ≤ e.2.2

/-- The structural skeleton of a matrix: every stored edge re-weighted to 1,
for hop counting. -/
def unitOf (A : Mtx) : Mtx := fun i j => (A i j).map fun _ => 1

/-- The level-BFS hop count as a specification value: the length of a
shortest duplicate-free path from `source` to `j` in the edge skeleton. -/
def hopLen (G : Graph) (source j : Nat) : Option Int :=
  spLen G.n (unitOf G.adj) (srcSingle source) j

/-- Concrete view of a sparse vector over the id space, for closed
statements about concrete runs. -/
def vecList (n : Nat) (v : Vec) : List (Option Int) := (List.range n).map v

/-- Min-plus "addition" of optional weights: absent (+∞) absorbs. -/
def oadd : Option Int → Option Int → Option Int
  | some a, some b => some (a + b)
  | _, _ => none

/-- Pointwise view of `applyCutoff`: filter one optional value. -/
def cutF (c : Option Int) (x : Option Int) : Option Int :=
  match c, x with
  | none, x => x
  | some cc, some v => if v ≤ cc then some v else none
  | some _, none => none

/-- The reference frontier: after round `k` the frontier holds exactly the
entries that strictly improved in that round (after round 0 it is the seed
vector itself). -/
def frontSpec (n : Nat) (A : Mtx) (c : Option Int) (src : Nat → Bool) :
    Nat → Vec
  | 0 => seedVec src
  | k + 1 => fun j =>
    if optLT (relaxW n A c src (k + 1) j) (relaxW n A c src k j) then
      relaxW n A c src (k + 1) j
    else none

/-- The seed indicator of each row of the matrix form: row `r` seeds the
`r`-th requested source (or nothing for an out-of-range row). -/
def matSrcs (nodes : Option (List Nat)) : Nat → Nat → Bool :=
  match nodes with
  | none => fun r => srcSingle r
  | some ns => fun r =>
    match ns[r]? with
    | some s => srcSingle s
    | none => fun _ => false

/-- Scenario A: the directed triangle `0→1:1, 1→2:1, 2→0:1`. -/
def GA : Graph := ⟨3, [(0, 1, 1), (1, 2, 1), (2, 0, 1)], true⟩

/-- Scenario B: the directed 2-cycle `0→1:1, 1→0:-3` (cycle weight `-2`). -/
def GB : Graph := ⟨2, [(0, 1, 1), (1, 0, -3)], true⟩

/-- Scenario D: the iso-weighted path `0→1:2, 1→2:2, 2→3:2`. -/
def GD : Graph := ⟨4, [(0, 1, 2), (1, 2, 2), (2, 3, 2)], true⟩

/-- A directed acyclic graph with a negative shortcut: `0→1:5, 0→2:4,
1→2:-2`, whose true shortest distance to node 2 is `3 = 5 - 2`. -/
def Gcx1 : Graph := ⟨3, [(0, 1, 5), (0, 2, 4), (1, 2, -2)], true⟩

/-- A single zero-weight edge `0→1:0` (`iso_value = 0`). -/
def GcxZ : Graph := ⟨2, [(0, 1, 0)], true⟩

-- ### Theorems

/-! ### The optional-weight order -/

theorem optLE_none_right (a : Option Int) : optLE a none = true := by
  cases a <;> rfl

theorem optLE_refl (a : Option Int) : optLE a a = true := by
  cases a <;> simp [optLE]

theorem optLE_trans {a b c : Option Int} (h1 : optLE a b = true)
    (h2 : optLE b c = true) : optLE a c = true := by
  cases a <;> cases b <;> cases c <;> simp_all [optLE] <;> omega

theorem optLE_antisymm {a b : Option Int} (h1 : optLE a b = true)
    (h2 : optLE b a = true) : a = b := by
  cases a <;> cases b <;> simp_all [optLE] <;> omega

theorem optLE_some_some {x y : Int} : optLE (some x) (some y) = true ↔ x ≤ y := by
  simp [optLE]

theorem optLE_none_left {b : Option Int} (h : optLE none b = true) : b = none := by
  cases b <;> simp_all [optLE]

theorem optMin_le_left (a b : Option Int) : optLE (optMin a b) a = true := by
  cases a <;> cases b <;> simp [optMin, optLE] <;> omega

theorem optMin_le_right (a b : Option Int) : optLE (optMin a b) b = true := by
  cases a <;> cases b <;> simp [optMin, optLE] <;> omega

theorem le_optMin {x a b : Option Int} (h1 : optLE x a = true)
    (h2 : optLE x b = true) : optLE x (optMin a b) = true := by
  cases x <;> cases a <;> cases b <;> simp_all [optMin, optLE] <;> omega

theorem optMin_cases (a b : Option Int) : optMin a b = a ∨ optMin a b = b := by
  cases a with
  | none => right; rfl
  | some x =>
    cases b with
    | none => left; rfl
    | some y =>
      rcases le_total x y with h | h
      · left; simp [optMin, min_eq_left h]
      · right; simp [optMin, min_eq_right h]

theorem optMin_eq_left {a b : Option Int} (h : optLE a b = true) :
    optMin a b = a := by
  cases a <;> cases b <;> simp_all [optMin, optLE] <;> omega

theorem optLT_iff_not_ge {a b : Option Int} :
    optLT a b = true ↔ ¬ optLE b a = true := by
  cases a <;> cases b <;> simp [optLT, optLE] <;> omega

theorem optLT_le {a b : Option Int} (h : optLT a b = true) :
    optLE a b = true := by
  cases a <;> cases b <;> simp_all [optLT, optLE] <;> omega

theorem optLE_total (a b : Option Int) :
    optLE a b = true ∨ optLE b a = true := by
  cases a <;> cases b <;> simp [optLE] <;> omega

theorem optLT_some_none {x : Int} : optLT (some x) none = true := rfl

/-! ### Minimum over a list of optional weights -/

theorem optMinList_le {l : List (Option Int)} {x : Option Int} (h : x ∈ l) :
    optLE (optMinList l) x = true := by
  induction l with
  | nil => cases h
  | cons a t ih =>
    rcases List.mem_cons.mp h with rfl | hx
    · exact optMin_le_left _ _
    · exact optLE_trans (optMin_le_right a (optMinList t)) (ih hx)

theorem le_optMinList {l : List (Option Int)} {y : Option Int}
    (h : ∀ x ∈ l, optLE y x = true) : optLE y (optMinList l) = true := by
  induction l with
  | nil => exact optLE_none_right y
  | cons a t ih =>
    exact le_optMin (h a (List.mem_cons_self a t))
      (ih fun x hx => h x (List.mem_cons_of_mem a hx))

theorem optMinList_attained {l : List (Option Int)} {v : Int}
    (h : optMinList l = some v) : some v ∈ l := by
  induction l with
  | nil => simp [optMinList] at h
  | cons a t ih =>
    have hc : optMin a (optMinList t) = some v := h
    rcases optMin_cases a (optMinList t) with he | he
    · rw [he] at hc
      rw [hc]
      exact List.mem_cons_self _ _
    · rw [he] at hc
      exact List.mem_cons_of_mem a (ih hc)

/-! ### Pointwise behaviour of the round operations -/

theorem applyCutoff_eq (c : Option Int) (v : Vec) (j : Nat) :
    applyCutoff c v j = cutF c (v j) := by
  cases c with
  | none => rfl
  | some cc => cases h : v j <;> simp [applyCutoff, selectValueLE, cutF, h]

theorem cutF_mono {c : Option Int} {a b : Option Int} (h : optLE a b = true) :
    optLE (cutF c a) (cutF c b) = true := by
  cases c with
  | none => exact h
  | some cc =>
    cases a <;> cases b <;> simp_all [cutF, optLE]
    next x y =>
      rcases le_or_lt y cc with hy | hy
      · simp [hy]
        rcases le_or_lt x cc with hx | hx
        · simp [hx, optLE]; omega
        · omega
      · simp [not_le.mpr hy, optLE_none_right]

theorem cutF_le {c : Option Int} (a : Option Int) :
    optLE a (cutF c a) = true := by
  cases c with
  | none => exact optLE_refl a
  | some cc =>
    cases a with
    | none => rfl
    | some x =>
      by_cases hx : x ≤ cc
      · simp [cutF, hx, optLE]
      · simp [cutF, hx, optLE_none_right]

theorem cutF_some {c : Option Int} {a : Option Int} {v : Int}
    (h : cutF c a = some v) : a = some v := by
  cases c with
  | none => exact h
  | some cc =>
    cases a with
    | none => simp [cutF] at h
    | some x =>
      by_cases hx : x ≤ cc
      · simp [cutF, hx] at h
        rw [h]
      · simp [cutF, hx] at h

theorem cutF_some_le {cc : Int} {a : Option Int} {v : Int}
    (h : cutF (some cc) a = some v) : v ≤ cc := by
  cases a with
  | none => simp [cutF] at h
  | some x =>
    by_cases hx : x ≤ cc
    · simp [cutF, hx] at h
      omega
    · simp [cutF, hx] at h

theorem cutF_keep {cc : Int} {v : Int} (h : v ≤ cc) :
    cutF (some cc) (some v) = some v := by simp [cutF, h]

theorem minPlusMV_le {n : Nat} {cur : Vec} {A : Mtx} {i j : Nat} {ci w : Int}
    (hi : i < n) (hc : cur i = some ci) (hA : A i j = some w) :
    optLE (minPlusMV n cur A j) (some (ci + w)) = true := by
  apply optMinList_le
  rw [List.mem_map]
  exact ⟨i, List.mem_range.mpr hi, by rw [hc, hA]⟩

theorem minPlusMV_attained {n : Nat} {cur : Vec} {A : Mtx} {j : Nat} {v : Int}
    (h : minPlusMV n cur A j = some v) :
    ∃ i < n, ∃ ci w, cur i = some ci ∧ A i j = some w ∧ v = ci + w := by
  have hm := optMinList_attained h
  rw [List.mem_map] at hm
  obtain ⟨i, hir, hi⟩ := hm
  refine ⟨i, List.mem_range.mp hir, ?_⟩
  cases hci : cur i with
  | none => rw [hci] at hi; simp at hi
  | some ci =>
    cases hAi : A i j with
    | none => rw [hci, hAi] at hi; simp at hi
    | some w =>
      rw [hci, hAi] at hi
      exact ⟨ci, w, rfl, rfl, by injection hi with h2; omega⟩

theorem le_minPlusMV {n : Nat} {cur : Vec} {A : Mtx} {j : Nat} {y : Option Int}
    (h : ∀ i < n, ∀ ci w, cur i = some ci → A i j = some w →
      optLE y (some (ci + w)) = true) :
    optLE y (minPlusMV n cur A j) = true := by
  apply le_optMinList
  intro x hx
  rw [List.mem_map] at hx
  obtain ⟨i, hir, hi⟩ := hx
  cases hci : cur i with
  | none => rw [hci] at hi; simp at hi; rw [← hi]; exact optLE_none_right y
  | some ci =>
    cases hAi : A i j with
    | none => rw [hci, hAi] at hi; simp at hi; rw [← hi]; exact optLE_none_right y
    | some w =>
      rw [hci, hAi] at hi
      rw [← hi]
      exact h i (List.mem_range.mp hir) ci w hci hAi

/-- Relaxing a pointwise-smaller frontier can only give smaller results. -/
theorem minPlusMV_mono {n : Nat} {c1 c2 : Vec} {A : Mtx} {j : Nat}
    (h : ∀ i, optLE (c1 i) (c2 i) = true) :
    optLE (minPlusMV n c1 A j) (minPlusMV n c2 A j) = true := by
  apply le_minPlusMV
  intro i hi ci w hci hAi
  have hle := h i
  rw [hci] at hle
  cases hc1 : c1 i with
  | none => exact absurd (optLE_none_left (hc1 ▸ hle)) (by simp [hci])
  | some x =>
    have hx : x ≤ ci := by
      rw [hc1] at hle
      exact optLE_some_some.mp hle
    exact optLE_trans (minPlusMV_le hi hc1 hAi)
      (optLE_some_some.mpr (by omega))

/-! ### Basic facts about the reference recursion -/

theorem optLT_some_left {a b : Option Int} (h : optLT a b = true) :
    ∃ x, a = some x := by
  cases a with
  | none => simp [optLT] at h
  | some x => exact ⟨x, rfl⟩

theorem opt_eq_of_le_not_lt {a b : Option Int} (hle : optLE a b = true)
    (hnlt : optLT a b = false) : a = b := by
  cases a <;> cases b <;> simp_all [optLE, optLT] <;> omega

theorem cutF_none (c : Option Int) : cutF c none = none := by
  cases c <;> rfl

theorem optMinList_none {l : List (Option Int)}
    (h : ∀ x ∈ l, x = none) : optMinList l = none := by
  induction l with
  | nil => rfl
  | cons a t ih =>
    have ha := h a (List.mem_cons_self a t)
    have ht := ih fun x hx => h x (List.mem_cons_of_mem a hx)
    show optMin a (optMinList t) = none
    rw [ha, ht]
    rfl

theorem minPlusMV_congr {n : Nat} {v1 v2 : Vec} {A : Mtx}
    (h : ∀ i, v1 i = v2 i) : minPlusMV n v1 A = minPlusMV n v2 A := by
  have : v1 = v2 := funext h
  rw [this]

theorem relaxW_succ (n : Nat) (A : Mtx) (c : Option Int) (src : Nat → Bool)
    (k : Nat) (j : Nat) :
    relaxW n A c src (k + 1) j =
      optMin (relaxW n A c src k j)
        (cutF c (minPlusMV n (relaxW n A c src k) A j)) := by
  show optMin _ (applyCutoff c (minPlusMV n (relaxW n A c src k) A) j) = _
  rw [applyCutoff_eq]

theorem relaxW_step_le (n : Nat) (A : Mtx) (c : Option Int) (src : Nat → Bool)
    (k : Nat) (j : Nat) :
    optLE (relaxW n A c src (k + 1) j) (relaxW n A c src k j) = true := by
  rw [relaxW_succ]
  exact optMin_le_left _ _

theorem relaxW_anti (n : Nat) (A : Mtx) (c : Option Int) (src : Nat → Bool)
    {k m : Nat} (h : k ≤ m) (j : Nat) :
    optLE (relaxW n A c src m j) (relaxW n A c src k j) = true := by
  induction m with
  | zero =>
    have : k = 0 := Nat.le_zero.mp h
    rw [this]
    exact optLE_refl _
  | succ m ih =>
    rcases Nat.lt_or_ge k (m + 1) with hk | hk
    · exact optLE_trans (relaxW_step_le n A c src m j) (ih (Nat.lt_succ_iff.mp hk))
    · have : k = m + 1 := Nat.le_antisymm h hk
      rw [this]
      exact optLE_refl _

theorem relaxW_stable (n : Nat) (A : Mtx) (c : Option Int) (src : Nat → Bool)
    {k : Nat} (h : ∀ j, relaxW n A c src (k + 1) j = relaxW n A c src k j) :
    ∀ m, k ≤ m → ∀ j, relaxW n A c src m j = relaxW n A c src k j := by
  intro m
  induction m with
  | zero =>
    intro hm j
    have : k = 0 := Nat.le_zero.mp hm
    rw [this]
  | succ m ih =>
    intro hm j
    rcases Nat.lt_or_ge k (m + 1) with hk | hk
    · have hkm : k ≤ m := Nat.lt_succ_iff.mp hk
      have hmk : ∀ i, relaxW n A c src m i = relaxW n A c src k i := ih hkm
      rw [relaxW_succ]
      have hmp : minPlusMV n (relaxW n A c src m) A =
          minPlusMV n (relaxW n A c src k) A := minPlusMV_congr hmk
      rw [hmk j, hmp]
      have := h j
      rw [relaxW_succ] at this
      exact this
    · have : k = m + 1 := Nat.le_antisymm hm hk
      rw [this]

theorem relaxW_support {n : Nat} {A : Mtx} {c : Option Int} {src : Nat → Bool}
    (hA : ∀ i j, n ≤ j → A i j = none) (hsrc : ∀ j, n ≤ j → src j = false)
    (k : Nat) : ∀ j, n ≤ j → relaxW n A c src k j = none := by
  induction k with
  | zero =>
    intro j hj
    show seedVec src j = none
    simp [seedVec, hsrc j hj]
  | succ k ih =>
    intro j hj
    rw [relaxW_succ, ih j hj]
    have hmp : minPlusMV n (relaxW n A c src k) A j = none := by
      apply optMinList_none
      intro x hx
      rw [List.mem_map] at hx
      obtain ⟨i, _, hi⟩ := hx
      rw [hA i j hj] at hi
      cases h : relaxW n A c src k i <;> rw [h] at hi <;> exact hi.symm
    rw [hmp, cutF_none]
    rfl

theorem frontSpec_sub (n : Nat) (A : Mtx) (c : Option Int) (src : Nat → Bool)
    (k : Nat) (j : Nat) :
    frontSpec n A c src k j = relaxW n A c src k j ∨
      frontSpec n A c src k j = none := by
  cases k with
  | zero => left; rfl
  | succ k =>
    simp only [frontSpec]
    split
    · left; rfl
    · right; rfl

theorem frontSpec_support {n : Nat} {A : Mtx} {c : Option Int}
    {src : Nat → Bool}
    (hA : ∀ i j, n ≤ j → A i j = none) (hsrc : ∀ j, n ≤ j → src j = false)
    (k : Nat) : ∀ j, n ≤ j → frontSpec n A c src k j = none := by
  intro j hj
  rcases frontSpec_sub n A c src k j with h | h
  · rw [h]
    exact relaxW_support hA hsrc k j hj
  · exact h

theorem vecEmptyB_iff {n : Nat} {v : Vec} :
    vecEmptyB n v = true ↔ ∀ j < n, v j = none := by
  simp [vecEmptyB, List.all_eq_true, Option.isNone_iff_eq_none]

/-! ### The frontier invariant: the incremental loop computes `relaxW` -/

theorem optLT_irrefl (a : Option Int) : optLT a a = false := by
  cases a <;> simp [optLT]

theorem frontSpec_succ_none_iff (n : Nat) (A : Mtx) (c : Option Int)
    (src : Nat → Bool) (k : Nat) (j : Nat) :
    frontSpec n A c src (k + 1) j = none ↔
      relaxW n A c src (k + 1) j = relaxW n A c src k j := by
  simp only [frontSpec]
  split
  · next hlt =>
    obtain ⟨x, hx⟩ := optLT_some_left hlt
    constructor
    · intro h
      rw [h] at hx
      cases hx
    · intro h
      rw [h] at hlt
      rw [optLT_irrefl] at hlt
      cases hlt
  · next hlt =>
    simp only [true_iff]
    exact opt_eq_of_le_not_lt (relaxW_step_le n A c src k j)
      (Bool.not_eq_true _ |>.mp hlt)

theorem frontSpec_le_relaxW (n : Nat) (A : Mtx) (c : Option Int)
    (src : Nat → Bool) (k : Nat) (j : Nat) :
    optLE (relaxW n A c src k j) (frontSpec n A c src k j) = true := by
  rcases frontSpec_sub n A c src k j with h | h
  · rw [h]; exact optLE_refl _
  · rw [h]; exact optLE_none_right _

/-- Frontier adequacy: one pruned relaxation from the improved-only frontier,
merged with the current distances, is the same as one pruned relaxation from
the full distance vector. -/
theorem front_adequate (n : Nat) (A : Mtx) (c : Option Int) (src : Nat → Bool)
    (k : Nat) (j : Nat) :
    optMin (relaxW n A c src k j)
        (cutF c (minPlusMV n (frontSpec n A c src k) A j)) =
      relaxW n A c src (k + 1) j := by
  apply optLE_antisymm
  · -- ≤ : the incremental result refines every term of the full relaxation
    rw [relaxW_succ]
    apply le_optMin (optMin_le_left _ _)
    cases hmp : minPlusMV n (relaxW n A c src k) A j with
    | none => rw [cutF_none]; exact optLE_none_right _
    | some r =>
      obtain ⟨i0, hi0, ci, w, hci, hAw, hr⟩ := minPlusMV_attained hmp
      cases k with
      | zero =>
        have hFW : ∀ i, frontSpec n A c src 0 i = relaxW n A c src 0 i :=
          fun _ => rfl
        rw [minPlusMV_congr hFW, hmp]
        exact optMin_le_right _ _
      | succ m =>
        by_cases himp :
            optLT (relaxW n A c src (m + 1) i0) (relaxW n A c src m i0) = true
        · have hF : frontSpec n A c src (m + 1) i0 = some ci := by
            simp only [frontSpec, himp, if_true]
            exact hci
          have h1 : optLE (minPlusMV n (frontSpec n A c src (m + 1)) A j)
              (some (ci + w)) = true := minPlusMV_le hi0 hF hAw
          have h2 := @cutF_mono c _ _ h1
          rw [hr]
          exact optLE_trans (optMin_le_right _ _) h2
        · have heq : relaxW n A c src (m + 1) i0 = relaxW n A c src m i0 :=
            opt_eq_of_le_not_lt (relaxW_step_le n A c src m i0)
              (Bool.not_eq_true _ |>.mp himp)
          have hci2 : relaxW n A c src m i0 = some ci := heq ▸ hci
          have h1 : optLE (minPlusMV n (relaxW n A c src m) A j)
              (some (ci + w)) = true := minPlusMV_le hi0 hci2 hAw
          have h2 := @cutF_mono c _ _ h1
          have h3 : optLE (relaxW n A c src (m + 1) j)
              (cutF c (some (ci + w))) = true := by
            rw [relaxW_succ]
            exact optLE_trans (optMin_le_right _ _) h2
          rw [hr]
          exact optLE_trans (optMin_le_left _ _) h3
  · -- ≥ : relaxing a sub-vector of the distances can only give larger values
    rw [relaxW_succ]
    apply le_optMin (optMin_le_left _ _)
    have hsub : ∀ i, optLE (relaxW n A c src k i)
        (frontSpec n A c src k i) = true := frontSpec_le_relaxW n A c src k
    have h1 := @minPlusMV_mono n _ _ A j hsub
    exact optLE_trans (optMin_le_right _ _) (cutF_mono h1)

/-- One round of the loop body maps the reference state at `k` to the
reference state at `k + 1`. -/
theorem bfStep_inv (n : Nat) (A : Mtx) (c : Option Int) (src : Nat → Bool)
    (k : Nat) :
    bfStep n A c (relaxW n A c src k) (frontSpec n A c src k) =
      (relaxW n A c src (k + 1), frontSpec n A c src (k + 1)) := by
  have hcur1 : ∀ j,
      applyCutoff c (minPlusMV n (frontSpec n A c src k) A) j =
        cutF c (minPlusMV n (frontSpec n A c src k) A j) :=
    applyCutoff_eq c _
  have hadq : ∀ j,
      optMin (relaxW n A c src k j)
          (applyCutoff c (minPlusMV n (frontSpec n A c src k) A) j) =
        relaxW n A c src (k + 1) j := by
    intro j
    rw [hcur1 j]
    exact front_adequate n A c src k j
  have hcur : ∀ j,
      maskV (improveMask (applyCutoff c (minPlusMV n (frontSpec n A c src k) A))
          (relaxW n A c src k))
        (applyCutoff c (minPlusMV n (frontSpec n A c src k) A)) j =
      frontSpec n A c src (k + 1) j := by
    intro j
    set cur1 := applyCutoff c (minPlusMV n (frontSpec n A c src k) A) with hc1
    by_cases himp :
        optLT (relaxW n A c src (k + 1) j) (relaxW n A c src k j) = true
    · have hj : frontSpec n A c src (k + 1) j = relaxW n A c src (k + 1) j := by
        simp only [frontSpec, himp, if_true]
      obtain ⟨x, hx⟩ := optLT_some_left himp
      have hcur1x : cur1 j = some x := by
        rcases optMin_cases (relaxW n A c src k j) (cur1 j) with he | he
        · rw [hadq j] at he
          rw [hx] at he
          rw [hx, ← he] at himp
          rw [optLT_irrefl] at himp
          cases himp
        · rw [hadq j] at he
          rw [← he]
          exact hx
      rw [hj, hx]
      unfold maskV improveMask
      rw [hcur1x]
      cases hd : relaxW n A c src k j with
      | none => simp [← hcur1x]
      | some dv =>
        rw [hd, hx] at himp
        have : x < dv := by simpa [optLT] using himp
        simp [this, ← hcur1x]
    · have heq : relaxW n A c src (k + 1) j = relaxW n A c src k j :=
        opt_eq_of_le_not_lt (relaxW_step_le n A c src k j)
          (Bool.not_eq_true _ |>.mp himp)
      have hlt2 : optLT (relaxW n A c src (k + 1) j)
          (relaxW n A c src k j) = false := Bool.not_eq_true _ |>.mp himp
      have hj : frontSpec n A c src (k + 1) j = none := by
        simp only [frontSpec, hlt2]
        rfl
      rw [hj]
      have hdle : optLE (relaxW n A c src k j) (cur1 j) = true := by
        rcases optMin_cases (relaxW n A c src k j) (cur1 j) with he | he
        · rw [← he]
          exact optMin_le_right _ _
        · rw [hadq j, heq] at he
          rw [← he]
          exact optLE_refl _
      unfold maskV improveMask
      cases hcx : cur1 j with
      | none => rfl
      | some x =>
        cases hd : relaxW n A c src k j with
        | none =>
          rw [hd, hcx] at hdle
          simp [optLE] at hdle
        | some dv =>
          rw [hd, hcx] at hdle
          have : ¬ x < dv := by
            have := optLE_some_some.mp hdle
            omega
          simp [this]
  have hd : ∀ j,
      mergeS (relaxW n A c src k) (frontSpec n A c src (k + 1)) j =
        relaxW n A c src (k + 1) j := by
    intro j
    unfold mergeS
    cases hF : frontSpec n A c src (k + 1) j with
    | none =>
      exact ((frontSpec_succ_none_iff n A c src k j).mp hF).symm
    | some x =>
      have hx : relaxW n A c src (k + 1) j = some x := by
        rcases frontSpec_sub n A c src (k + 1) j with h | h
        · rw [← h]
          exact hF
        · rw [h] at hF
          cases hF
      rw [hx]
  have hcurF : maskV (improveMask
      (applyCutoff c (minPlusMV n (frontSpec n A c src k) A))
      (relaxW n A c src k))
      (applyCutoff c (minPlusMV n (frontSpec n A c src k) A)) =
      frontSpec n A c src (k + 1) := funext hcur
  unfold bfStep
  simp only [hcurF]
  rw [funext hd]

/-- The full loop with its early break: starting from the reference state at
round `k`, `fuel` more iterations land on the reference state at `k + fuel`,
and the loop broke early exactly when some round ran out of improvements —
equivalently (improvement emptiness being absorbing) when the final frontier
is empty and at least one round ran. -/
theorem bfLoop_spec {n : Nat} {A : Mtx} {c : Option Int} {src : Nat → Bool}
    (hA : ∀ i j, n ≤ j → A i j = none) (hsrc : ∀ j, n ≤ j → src j = false) :
    ∀ (fuel k : Nat),
    bfLoop n A c fuel (relaxW n A c src k) (frontSpec n A c src k) =
      (relaxW n A c src (k + fuel), frontSpec n A c src (k + fuel),
        (fuel != 0) && vecEmptyB n (frontSpec n A c src (k + fuel))) := by
  intro fuel
  induction fuel with
  | zero =>
    intro k
    simp [bfLoop]
  | succ fuel ih =>
    intro k
    simp only [bfLoop, bfStep_inv]
    by_cases hE : vecEmptyB n (frontSpec n A c src (k + 1)) = true
    · rw [if_pos hE]
      have hFnone : ∀ j, frontSpec n A c src (k + 1) j = none := by
        intro j
        rcases Nat.lt_or_ge j n with hj | hj
        · exact vecEmptyB_iff.mp hE j hj
        · exact frontSpec_support hA hsrc (k + 1) j hj
      have hWeq : ∀ j, relaxW n A c src (k + 1) j = relaxW n A c src k j :=
        fun j => (frontSpec_succ_none_iff n A c src k j).mp (hFnone j)
      have hstab := relaxW_stable n A c src hWeq
      have hFnone2 : ∀ j, frontSpec n A c src (k + (fuel + 1)) j = none := by
        intro j
        cases fuel with
        | zero => exact hFnone j
        | succ m =>
          apply (frontSpec_succ_none_iff n A c src (k + (m + 1)) j).mpr
          rw [hstab (k + (m + 1) + 1) (by omega) j,
            hstab (k + (m + 1)) (by omega) j]
      have e1 : relaxW n A c src (k + (fuel + 1)) = relaxW n A c src k :=
        funext fun j => hstab (k + (fuel + 1)) (by omega) j
      have e2 : frontSpec n A c src (k + (fuel + 1)) =
          frontSpec n A c src (k + 1) :=
        funext fun j => (hFnone2 j).trans (hFnone j).symm
      rw [e1, e2]
      simp [hE]
    · rw [if_neg hE]
      rw [ih (k + 1)]
      have harith : k + 1 + fuel = k + (fuel + 1) := by omega
      rw [harith]
      cases fuel with
      | zero =>
        have hEf : vecEmptyB n (frontSpec n A c src (k + (0 + 1))) = false := by
          have h01 : k + (0 + 1) = k + 1 := by omega
          rw [h01]
          exact Bool.eq_false_iff.mpr fun h => hE h
        rw [hEf]
        simp
      | succ m => simp

/-! ### Walks versus the reference recursion -/

theorem optLE_some_right {a : Option Int} {v : Int}
    (h : optLE a (some v) = true) : ∃ x, a = some x ∧ x ≤ v := by
  cases a with
  | none => simp [optLE] at h
  | some x => exact ⟨x, rfl, optLE_some_some.mp h⟩

theorem walkEnd_append (u : Nat) (l1 l2 : List Nat) :
    walkEnd u (l1 ++ l2) = walkEnd (walkEnd u l1) l2 := by
  induction l1 generalizing u with
  | nil => rfl
  | cons v t ih => exact ih v

theorem walkWeight_append (A : Mtx) (u : Nat) (l1 l2 : List Nat) :
    walkWeight A u (l1 ++ l2) =
      oadd (walkWeight A u l1) (walkWeight A (walkEnd u l1) l2) := by
  induction l1 generalizing u with
  | nil =>
    simp only [List.nil_append, walkWeight, walkEnd]
    cases h : walkWeight A u l2 with
    | none => rfl
    | some y =>
      show some y = some (0 + y)
      rw [Int.zero_add]
  | cons v t ih =>
    simp only [List.cons_append, walkWeight, walkEnd, List.append_eq]
    rw [ih v]
    cases hA : A u v with
    | none =>
      cases walkWeight A v t <;> cases walkWeight A (walkEnd v t) l2 <;> rfl
    | some w =>
      cases h1 : walkWeight A v t with
      | none => cases walkWeight A (walkEnd v t) l2 <;> rfl
      | some x =>
        cases h2 : walkWeight A (walkEnd v t) l2 with
        | none => rfl
        | some y =>
          show some (w + (x + y)) = some ((w + x) + y)
          rw [Int.add_assoc]

theorem walk_nodes_lt {n : Nat} {A : Mtx}
    (hA : ∀ i j, (A i j).isSome = true → i < n ∧ j < n) :
    ∀ (l : List Nat) (u : Nat) (x : Int), walkWeight A u l = some x →
      ∀ v ∈ l, v < n := by
  intro l
  induction l with
  | nil => intro u x _ v hv; cases hv
  | cons w t ih =>
    intro u x hw v hv
    unfold walkWeight at hw
    cases hAe : A u w with
    | none => rw [hAe] at hw; cases hw
    | some w0 =>
      rw [hAe] at hw
      cases ht : walkWeight A w t with
      | none => rw [ht] at hw; cases hw
      | some y =>
        rcases List.mem_cons.mp hv with rfl | hv2
        · exact (hA u v (by rw [hAe]; rfl)).2
        · exact ih w y ht v hv2

/-- Any seeded walk bounds the reference recursion from above (no cutoff). -/
theorem relaxW_le_walk {n : Nat} {A : Mtx} {src : Nat → Bool}
    (hA : ∀ i j, (A i j).isSome = true → i < n ∧ j < n) :
    ∀ (l : List Nat) (u : Nat) (k : Nat) (x : Int),
      src u = true → walkWeight A u l = some x → l.length ≤ k →
      optLE (relaxW n A none src k (walkEnd u l)) (some x) = true := by
  intro l
  induction l using List.reverseRecOn with
  | nil =>
    intro u k x hu hw _
    have hx : x = 0 := by
      have : (some 0 : Option Int) = some x := hw
      injection this with h
      omega
    have h0 : relaxW n A none src 0 u = some 0 := by
      show seedVec src u = some 0
      simp [seedVec, hu]
    have := relaxW_anti n A none src (Nat.zero_le k) u
    rw [h0] at this
    rw [hx]
    exact this
  | append_singleton l j ih =>
    intro u k x hu hw hlen
    rw [walkWeight_append] at hw
    cases h1 : walkWeight A u l with
    | none => rw [h1] at hw; cases hw
    | some y =>
      rw [h1] at hw
      cases h2 : walkWeight A (walkEnd u l) [j] with
      | none => rw [h2] at hw; cases hw
      | some z =>
        rw [h2] at hw
        have hx : y + z = x := by
          have : some (y + z) = some x := hw
          injection this
        -- the single final step is an edge
        have hAe : ∃ w0, A (walkEnd u l) j = some w0 ∧ z = w0 := by
          unfold walkWeight at h2
          cases hAe : A (walkEnd u l) j with
          | none => rw [hAe] at h2; cases h2
          | some w0 =>
            rw [hAe] at h2
            show ∃ w1, some w0 = some w1 ∧ z = w1
            refine ⟨w0, rfl, ?_⟩
            have : some (w0 + 0) = some z := h2
            injection this with h3
            omega
        obtain ⟨w0, hAe, hz⟩ := hAe
        have hllen : (l ++ [j]).length = l.length + 1 := by simp
        have hk : 1 ≤ k := by omega
        obtain ⟨k1, rfl⟩ : ∃ k1, k = k1 + 1 :=
          ⟨k - 1, by omega⟩
        have hlen1 : l.length ≤ k1 := by omega
        have hih := ih u k1 y hu h1 hlen1
        obtain ⟨y1, hy1, hy1le⟩ := optLE_some_right hih
        have hend : walkEnd u (l ++ [j]) = j := by
          rw [walkEnd_append]
          rfl
        rw [hend]
        have he_lt : walkEnd u l < n := (hA _ _ (by rw [hAe]; rfl)).1
        have hmp : optLE (minPlusMV n (relaxW n A none src k1) A j)
            (some (y1 + w0)) = true := minPlusMV_le he_lt hy1 hAe
        have hstep : optLE (relaxW n A none src (k1 + 1) j)
            (some (y1 + w0)) = true := by
          rw [relaxW_succ]
          refine optLE_trans (optMin_le_right _ _) ?_
          show optLE (cutF none _) _ = true
          exact hmp
        refine optLE_trans hstep (optLE_some_some.mpr ?_)
        omega

/-- Every present entry of the reference recursion is the weight of an
actual seeded walk (with any cutoff: pruning only discards candidates). -/
theorem relaxW_attained {n : Nat} {A : Mtx} {c : Option Int}
    {src : Nat → Bool} :
    ∀ (k : Nat) (j : Nat) (x : Int), relaxW n A c src k j = some x →
      ∃ u l, src u = true ∧ walkWeight A u l = some x ∧ walkEnd u l = j ∧
        l.length ≤ k := by
  intro k
  induction k with
  | zero =>
    intro j x h
    have hj : seedVec src j = some x := h
    by_cases hs : src j = true
    · refine ⟨j, [], hs, ?_, rfl, by simp⟩
      simp [seedVec, hs] at hj
      show (some 0 : Option Int) = some x
      rw [hj]
    · simp [seedVec, hs] at hj
  | succ k ih =>
    intro j x h
    rw [relaxW_succ] at h
    rcases optMin_cases (relaxW n A c src k j)
        (cutF c (minPlusMV n (relaxW n A c src k) A j)) with he | he
    · rw [he] at h
      obtain ⟨u, l, hu, hw, hend, hlen⟩ := ih j x h
      exact ⟨u, l, hu, hw, hend, by omega⟩
    · rw [he] at h
      have hmp := cutF_some h
      obtain ⟨i0, hi0, ci, w, hci, hAw, hx⟩ := minPlusMV_attained hmp
      obtain ⟨u, l, hu, hw, hend, hlen⟩ := ih i0 ci hci
      refine ⟨u, l ++ [j], hu, ?_, ?_, ?_⟩
      · rw [walkWeight_append, hw, hend]
        show oadd (some ci) (walkWeight A i0 [j]) = some x
        unfold walkWeight
        rw [hAw]
        show some (ci + (w + 0)) = some x
        rw [hx]
        norm_num
      · rw [walkEnd_append]
        rfl
      · rw [List.length_append]
        simp
        omega

/-! ### Cycle removal: every walk shortens to a simple path -/

theorem walkWeight_split {A : Mtx} {u : Nat} {l1 l2 : List Nat} {x : Int}
    (h : walkWeight A u (l1 ++ l2) = some x) :
    ∃ y z, walkWeight A u l1 = some y ∧
      walkWeight A (walkEnd u l1) l2 = some z ∧ x = y + z := by
  rw [walkWeight_append] at h
  cases h1 : walkWeight A u l1 with
  | none => rw [h1] at h; cases h
  | some y =>
    rw [h1] at h
    cases h2 : walkWeight A (walkEnd u l1) l2 with
    | none => rw [h2] at h; cases h
    | some z =>
      rw [h2] at h
      have : some (y + z) = some x := h
      injection this with hx
      exact ⟨y, z, rfl, rfl, hx.symm⟩

theorem walkWeight_join {A : Mtx} {u : Nat} {l1 l2 : List Nat} {y z : Int}
    (h1 : walkWeight A u l1 = some y)
    (h2 : walkWeight A (walkEnd u l1) l2 = some z) :
    walkWeight A u (l1 ++ l2) = some (y + z) := by
  rw [walkWeight_append, h1, h2]
  rfl

theorem walkEnd_concat (u : Nat) (L : List Nat) (a : Nat) :
    walkEnd u (L ++ [a]) = a := by
  rw [walkEnd_append]
  rfl

theorem hasWalk_refl (A : Mtx) (u : Nat) : HasWalk A u u :=
  ⟨[], by simp [walkWeight], rfl⟩

theorem hasWalk_of_walk {A : Mtx} {u : Nat} {l : List Nat} {x : Int}
    (h : walkWeight A u l = some x) : HasWalk A u (walkEnd u l) :=
  ⟨l, by simp [h], rfl⟩

theorem hasWalk_trans {A : Mtx} {u v w : Nat} (h1 : HasWalk A u v)
    (h2 : HasWalk A v w) : HasWalk A u w := by
  obtain ⟨l1, hs1, he1⟩ := h1
  obtain ⟨l2, hs2, he2⟩ := h2
  obtain ⟨x, hx⟩ := Option.isSome_iff_exists.mp hs1
  obtain ⟨y, hy⟩ := Option.isSome_iff_exists.mp hs2
  refine ⟨l1 ++ l2, ?_, ?_⟩
  · rw [walkWeight_join hx (by rw [he1]; exact hy)]
    rfl
  · rw [walkEnd_append, he1, he2]

theorem dup_split {l : List Nat} (h : ¬ l.Nodup) :
    ∃ a l1 l2 l3, l = l1 ++ (a :: (l2 ++ (a :: l3))) := by
  induction l with
  | nil => exact absurd List.nodup_nil h
  | cons x xs ih =>
    by_cases hx : x ∈ xs
    · obtain ⟨s, t, hst⟩ := List.append_of_mem hx
      exact ⟨x, [], s, t, by simp [hst]⟩
    · have hxs : ¬ xs.Nodup := by
        intro hn
        exact h (List.nodup_cons.mpr ⟨hx, hn⟩)
      obtain ⟨a, l1, l2, l3, hd⟩ := ih hxs
      exact ⟨a, x :: l1, l2, l3, by simp [hd]⟩

/-- Cycle removal with weights: when no closed walk reachable from `u` is
negative, every walk from `u` shortens to a duplicate-free walk with the
same endpoints and no greater weight. -/
theorem walk_shorten {A : Mtx} :
    ∀ (m : Nat) (u : Nat), (∀ v, HasWalk A u v → ¬ NegCycleFrom A v) →
      ∀ (l : List Nat) (x : Int), l.length ≤ m → walkWeight A u l = some x →
      ∃ l2 y, walkWeight A u l2 = some y ∧ walkEnd u l2 = walkEnd u l ∧
        (u :: l2).Nodup ∧ y ≤ x := by
  intro m
  induction m with
  | zero =>
    intro u _ l x hlen hw
    have : l = [] := List.length_eq_zero.mp (by omega)
    subst this
    exact ⟨[], x, hw, rfl, List.nodup_singleton u, le_refl x⟩
  | succ m ih =>
    intro u hnc l x hlen hw
    by_cases hnd : (u :: l).Nodup
    · exact ⟨l, x, hw, rfl, hnd, le_refl x⟩
    · obtain ⟨a, L1, L2, L3, hdec⟩ := dup_split hnd
      cases L1 with
      | nil =>
        have h0 : u :: l = a :: (L2 ++ (a :: L3)) := by simpa using hdec
        obtain ⟨h1, h2⟩ := List.cons_eq_cons.mp h0
        subst h1
        have hl : l = (L2 ++ [u]) ++ L3 := by
          rw [h2]
          simp
        rw [hl] at hw
        obtain ⟨y1, y2, hw1, hw2, hx⟩ := walkWeight_split hw
        have hcend : walkEnd u (L2 ++ [u]) = u := walkEnd_concat u L2 u
        rw [hcend] at hw2
        have hy1 : 0 ≤ y1 := by
          by_contra hneg
          exact hnc u (hasWalk_refl A u)
            ⟨L2 ++ [u], y1, by simp, hcend, hw1, by omega⟩
        have hlen3 : L3.length ≤ m := by
          have h5 : l.length = L2.length + 1 + L3.length := by
            rw [hl]
            simp
            omega
          omega
        obtain ⟨l2, y, hwy, hey, hnd2, hyle⟩ := ih u hnc L3 y2 hlen3 hw2
        refine ⟨l2, y, hwy, ?_, hnd2, by omega⟩
        rw [hey, hl, walkEnd_append, hcend]
      | cons u0 L1t =>
        have h0 : u :: l = u0 :: (L1t ++ (a :: (L2 ++ (a :: L3)))) := by
          simpa using hdec
        obtain ⟨h1, h2⟩ := List.cons_eq_cons.mp h0
        subst h1
        have hl : l = (L1t ++ [a]) ++ ((L2 ++ [a]) ++ L3) := by
          rw [h2]
          simp
        rw [hl] at hw
        obtain ⟨y1, yr, hw1, hwr, hx⟩ := walkWeight_split hw
        have hpend : walkEnd u (L1t ++ [a]) = a := walkEnd_concat u L1t a
        rw [hpend] at hwr
        obtain ⟨y2, y3, hw2, hw3, hxr⟩ := walkWeight_split hwr
        have hcend : walkEnd a (L2 ++ [a]) = a := walkEnd_concat a L2 a
        rw [hcend] at hw3
        have hreach : HasWalk A u a := by
          have h6 := hasWalk_of_walk hw1
          rw [hpend] at h6
          exact h6
        have hy2 : 0 ≤ y2 := by
          by_contra hneg
          exact hnc a hreach
            ⟨L2 ++ [a], y2, by simp, hcend, hw2, by omega⟩
        have hnew : walkWeight A u ((L1t ++ [a]) ++ L3) = some (y1 + y3) := by
          apply walkWeight_join hw1
          rw [hpend]
          exact hw3
        have hlennew : ((L1t ++ [a]) ++ L3).length ≤ m := by
          have hb : l.length =
              L1t.length + 1 + (L2.length + 1 + L3.length) := by
            rw [hl]
            simp
            omega
          have hc : ((L1t ++ [a]) ++ L3).length =
              L1t.length + 1 + L3.length := by
            simp
            omega
          omega
        obtain ⟨l2, y, hwy, hey, hnd2, hyle⟩ :=
          ih u hnc ((L1t ++ [a]) ++ L3) (y1 + y3) hlennew hnew
        have he2 : walkEnd u l = walkEnd a L3 := by
          rw [hl, walkEnd_append, hpend, walkEnd_append, hcend]
        have he3 : walkEnd u ((L1t ++ [a]) ++ L3) = walkEnd a L3 := by
          rw [walkEnd_append, hpend]
        refine ⟨l2, y, hwy, ?_, hnd2, by omega⟩
        rw [hey, he3, he2]

/-- Cycle removal without weights: reachability always shortens to a
duplicate-free walk. -/
theorem walk_nodup_reach {A : Mtx} :
    ∀ (m : Nat) (u : Nat) (l : List Nat) (x : Int),
      l.length ≤ m → walkWeight A u l = some x →
      ∃ l2 y, walkWeight A u l2 = some y ∧ walkEnd u l2 = walkEnd u l ∧
        (u :: l2).Nodup := by
  intro m
  induction m with
  | zero =>
    intro u l x hlen hw
    have : l = [] := List.length_eq_zero.mp (by omega)
    subst this
    exact ⟨[], x, hw, rfl, List.nodup_singleton u⟩
  | succ m ih =>
    intro u l x hlen hw
    by_cases hnd : (u :: l).Nodup
    · exact ⟨l, x, hw, rfl, hnd⟩
    · obtain ⟨a, L1, L2, L3, hdec⟩ := dup_split hnd
      cases L1 with
      | nil =>
        have h0 : u :: l = a :: (L2 ++ (a :: L3)) := by simpa using hdec
        obtain ⟨h1, h2⟩ := List.cons_eq_cons.mp h0
        subst h1
        have hl : l = (L2 ++ [u]) ++ L3 := by
          rw [h2]
          simp
        rw [hl] at hw
        obtain ⟨y1, y2, hw1, hw2, hx⟩ := walkWeight_split hw
        have hcend : walkEnd u (L2 ++ [u]) = u := walkEnd_concat u L2 u
        rw [hcend] at hw2
        have hlen3 : L3.length ≤ m := by
          have h5 : l.length = L2.length + 1 + L3.length := by
            rw [hl]
            simp
            omega
          omega
        obtain ⟨l2, y, hwy, hey, hnd2⟩ := ih u L3 y2 hlen3 hw2
        refine ⟨l2, y, hwy, ?_, hnd2⟩
        rw [hey, hl, walkEnd_append, hcend]
      | cons u0 L1t =>
        have h0 : u :: l = u0 :: (L1t ++ (a :: (L2 ++ (a :: L3)))) := by
          simpa using hdec
        obtain ⟨h1, h2⟩ := List.cons_eq_cons.mp h0
        subst h1
        have hl : l = (L1t ++ [a]) ++ ((L2 ++ [a]) ++ L3) := by
          rw [h2]
          simp
        rw [hl] at hw
        obtain ⟨y1, yr, hw1, hwr, hx⟩ := walkWeight_split hw
        have hpend : walkEnd u (L1t ++ [a]) = a := walkEnd_concat u L1t a
        rw [hpend] at hwr
        obtain ⟨y2, y3, hw2, hw3, hxr⟩ := walkWeight_split hwr
        have hcend : walkEnd a (L2 ++ [a]) = a := walkEnd_concat a L2 a
        rw [hcend] at hw3
        have hnew : walkWeight A u ((L1t ++ [a]) ++ L3) = some (y1 + y3) := by
          apply walkWeight_join hw1
          rw [hpend]
          exact hw3
        have hlennew : ((L1t ++ [a]) ++ L3).length ≤ m := by
          have hb : l.length =
              L1t.length + 1 + (L2.length + 1 + L3.length) := by
            rw [hl]
            simp
            omega
          have hc : ((L1t ++ [a]) ++ L3).length =
              L1t.length + 1 + L3.length := by
            simp
            omega
          omega
        obtain ⟨l2, y, hwy, hey, hnd2⟩ :=
          ih u ((L1t ++ [a]) ++ L3) (y1 + y3) hlennew hnew
        have he2 : walkEnd u l = walkEnd a L3 := by
          rw [hl, walkEnd_append, hpend, walkEnd_append, hcend]
        have he3 : walkEnd u ((L1t ++ [a]) ++ L3) = walkEnd a L3 := by
          rw [walkEnd_append, hpend]
        refine ⟨l2, y, hwy, ?_, hnd2⟩
        rw [hey, he3, he2]

/-! ### The reference shortest simple-path length -/

theorem cons_mem_insertions (a : Nat) : ∀ t : List Nat,
    (a :: t) ∈ insertions a t := by
  intro t
  cases t with
  | nil => exact List.mem_singleton.mpr rfl
  | cons c t2 => exact List.mem_cons_self _ _

theorem mem_insertions {a : Nat} : ∀ {l : List Nat}, a ∈ l →
    l ∈ insertions a (l.erase a) := by
  intro l
  induction l with
  | nil => intro h; cases h
  | cons b t ih =>
    intro h
    by_cases hab : a = b
    · subst hab
      rw [List.erase_cons_head]
      exact cons_mem_insertions a t
    · have hat : a ∈ t := by
        rcases List.mem_cons.mp h with h1 | h1
        · exact absurd h1 hab
        · exact h1
      rw [List.erase_cons_tail]
      · show b :: t ∈ (a :: b :: t.erase a) ::
          (insertions a (t.erase a)).map (fun l => b :: l)
        apply List.mem_cons_of_mem
        rw [List.mem_map]
        exact ⟨t, ih hat, rfl⟩
      · simp
        intro hba
        exact hab hba.symm

theorem perm_mem_perms : ∀ {s l : List Nat}, l.Perm s → l ∈ perms s := by
  intro s
  induction s with
  | nil =>
    intro l h
    rw [List.perm_nil] at h
    subst h
    exact List.mem_singleton.mpr rfl
  | cons a t ih =>
    intro l h
    have hal : a ∈ l := h.mem_iff.mpr (List.mem_cons_self a t)
    have herase : l.erase a ∈ perms t := by
      apply ih
      have := h.erase a
      rw [List.erase_cons_head] at this
      exact this
    show l ∈ (perms t).flatMap (insertions a)
    rw [List.mem_flatMap]
    exact ⟨l.erase a, herase, mem_insertions hal⟩

theorem mem_simpleLists {n : Nat} {l : List Nat} (hnd : l.Nodup)
    (hlt : ∀ v ∈ l, v < n) : l ∈ simpleLists n := by
  unfold simpleLists
  rw [List.mem_flatten]
  refine ⟨perms ((List.range n).filter (fun v => v ∈ l)), ?_, ?_⟩
  · rw [List.mem_map]
    exact ⟨(List.range n).filter (fun v => v ∈ l),
      List.mem_sublists.mpr (List.filter_sublist _), rfl⟩
  · apply perm_mem_perms
    apply List.perm_of_nodup_nodup_toFinset_eq hnd
      (List.Nodup.sublist (List.filter_sublist _) (List.nodup_range n))
    ext v
    simp only [List.mem_toFinset, List.mem_filter, List.mem_range,
      decide_eq_true_eq]
    exact ⟨fun hv => ⟨hlt v hv, hv⟩, fun hv => hv.2⟩

theorem nodup_walk_length {n : Nat} {u : Nat} {l : List Nat}
    (hnd : (u :: l).Nodup) (hu : u < n) (hlt : ∀ v ∈ l, v < n) :
    l.length ≤ n - 1 := by
  have hsub : (u :: l).toFinset ⊆ Finset.range n := by
    intro v hv
    rw [List.mem_toFinset] at hv
    rw [Finset.mem_range]
    rcases List.mem_cons.mp hv with rfl | hv2
    · exact hu
    · exact hlt v hv2
  have hcard := Finset.card_le_card hsub
  rw [List.toFinset_card_of_nodup hnd, Finset.card_range] at hcard
  simp at hcard
  omega

theorem spLen_le {n : Nat} {A : Mtx} {src : Nat → Bool} {u : Nat}
    {l : List Nat} {x : Int} (hu : src u = true) (hun : u < n)
    (hlt : ∀ v ∈ l, v < n) (hnd : (u :: l).Nodup)
    (hw : walkWeight A u l = some x) :
    optLE (spLen n A src (walkEnd u l)) (some x) = true := by
  unfold spLen
  apply optMinList_le
  rw [List.mem_flatMap]
  refine ⟨u, List.mem_range.mpr hun, ?_⟩
  rw [List.mem_map]
  refine ⟨l, mem_simpleLists (List.Nodup.of_cons hnd) hlt, ?_⟩
  rw [if_pos ⟨hu, hnd, rfl⟩, hw]

theorem spLen_attained {n : Nat} {A : Mtx} {src : Nat → Bool} {j : Nat}
    {x : Int} (h : spLen n A src j = some x) :
    ∃ u l, u < n ∧ src u = true ∧ walkWeight A u l = some x ∧
      walkEnd u l = j ∧ (u :: l).Nodup := by
  unfold spLen at h
  have hm := optMinList_attained h
  rw [List.mem_flatMap] at hm
  obtain ⟨u, hur, hm2⟩ := hm
  rw [List.mem_map] at hm2
  obtain ⟨l, _, hl⟩ := hm2
  by_cases hcond : src u = true ∧ (u :: l).Nodup ∧ walkEnd u l = j
  · rw [if_pos hcond] at hl
    exact ⟨u, l, List.mem_range.mp hur, hcond.1, hl, hcond.2.2, hcond.2.1⟩
  · rw [if_neg hcond] at hl
    cases hl

/-- Under "no negative cycle reachable from a seed", the value after `n - 1`
relaxation rounds (no cutoff) is exactly the shortest simple-path length. -/
theorem relaxW_eq_spLen {n : Nat} {A : Mtx} {src : Nat → Bool}
    (hA : ∀ i j, (A i j).isSome = true → i < n ∧ j < n)
    (hsrc : ∀ u, src u = true → u < n)
    (hnc : ∀ u v, src u = true → HasWalk A u v → ¬ NegCycleFrom A v)
    (j : Nat) : relaxW n A none src (n - 1) j = spLen n A src j := by
  apply optLE_antisymm
  · -- the recursion is below every simple path
    cases hs : spLen n A src j with
    | none => exact optLE_none_right _
    | some y =>
      obtain ⟨u, l, _, hu, hw, hend, hnd⟩ := spLen_attained hs
      have hlt : ∀ v ∈ l, v < n := walk_nodes_lt hA l u y hw
      have hlen : l.length ≤ n - 1 := nodup_walk_length hnd (hsrc u hu) hlt
      have := relaxW_le_walk hA l u (n - 1) y hu hw hlen
      rw [hend] at this
      exact this
  · -- every recursion value dominates some simple path
    cases hr : relaxW n A none src (n - 1) j with
    | none => exact optLE_none_right _
    | some x =>
      obtain ⟨u, l, hu, hw, hend, _⟩ := relaxW_attained (n - 1) j x hr
      obtain ⟨l2, y, hwy, hey, hnd2, hyle⟩ :=
        walk_shorten l.length u (fun v hv => hnc u v hu hv) l x (le_refl _) hw
      have hlt2 : ∀ v ∈ l2, v < n := walk_nodes_lt hA l2 u y hwy
      have := spLen_le hu (hsrc u hu) hlt2 hnd2 hwy
      rw [hey, hend] at this
      exact optLE_trans this (optLE_some_some.mpr hyle)

/-- Under the same hypothesis the recursion is already stable after `n - 1`
rounds: one more round changes nothing. -/
theorem relaxW_stab_nonneg {n : Nat} {A : Mtx} {src : Nat → Bool}
    (hA : ∀ i j, (A i j).isSome = true → i < n ∧ j < n)
    (hsrc : ∀ u, src u = true → u < n)
    (hnc : ∀ u v, src u = true → HasWalk A u v → ¬ NegCycleFrom A v)
    (j : Nat) :
    relaxW n A none src ((n - 1) + 1) j = relaxW n A none src (n - 1) j := by
  apply optLE_antisymm (relaxW_step_le n A none src (n - 1) j)
  cases hr : relaxW n A none src ((n - 1) + 1) j with
  | none => exact optLE_none_right _
  | some x =>
    obtain ⟨u, l, hu, hw, hend, _⟩ := relaxW_attained ((n - 1) + 1) j x hr
    obtain ⟨l2, y, hwy, hey, hnd2, hyle⟩ :=
      walk_shorten l.length u (fun v hv => hnc u v hu hv) l x (le_refl _) hw
    have hlt2 : ∀ v ∈ l2, v < n := walk_nodes_lt hA l2 u y hwy
    have hlen2 : l2.length ≤ n - 1 := nodup_walk_length hnd2 (hsrc u hu) hlt2
    have := relaxW_le_walk hA l2 u (n - 1) y hu hwy hlen2
    rw [hey, hend] at this
    exact optLE_trans this (optLE_some_some.mpr hyle)

/-! ### Negative cycles force persistent improvement -/

theorem optLT_of_le_ne {a b : Option Int} (hle : optLE a b = true)
    (hne : a ≠ b) : optLT a b = true := by
  cases a <;> cases b <;> simp_all [optLE, optLT] <;> omega

theorem anyLt_iff {n : Nat} {cur d : Vec} :
    anyLt n cur d = true ↔
      ∃ j < n, ∃ v dv, cur j = some v ∧ d j = some dv ∧ v < dv := by
  unfold anyLt
  rw [List.any_eq_true]
  constructor
  · rintro ⟨j, hjr, hj⟩
    refine ⟨j, List.mem_range.mp hjr, ?_⟩
    cases hc : cur j with
    | none => rw [hc] at hj; cases hj
    | some v =>
      cases hd : d j with
      | none => rw [hc, hd] at hj; cases hj
      | some dv =>
        rw [hc, hd] at hj
        exact ⟨v, dv, rfl, rfl, by simpa using hj⟩
  · rintro ⟨j, hj, v, dv, hc, hd, hlt⟩
    refine ⟨j, List.mem_range.mpr hj, ?_⟩
    rw [hc, hd]
    simpa using hlt

theorem cycle_pump {A : Mtx} {v : Nat} {lc : List Nat} {cw : Int}
    (hend : walkEnd v lc = v) (hw : walkWeight A v lc = some cw) :
    ∀ t : Nat, ∃ lt, walkWeight A v lt = some ((t : Int) * cw) ∧
      walkEnd v lt = v ∧ lt.length = t * lc.length := by
  intro t
  induction t with
  | zero =>
    refine ⟨[], ?_, rfl, by simp⟩
    show (some 0 : Option Int) = some ((0 : Int) * cw)
    rw [Int.zero_mul]
  | succ t ih =>
    obtain ⟨lt, h1, h2, h3⟩ := ih
    refine ⟨lc ++ lt, ?_, ?_, ?_⟩
    · have := walkWeight_join hw (by rw [hend]; exact h1)
      rw [this]
      have harith : cw + (t : Int) * cw = ((t + 1 : Nat) : Int) * cw := by
        push_cast
        ring
      rw [harith]
    · rw [walkEnd_append, hend, h2]
    · rw [List.length_append, h3, Nat.succ_mul]
      omega

/-- A negative cycle reachable from a seed makes the (cutoff-free) reference
recursion strictly improve somewhere at every single round. -/
theorem negcycle_not_stable {n : Nat} {A : Mtx} {src : Nat → Bool}
    (hA : ∀ i j, (A i j).isSome = true → i < n ∧ j < n)
    (hcy : NegCycleReachable A src) :
    ∀ k, ¬ (∀ j, relaxW n A none src (k + 1) j = relaxW n A none src k j) := by
  intro k hstable
  have hstab := relaxW_stable n A none src hstable
  obtain ⟨u, j0, hu, hwalk, lc, cw, hlcne, hlcend, hlcw, hcwneg⟩ := hcy
  obtain ⟨l0, hl0s, hl0e⟩ := hwalk
  obtain ⟨R, hR⟩ := Option.isSome_iff_exists.mp hl0s
  -- a bound at `t` laps of the cycle
  have hlap : ∀ t : Nat, ∃ x0, relaxW n A none src k j0 = some x0 ∧
      x0 ≤ R + (t : Int) * cw := by
    intro t
    obtain ⟨lt, hlw, hle, hll⟩ := cycle_pump hlcend hlcw t
    have hfull : walkWeight A u (l0 ++ lt) = some (R + (t : Int) * cw) := by
      apply walkWeight_join hR
      rw [hl0e]
      exact hlw
    have hfend : walkEnd u (l0 ++ lt) = j0 := by
      rw [walkEnd_append, hl0e, hle]
    set m := max k (l0 ++ lt).length with hm
    have h1 := relaxW_le_walk hA (l0 ++ lt) u m (R + (t : Int) * cw) hu hfull
      (by omega)
    rw [hfend] at h1
    rw [hstab m (by omega) j0] at h1
    obtain ⟨x0, hx0, hx0le⟩ := optLE_some_right h1
    exact ⟨x0, hx0, hx0le⟩
  obtain ⟨x0, hx0, hx0le⟩ := hlap 0
  set t1 := (R - x0 + 1).toNat with ht1
  obtain ⟨x1, hx1, hx1le⟩ := hlap t1
  rw [hx0] at hx1
  have hxx : x1 = x0 := by
    have : some x1 = some x0 := hx1.symm
    injection this
  have htge : (R - x0 + 1 : Int) ≤ (t1 : Int) := Int.self_le_toNat _
  have htpos : (0 : Int) ≤ (t1 : Int) := by positivity
  have hmul : (t1 : Int) * cw ≤ (t1 : Int) * (-1) :=
    mul_le_mul_of_nonneg_left (by omega) htpos
  have : (t1 : Int) * (-1) = -(t1 : Int) := by ring
  omega

/-- A reachable negative cycle: the loop never breaks early, and the
`for`-`else` extra-round check does detect a strict improvement. -/
theorem negcycle_detected {n : Nat} {A : Mtx} {src : Nat → Bool}
    (hA : ∀ i j, (A i j).isSome = true → i < n ∧ j < n)
    (hsrc : ∀ u, src u = true → u < n)
    (hcy : NegCycleReachable A src) :
    (∀ m, vecEmptyB n (frontSpec n A none src m) = false) ∧
    anyLt n (minPlusMV n (frontSpec n A none src (n - 1)) A)
      (relaxW n A none src (n - 1)) = true := by
  have hAsupp : ∀ i j, n ≤ j → A i j = none := by
    intro i j hj
    cases hAij : A i j with
    | none => rfl
    | some w =>
      have := (hA i j (by rw [hAij]; rfl)).2
      omega
  have hsrcsupp : ∀ j, n ≤ j → src j = false := by
    intro j hj
    cases hs : src j with
    | false => rfl
    | true =>
      have := hsrc j hs
      omega
  constructor
  · intro m
    cases m with
    | zero =>
      obtain ⟨u, j0, hu, _, _⟩ := hcy
      apply Bool.eq_false_iff.mpr
      intro hemp
      have := vecEmptyB_iff.mp hemp u (hsrc u hu)
      have hF0 : frontSpec n A none src 0 u = some 0 := by
        show seedVec src u = some 0
        simp [seedVec, hu]
      rw [hF0] at this
      cases this
    | succ s =>
      obtain ⟨j, hj⟩ := not_forall.mp (negcycle_not_stable hA hcy s)
      have hF : frontSpec n A none src (s + 1) j ≠ none := by
        intro h0
        exact hj ((frontSpec_succ_none_iff n A none src s j).mp h0)
      have hjn : j < n := by
        by_contra hge
        exact hF (frontSpec_support hAsupp hsrcsupp (s + 1) j (by omega))
      apply Bool.eq_false_iff.mpr
      intro hemp
      exact hF (vecEmptyB_iff.mp hemp j hjn)
  · obtain ⟨j, hj⟩ := not_forall.mp (negcycle_not_stable hA hcy (n - 1))
    have hlt : optLT (relaxW n A none src ((n - 1) + 1) j)
        (relaxW n A none src (n - 1) j) = true :=
      optLT_of_le_ne (relaxW_step_le n A none src (n - 1) j) hj
    obtain ⟨v, hv⟩ := optLT_some_left hlt
    -- the previous round already holds an entry at `j`
    have hdv : ∃ dv, relaxW n A none src (n - 1) j = some dv := by
      obtain ⟨u, l, hu, hw, hend, _⟩ := relaxW_attained ((n - 1) + 1) j v hv
      obtain ⟨l2, y, hwy, hey, hnd2⟩ :=
        walk_nodup_reach l.length u l v (le_refl _) hw
      have hlt2 : ∀ w ∈ l2, w < n := walk_nodes_lt hA l2 u y hwy
      have hlen2 : l2.length ≤ n - 1 :=
        nodup_walk_length hnd2 (hsrc u hu) hlt2
      have hle := relaxW_le_walk hA l2 u (n - 1) y hu hwy hlen2
      rw [hey, hend] at hle
      obtain ⟨dv, hdv, _⟩ := optLE_some_right hle
      exact ⟨dv, hdv⟩
    obtain ⟨dv, hdv⟩ := hdv
    have hvdv : v < dv := by
      have := hlt
      rw [hv, hdv] at this
      simpa [optLT] using this
    have hmp : minPlusMV n (frontSpec n A none src (n - 1)) A j = some v := by
      have hadq := front_adequate n A none src (n - 1) j
      rcases optMin_cases (relaxW n A none src (n - 1) j)
          (cutF none (minPlusMV n (frontSpec n A none src (n - 1)) A j))
          with he | he
      · rw [he, hdv] at hadq
        rw [hv] at hadq
        have : dv = v := by injection hadq
        omega
      · rw [he] at hadq
        rw [hv] at hadq
        exact hadq
    have hjn : j < n := by
      by_contra hge
      rw [relaxW_support hAsupp hsrcsupp (n - 1) j (by omega)] at hdv
      cases hdv
    exact anyLt_iff.mpr ⟨j, hjn, v, dv, hmp, hdv, hvdv⟩

/-- Without a reachable negative cycle the extra-round check finds nothing. -/
theorem nocycle_no_improvement {n : Nat} {A : Mtx} {src : Nat → Bool}
    (hA : ∀ i j, (A i j).isSome = true → i < n ∧ j < n)
    (hsrc : ∀ u, src u = true → u < n)
    (hnc : ∀ u v, src u = true → HasWalk A u v → ¬ NegCycleFrom A v) :
    anyLt n (minPlusMV n (frontSpec n A none src (n - 1)) A)
      (relaxW n A none src (n - 1)) = false := by
  apply Bool.eq_false_iff.mpr
  intro hany
  obtain ⟨j, hj, v, dv, hmp, hdv, hvdv⟩ := anyLt_iff.mp hany
  have hadq := front_adequate n A none src (n - 1) j
  have hstab := relaxW_stab_nonneg hA hsrc hnc j
  rw [hstab, hdv] at hadq
  have hcut : cutF none (minPlusMV n (frontSpec n A none src (n - 1)) A j) =
      some v := by rw [hmp]; rfl
  rw [hcut] at hadq
  have : some (min dv v) = some dv := hadq
  have h2 : min dv v = dv := by injection this
  omega

/-! ### Graph-level bridges -/

namespace Graph

theorem adj_some_mem {G : Graph} {i j : Nat} {w : Int}
    (h : G.adj i j = some w) : (i, j, w) ∈ G.edges := by
  unfold adj at h
  cases hf : G.edges.find? fun e => e.1 == i && e.2.1 == j with
  | none => rw [hf] at h; cases h
  | some e =>
    rw [hf] at h
    have hmem := List.mem_of_find?_eq_some hf
    have hp := List.find?_some hf
    rw [Bool.and_eq_true] at hp
    obtain ⟨hp1, hp2⟩ := hp
    have h1 : e.1 = i := by simpa using hp1
    have h2 : e.2.1 = j := by simpa using hp2
    have h3 : e.2.2 = w := by
      have : some e.2.2 = some w := h
      injection this
    have : e = (i, j, w) := by
      obtain ⟨a, b, c⟩ := e
      simp at h1 h2 h3
      rw [h1, h2, h3]
    rw [← this]
    exact hmem

theorem adj_lt {G : Graph} (hWF : G.WF) {i j : Nat}
    (h : (G.adj i j).isSome = true) : i < G.n ∧ j < G.n := by
  obtain ⟨w, hw⟩ := Option.isSome_iff_exists.mp h
  exact hWF.1 _ (adj_some_mem hw)

theorem offdiag_some {G : Graph} {i j : Nat} {w : Int}
    (h : G.offdiag i j = some w) : G.adj i j = some w ∧ i ≠ j := by
  unfold offdiag at h
  by_cases hij : i = j
  · rw [if_pos (by simpa using hij)] at h
    cases h
  · rw [if_neg (by simpa using hij)] at h
    exact ⟨h, hij⟩

theorem offdiag_lt {G : Graph} (hWF : G.WF) {i j : Nat}
    (h : (G.offdiag i j).isSome = true) : i < G.n ∧ j < G.n := by
  obtain ⟨w, hw⟩ := Option.isSome_iff_exists.mp h
  exact adj_lt hWF (by rw [(offdiag_some hw).1]; rfl)

theorem find_weight {edges : List (Nat × Nat × Int)} {i j : Nat} {w : Int}
    (hnd : (edges.map fun e => (e.1, e.2.1)).Nodup)
    (hmem : (i, j, w) ∈ edges) :
    (edges.find? fun e => e.1 == i && e.2.1 == j).map (fun e => e.2.2) =
      some w := by
  induction edges with
  | nil => cases hmem
  | cons e es ih =>
    rcases List.mem_cons.mp hmem with rfl | hm2
    · rw [List.find?_cons_of_pos _ (by simp)]
      rfl
    · by_cases hpe : (e.1 == i && e.2.1 == j) = true
      · exfalso
        rw [Bool.and_eq_true] at hpe
        have h1 : e.1 = i := by simpa using hpe.1
        have h2 : e.2.1 = j := by simpa using hpe.2
        rw [List.map_cons, List.nodup_cons] at hnd
        apply hnd.1
        rw [h1, h2]
        exact List.mem_map.mpr ⟨(i, j, w), hm2, rfl⟩
      · rw [@List.find?_cons_of_neg _ (fun e => e.1 == i && e.2.1 == j) e es
          hpe]
        apply ih ?_ hm2
        rw [List.map_cons, List.nodup_cons] at hnd
        exact hnd.2

theorem adj_of_edge {G : Graph} (hWF : G.WF) {i j : Nat} {w : Int}
    (h : (i, j, w) ∈ G.edges) : G.adj i j = some w :=
  find_weight hWF.2.1 h

end Graph

namespace Graph

theorem offdiag_edge {G : Graph} {u v : Nat} {w : Int} (hne : u ≠ v)
    (h : G.adj u v = some w) : G.offdiag u v = some w := by
  unfold offdiag
  rw [if_neg (by simpa using hne)]
  exact h

theorem walk_offdiag_to_adj {G : Graph} :
    ∀ (l : List Nat) (u : Nat) (x : Int),
      walkWeight G.offdiag u l = some x → walkWeight G.adj u l = some x := by
  intro l
  induction l with
  | nil => intro u x h; exact h
  | cons v t ih =>
    intro u x h
    unfold walkWeight at h ⊢
    cases he : G.offdiag u v with
    | none => rw [he] at h; cases h
    | some w =>
      rw [he] at h
      rw [(offdiag_some he).1]
      cases ht : walkWeight G.offdiag v t with
      | none => rw [ht] at h; cases h
      | some y =>
        rw [ht] at h
        rw [ih v y ht]
        exact h

theorem hasWalk_offdiag_to_adj {G : Graph} {u v : Nat}
    (h : HasWalk G.offdiag u v) : HasWalk G.adj u v := by
  obtain ⟨l, hs, he⟩ := h
  obtain ⟨x, hx⟩ := Option.isSome_iff_exists.mp hs
  exact ⟨l, by rw [walk_offdiag_to_adj l u x hx]; rfl, he⟩

theorem negCycleFrom_offdiag_to_adj {G : Graph} {j : Nat}
    (h : NegCycleFrom G.offdiag j) : NegCycleFrom G.adj j := by
  obtain ⟨l, x, hne, hend, hw, hx⟩ := h
  exact ⟨l, x, hne, hend, walk_offdiag_to_adj l j x hw, hx⟩

theorem walk_drop_selfsteps {G : Graph} :
    ∀ (l : List Nat) (u : Nat) (x : Int), walkWeight G.adj u l = some x →
      ∃ l2 y, walkWeight G.offdiag u l2 = some y ∧
        walkEnd u l2 = walkEnd u l := by
  intro l
  induction l with
  | nil => intro u x h; exact ⟨[], 0, rfl, rfl⟩
  | cons v t ih =>
    intro u x h
    unfold walkWeight at h
    cases he : G.adj u v with
    | none => rw [he] at h; cases h
    | some w =>
      rw [he] at h
      cases ht : walkWeight G.adj v t with
      | none => rw [ht] at h; cases h
      | some y =>
        by_cases huv : u = v
        · subst huv
          obtain ⟨l2, y2, hw2, he2⟩ := ih u y ht
          exact ⟨l2, y2, hw2, he2⟩
        · obtain ⟨l2, y2, hw2, he2⟩ := ih v y ht
          refine ⟨v :: l2, w + y2, ?_, he2⟩
          unfold walkWeight
          rw [offdiag_edge huv he, hw2]

theorem hasWalk_adj_to_offdiag {G : Graph} {u v : Nat}
    (h : HasWalk G.adj u v) : HasWalk G.offdiag u v := by
  obtain ⟨l, hs, he⟩ := h
  obtain ⟨x, hx⟩ := Option.isSome_iff_exists.mp hs
  obtain ⟨l2, y, hw2, he2⟩ := walk_drop_selfsteps l u x hx
  exact ⟨l2, by rw [hw2]; rfl, by rw [he2, he]⟩

theorem walkWeight_nodup_offdiag {G : Graph} :
    ∀ (l : List Nat) (u : Nat), (u :: l).Nodup →
      walkWeight G.adj u l = walkWeight G.offdiag u l := by
  intro l
  induction l with
  | nil => intro u _; rfl
  | cons v t ih =>
    intro u hnd
    have huv : u ≠ v := by
      intro he
      rw [List.nodup_cons] at hnd
      exact hnd.1 (he ▸ List.mem_cons_self v t)
    have hvt : (v :: t).Nodup := (List.nodup_cons.mp hnd).2
    unfold walkWeight
    have hoff : G.offdiag u v = G.adj u v := by
      unfold offdiag
      rw [if_neg (by simpa using huv)]
    rw [hoff, ih v hvt]

theorem spLen_adj_offdiag (G : Graph) (src : Nat → Bool) (j : Nat) :
    spLen G.n G.adj src j = spLen G.n G.offdiag src j := by
  unfold spLen
  have hfun : (fun u => (simpleLists G.n).map fun l =>
      if src u = true ∧ (u :: l).Nodup ∧ walkEnd u l = j then
        walkWeight G.adj u l else none) =
      (fun u => (simpleLists G.n).map fun l =>
        if src u = true ∧ (u :: l).Nodup ∧ walkEnd u l = j then
          walkWeight G.offdiag u l else none) := by
    funext u
    have hfl : (fun l => if src u = true ∧ (u :: l).Nodup ∧ walkEnd u l = j
        then walkWeight G.adj u l else none) =
        (fun l => if src u = true ∧ (u :: l).Nodup ∧ walkEnd u l = j
          then walkWeight G.offdiag u l else none) := by
      funext l
      by_cases hc : src u = true ∧ (u :: l).Nodup ∧ walkEnd u l = j
      · rw [if_pos hc, if_pos hc]
        exact walkWeight_nodup_offdiag l u hc.2.1
      · rw [if_neg hc, if_neg hc]
    rw [hfl]
  rw [hfun]

theorem negloop_negCycleFrom {G : Graph} {v : Nat} {w : Int}
    (h : G.adj v v = some w) (hw : w < 0) : NegCycleFrom G.adj v := by
  refine ⟨[v], w + 0, by simp, rfl, ?_, by omega⟩
  unfold walkWeight
  rw [h]
  rfl

theorem has_negative_diagonal_iff {G : Graph} :
    G.has_negative_diagonal = true ↔
      ∃ j < G.n, ∃ w, G.adj j j = some w ∧ w < 0 := by
  unfold has_negative_diagonal
  rw [List.any_eq_true]
  constructor
  · rintro ⟨j, hjr, hj⟩
    refine ⟨j, List.mem_range.mp hjr, ?_⟩
    cases hd : G.adj j j with
    | none => rw [hd] at hj; cases hj
    | some w =>
      rw [hd] at hj
      exact ⟨w, rfl, by simpa using hj⟩
  · rintro ⟨j, hj, w, hd, hw⟩
    refine ⟨j, List.mem_range.mpr hj, ?_⟩
    rw [hd]
    simpa using hw

theorem walk_decomp {G : Graph} :
    ∀ (l : List Nat) (u : Nat) (x : Int), walkWeight G.adj u l = some x →
      (∃ v w, HasWalk G.adj u v ∧ G.adj v v = some w ∧ w < 0) ∨
      (∃ l2 y, walkWeight G.offdiag u l2 = some y ∧
        walkEnd u l2 = walkEnd u l ∧ y ≤ x) := by
  intro l
  induction l with
  | nil =>
    intro u x h
    right
    refine ⟨[], 0, rfl, rfl, ?_⟩
    have : (some 0 : Option Int) = some x := h
    injection this with h2
    omega
  | cons v t ih =>
    intro u x h
    unfold walkWeight at h
    cases he : G.adj u v with
    | none => rw [he] at h; cases h
    | some w =>
      rw [he] at h
      cases ht : walkWeight G.adj v t with
      | none => rw [ht] at h; cases h
      | some y =>
        rw [ht] at h
        have hx : w + y = x := by
          have : some (w + y) = some x := h
          injection this
        by_cases huv : u = v
        · subst huv
          by_cases hwneg : w < 0
          · exact Or.inl ⟨u, w, hasWalk_refl _ u, he, hwneg⟩
          · rcases ih u y ht with hleft | ⟨l2, y2, hw2, he2, hy2⟩
            · exact Or.inl hleft
            · exact Or.inr ⟨l2, y2, hw2, he2, by omega⟩
        · rcases ih v y ht with ⟨v2, w2, hwalk, hloop, hneg⟩ | hright
          · refine Or.inl ⟨v2, w2, ?_, hloop, hneg⟩
            exact hasWalk_trans ⟨[v], by simp [walkWeight, he], rfl⟩ hwalk
          · obtain ⟨l2, y2, hw2, he2, hy2⟩ := hright
            refine Or.inr ⟨v :: l2, w + y2, ?_, he2, by omega⟩
            unfold walkWeight
            rw [offdiag_edge huv he, hw2]

theorem negCycleFrom_decomp {G : Graph} {j : Nat}
    (h : NegCycleFrom G.adj j) :
    (∃ v w, HasWalk G.adj j v ∧ G.adj v v = some w ∧ w < 0) ∨
      NegCycleFrom G.offdiag j := by
  obtain ⟨l, x, hne, hend, hw, hx⟩ := h
  rcases walk_decomp l j x hw with hleft | ⟨l2, y, hw2, he2, hy⟩
  · exact Or.inl hleft
  · right
    refine ⟨l2, y, ?_, by rw [he2, hend], hw2, by omega⟩
    intro h0
    subst h0
    have hy0 : (0 : Int) = y := by
      have h6 : (some 0 : Option Int) = some y := hw2
      injection h6
    omega

theorem Graph.offdiag_supp {G : Graph} (hWF : G.WF) :
    ∀ i j, G.n ≤ j → G.offdiag i j = none := by
  intro i j hj
  cases h : G.offdiag i j with
  | none => rfl
  | some w =>
    have := (Graph.offdiag_lt hWF (by rw [h]; rfl)).2
    omega

theorem srcSingle_supp {source n : Nat} (hs : source < n) :
    ∀ j, n ≤ j → srcSingle source j = false := by
  intro j hj
  unfold srcSingle
  simp
  omega

theorem srcSingle_lt {source n : Nat} (hs : source < n) :
    ∀ u, srcSingle source u = true → u < n := by
  intro u hu
  unfold srcSingle at hu
  simp at hu
  omega

/-- Unfold `bellmanGeneral` through the loop characterization. -/
theorem bellmanGeneral_eq {G : Graph} {source : Nat} {c : Option Int}
    (hWF : G.WF) (hs : source < G.n) :
    bellmanGeneral G source c =
      if (decide ((((G.n - 1 : Nat) != 0) && vecEmptyB G.n
            (frontSpec G.n G.offdiag c (srcSingle source) (G.n - 1))) = false)
          && anyLt G.n (applyCutoff c (minPlusMV G.n
            (frontSpec G.n G.offdiag c (srcSingle source) (G.n - 1))
            G.offdiag))
            (relaxW G.n G.offdiag c (srcSingle source) (G.n - 1))) = true then
        .error .unbounded
      else if (G.has_negative_diagonal && anyNegDiagReached G.n
          (relaxW G.n G.offdiag c (srcSingle source) (G.n - 1)) G.diag)
          = true then
        .error .unbounded
      else .ok (relaxW G.n G.offdiag c (srcSingle source) (G.n - 1)) := by
  have hspec := @bfLoop_spec G.n G.offdiag c (srcSingle source)
    (Graph.offdiag_supp hWF) (srcSingle_supp hs) (G.n - 1) 0
  show (let A := G.offdiag;
    let n := G.n;
    let d0 := seedVec (srcSingle source);
    let res := bfLoop n A c (n - 1) d0 d0;
    if res.2.2 = false &&
        anyLt n (applyCutoff c (minPlusMV n res.2.1 A)) res.1 then
      (.error .unbounded : Except Err Vec)
    else if G.has_negative_diagonal && anyNegDiagReached n res.1 G.diag then
      .error .unbounded
    else .ok res.1) = _
  have hd0W : seedVec (srcSingle source) =
      relaxW G.n G.offdiag c (srcSingle source) 0 := rfl
  have hd0F : seedVec (srcSingle source) =
      frontSpec G.n G.offdiag c (srcSingle source) 0 := rfl
  simp only []
  rw [hd0W]
  conv =>
    lhs
    rw [show bfLoop G.n G.offdiag c (G.n - 1)
        (relaxW G.n G.offdiag c (srcSingle source) 0)
        (relaxW G.n G.offdiag c (srcSingle source) 0) =
      bfLoop G.n G.offdiag c (G.n - 1)
        (relaxW G.n G.offdiag c (srcSingle source) 0)
        (frontSpec G.n G.offdiag c (srcSingle source) 0) from rfl]
    rw [hspec]
  simp only [Nat.zero_add]

theorem applyCutoff_none (v : Vec) : applyCutoff none v = v := rfl

theorem srcSingle_iff {source u : Nat} :
    srcSingle source u = true ↔ u = source := by
  simp [srcSingle]

theorem anyNegDiagReached_iff {n : Nat} {d diagv : Vec} :
    anyNegDiagReached n d diagv = true ↔
      ∃ j < n, (d j).isSome = true ∧ ∃ w, diagv j = some w ∧ w < 0 := by
  unfold anyNegDiagReached
  rw [List.any_eq_true]
  constructor
  · rintro ⟨j, hjr, hj⟩
    rw [Bool.and_eq_true] at hj
    refine ⟨j, List.mem_range.mp hjr, hj.1, ?_⟩
    cases hdg : diagv j with
    | none => rw [hdg] at hj; simp at hj
    | some w =>
      have := hj.2
      rw [hdg] at this
      exact ⟨w, rfl, by simpa using this⟩
  · rintro ⟨j, hj, hsome, w, hdg, hw⟩
    refine ⟨j, List.mem_range.mpr hj, ?_⟩
    rw [Bool.and_eq_true]
    refine ⟨hsome, ?_⟩
    rw [hdg]
    simpa using hw

/-- `bellmanGeneral` without a cutoff succeeds when no negative cycle is
reachable, and the returned vector is the shortest simple-path length. -/
theorem bellmanGeneral_none_ok {G : Graph} {source : Nat} (hWF : G.WF)
    (hs : source < G.n)
    (hnc : ¬ NegCycleReachable G.adj (srcSingle source)) :
    bellmanGeneral G source none =
      .ok (relaxW G.n G.offdiag none (srcSingle source) (G.n - 1)) ∧
    (∀ j, relaxW G.n G.offdiag none (srcSingle source) (G.n - 1) j =
      spLen G.n G.adj (srcSingle source) j) := by
  have hAoff : ∀ i j, (G.offdiag i j).isSome = true → i < G.n ∧ j < G.n :=
    fun i j h => Graph.offdiag_lt hWF h
  have hsrc1 := srcSingle_lt hs
  have hncOff : ∀ u v, srcSingle source u = true →
      HasWalk G.offdiag u v → ¬ NegCycleFrom G.offdiag v := by
    intro u v hu hw hcy
    exact hnc ⟨u, v, hu, Graph.hasWalk_offdiag_to_adj hw,
      Graph.negCycleFrom_offdiag_to_adj hcy⟩
  have hval : ∀ j, relaxW G.n G.offdiag none (srcSingle source) (G.n - 1) j =
      spLen G.n G.adj (srcSingle source) j := by
    intro j
    rw [Graph.spLen_adj_offdiag]
    exact relaxW_eq_spLen hAoff hsrc1 hncOff j
  refine ⟨?_, hval⟩
  rw [bellmanGeneral_eq hWF hs]
  have himp := nocycle_no_improvement hAoff hsrc1 hncOff
  rw [if_neg (by
    rw [applyCutoff_none, himp]
    simp)]
  rw [if_neg (by
    intro hcond
    rw [Bool.and_eq_true] at hcond
    obtain ⟨j, hjn, hsome, w, hdg, hw⟩ := anyNegDiagReached_iff.mp hcond.2
    obtain ⟨x, hx⟩ := Option.isSome_iff_exists.mp hsome
    obtain ⟨u, l, hu, hwk, hend, _⟩ := relaxW_attained (G.n - 1) j x hx
    have hreach : HasWalk G.adj u j := by
      apply Graph.hasWalk_offdiag_to_adj
      exact hend ▸ hasWalk_of_walk hwk
    exact hnc ⟨u, j, hu, hreach, Graph.negloop_negCycleFrom hdg hw⟩)]

/-- `bellmanGeneral` without a cutoff fails with `Unbounded` when a negative
cycle is reachable from the source. -/
theorem bellmanGeneral_none_raise {G : Graph} {source : Nat} (hWF : G.WF)
    (hs : source < G.n)
    (hcy : NegCycleReachable G.adj (srcSingle source)) :
    bellmanGeneral G source none = .error .unbounded := by
  have hAoff : ∀ i j, (G.offdiag i j).isSome = true → i < G.n ∧ j < G.n :=
    fun i j h => Graph.offdiag_lt hWF h
  have hsrc1 := srcSingle_lt hs
  rw [bellmanGeneral_eq hWF hs]
  obtain ⟨u, j, hu, hwalk, hcyc⟩ := hcy
  have hus : u = source := srcSingle_iff.mp hu
  subst hus
  rcases Graph.negCycleFrom_decomp hcyc with ⟨v, w, hreach, hloop, hneg⟩ | hoff
  · -- a negative self-loop at `v` reachable from the source
    by_cases h1 : (decide ((((G.n - 1 : Nat) != 0) && vecEmptyB G.n
          (frontSpec G.n G.offdiag none (srcSingle u) (G.n - 1))) = false)
        && anyLt G.n (applyCutoff none (minPlusMV G.n
          (frontSpec G.n G.offdiag none (srcSingle u) (G.n - 1)) G.offdiag))
          (relaxW G.n G.offdiag none (srcSingle u) (G.n - 1))) = true
    · rw [if_pos h1]
    · rw [if_neg h1]
      rw [if_pos ?_]
      rw [Bool.and_eq_true]
      have hvn : v < G.n := (Graph.adj_lt hWF (by rw [hloop]; rfl)).1
      constructor
      · exact Graph.has_negative_diagonal_iff.mpr ⟨v, hvn, w, hloop, hneg⟩
      · -- the node with the self-loop is present in the distances
        have hreach2 : HasWalk G.adj u v := hasWalk_trans hwalk hreach
        obtain ⟨l, hls, hle⟩ := Graph.hasWalk_adj_to_offdiag hreach2
        obtain ⟨x, hx⟩ := Option.isSome_iff_exists.mp hls
        obtain ⟨l2, y, hwy, hey, hnd2⟩ :=
          walk_nodup_reach l.length u l x (le_refl _) hx
        have hlen2 : l2.length ≤ G.n - 1 :=
          nodup_walk_length hnd2 hs (walk_nodes_lt hAoff l2 u y hwy)
        have hle2 := relaxW_le_walk hAoff l2 u (G.n - 1) y
          (srcSingle_iff.mpr rfl) hwy hlen2
        rw [hey, hle] at hle2
        obtain ⟨dv, hdv, _⟩ := optLE_some_right hle2
        refine anyNegDiagReached_iff.mpr ⟨v, hvn, by rw [hdv]; rfl, w, ?_, hneg⟩
        show G.adj v v = some w
        exact hloop
  · -- an off-diagonal negative cycle reachable from the source
    have hcyOff : NegCycleReachable G.offdiag (srcSingle u) :=
      ⟨u, j, srcSingle_iff.mpr rfl, Graph.hasWalk_adj_to_offdiag hwalk, hoff⟩
    obtain ⟨hnoempty, himp⟩ := negcycle_detected hAoff hsrc1 hcyOff
    rw [if_pos ?_]
    rw [Bool.and_eq_true]
    constructor
    · rw [hnoempty (G.n - 1)]
      simp
    · rw [applyCutoff_none]
      exact himp

/-! ### Cutoff pruning on non-negative graphs -/

theorem cutF_anti {c1 c2 : Option Int}
    (h : ∀ x : Option Int, optLE (cutF c2 x) (cutF c1 x) = true) :
    ∀ x : Option Int, optLE (cutF c2 x) (cutF c1 x) = true := h

theorem cutF_none_le_some (cc : Int) (x : Option Int) :
    optLE (cutF none x) (cutF (some cc) x) = true := cutF_le x

theorem cutF_some_le_some {cc1 cc2 : Int} (h : cc1 ≤ cc2) (x : Option Int) :
    optLE (cutF (some cc2) x) (cutF (some cc1) x) = true := by
  cases x with
  | none => rfl
  | some v =>
    by_cases h1 : v ≤ cc1
    · rw [cutF_keep h1, cutF_keep (by omega)]
      exact optLE_refl _
    · have : cutF (some cc1) (some v) = none := by
        simp [cutF, h1]
      rw [this]
      exact optLE_none_right _

/-- A more permissive cutoff can only produce smaller (or equal) values. -/
theorem relaxW_cut_mono {n : Nat} {A : Mtx} {src : Nat → Bool}
    {c1 c2 : Option Int}
    (hcf : ∀ x : Option Int, optLE (cutF c2 x) (cutF c1 x) = true) :
    ∀ k j, optLE (relaxW n A c2 src k j) (relaxW n A c1 src k j) = true := by
  intro k
  induction k with
  | zero => intro j; exact optLE_refl _
  | succ k ih =>
    intro j
    rw [relaxW_succ, relaxW_succ]
    apply le_optMin
    · exact optLE_trans (optMin_le_left _ _) (ih j)
    · refine optLE_trans (optMin_le_right _ _) ?_
      refine optLE_trans (hcf _) (cutF_mono ?_)
      exact @minPlusMV_mono n _ _ A j ih

theorem walk_nonneg {A : Mtx}
    (hpos : ∀ i j w, A i j = some w → 0 ≤ w) :
    ∀ (l : List Nat) (u : Nat) (x : Int),
      walkWeight A u l = some x → 0 ≤ x := by
  intro l
  induction l with
  | nil =>
    intro u x h
    have : (some 0 : Option Int) = some x := h
    injection this with h2
    omega
  | cons v t ih =>
    intro u x h
    unfold walkWeight at h
    cases he : A u v with
    | none => rw [he] at h; cases h
    | some w =>
      rw [he] at h
      cases ht : walkWeight A v t with
      | none => rw [ht] at h; cases h
      | some y =>
        rw [ht] at h
        have hx : w + y = x := by
          have : some (w + y) = some x := h
          injection this
        have := hpos u v w he
        have := ih v y ht
        omega

/-- A value found without a cutoff that fits under the cutoff is also found
with the cutoff, provided no edge is negative. -/
theorem relaxW_cut_keep {n : Nat} {A : Mtx} {src : Nat → Bool} {cc : Int}
    (hpos : ∀ i j w, A i j = some w → 0 ≤ w) :
    ∀ k j x, relaxW n A none src k j = some x → x ≤ cc →
      relaxW n A (some cc) src k j = some x := by
  intro k
  induction k with
  | zero => intro j x h _; exact h
  | succ k ih =>
    intro j x h hxcc
    apply optLE_antisymm ?_ ?_
    · -- the cut value is at most `x`
      rw [relaxW_succ] at h ⊢
      rcases optMin_cases (relaxW n A none src k j)
          (cutF none (minPlusMV n (relaxW n A none src k) A j)) with he | he
      · rw [he] at h
        have hk := ih j x h hxcc
        refine optLE_trans (optMin_le_left _ _) ?_
        rw [hk]
        exact optLE_refl _
      · rw [he] at h
        have hmp : minPlusMV n (relaxW n A none src k) A j = some x := h
        obtain ⟨i0, hi0, ci, w0, hci, hAw, hx⟩ := minPlusMV_attained hmp
        have hw0 : 0 ≤ w0 := hpos i0 j w0 hAw
        have hcicc : ci ≤ cc := by omega
        have hkeep := ih i0 ci hci hcicc
        have h1 : optLE (minPlusMV n (relaxW n A (some cc) src k) A j)
            (some (ci + w0)) = true := minPlusMV_le hi0 hkeep hAw
        refine optLE_trans (optMin_le_right _ _) ?_
        refine optLE_trans (cutF_mono h1) ?_
        rw [cutF_keep (by omega)]
        rw [hx]
        exact optLE_refl _
    · -- and at least `x` (pruning never helps)
      rw [← h]
      exact @relaxW_cut_mono n A src (some cc) none
        (cutF_none_le_some cc) (k + 1) j
  termination_by k => k

/-- Every entry of the cut recursion is at most the cutoff, unless it is the
untouched 0 at a seed. -/
theorem relaxW_cut_bound {n : Nat} {A : Mtx} {src : Nat → Bool} {cc : Int} :
    ∀ k j x, relaxW n A (some cc) src k j = some x →
      x ≤ cc ∨ (src j = true ∧ x = 0) := by
  intro k
  induction k with
  | zero =>
    intro j x h
    have hj : seedVec src j = some x := h
    by_cases hs : src j = true
    · right
      refine ⟨hs, ?_⟩
      simp [seedVec, hs] at hj
      omega
    · simp [seedVec, hs] at hj
  | succ k ih =>
    intro j x h
    rw [relaxW_succ] at h
    rcases optMin_cases (relaxW n A (some cc) src k j)
        (cutF (some cc) (minPlusMV n (relaxW n A (some cc) src k) A j))
        with he | he
    · rw [he] at h
      exact ih j x h
    · rw [he] at h
      exact Or.inl (cutF_some_le h)

/-- Seeds keep their exact 0 under any cutoff when no edge is negative. -/
theorem relaxW_seed_zero {n : Nat} {A : Mtx} {src : Nat → Bool}
    {c : Option Int} (hpos : ∀ i j w, A i j = some w → 0 ≤ w) :
    ∀ k j, src j = true → relaxW n A c src k j = some 0 := by
  intro k j hj
  have h0 : relaxW n A c src 0 j = some 0 := by
    show seedVec src j = some 0
    simp [seedVec, hj]
  have hle := relaxW_anti n A c src (Nat.zero_le k) j
  rw [h0] at hle
  obtain ⟨x, hx, hxle⟩ := optLE_some_right hle
  obtain ⟨u, l, _, hw, _, _⟩ := relaxW_attained k j x hx
  have := walk_nonneg hpos l u x hw
  have hx0 : x = 0 := by omega
  rw [hx, hx0]

/-- Full description of the cut recursion on a non-negative graph in terms
of the uncut one. -/
theorem relaxW_cut_char {n : Nat} {A : Mtx} {src : Nat → Bool} {cc : Int}
    (hpos : ∀ i j w, A i j = some w → 0 ≤ w) :
    ∀ k j x, relaxW n A (some cc) src k j = some x ↔
      (relaxW n A none src k j = some x ∧
        (x ≤ cc ∨ (src j = true ∧ x = 0))) := by
  intro k j x
  constructor
  · intro h
    have hbound := relaxW_cut_bound k j x h
    have hmono := @relaxW_cut_mono n A src (some cc) none
      (cutF_none_le_some cc) k j
    rw [h] at hmono
    obtain ⟨y, hy, hyx⟩ := optLE_some_right hmono
    obtain ⟨u, l, _, hw, _, _⟩ := relaxW_attained k j y hy
    have hy0 : 0 ≤ y := walk_nonneg hpos l u y hw
    rcases hbound with hxcc | ⟨hsj, hx0⟩
    · have hkept := @relaxW_cut_keep n A src cc hpos k j y hy (by omega)
      rw [h] at hkept
      have hxy : y = x := by
        injection hkept with h9
        omega
      rw [hxy] at hy
      exact ⟨hy, Or.inl hxcc⟩
    · have hz := @relaxW_seed_zero n A src none hpos k j hsj
      subst hx0
      have hyy : y = 0 := by omega
      rw [hyy] at hy
      exact ⟨hy, Or.inr ⟨hsj, rfl⟩⟩
  · rintro ⟨h, hcond⟩
    rcases hcond with hxcc | ⟨hsj, hx0⟩
    · exact relaxW_cut_keep hpos k j x h hxcc
    · subst hx0
      exact relaxW_seed_zero hpos k j hsj

/-- When the recursion is already stable, the extra-round check is empty. -/
theorem no_improvement_of_stab {n : Nat} {A : Mtx} {c : Option Int}
    {src : Nat → Bool}
    (hstab : ∀ j, relaxW n A c src ((n - 1) + 1) j =
      relaxW n A c src (n - 1) j) :
    anyLt n (applyCutoff c (minPlusMV n (frontSpec n A c src (n - 1)) A))
      (relaxW n A c src (n - 1)) = false := by
  apply Bool.eq_false_iff.mpr
  intro hany
  obtain ⟨j, hj, v, dv, hmp, hdv, hvdv⟩ := anyLt_iff.mp hany
  have hadq := front_adequate n A c src (n - 1) j
  rw [hstab j, hdv] at hadq
  rw [applyCutoff_eq] at hmp
  rw [hmp] at hadq
  have h1 : some (min dv v) = some dv := hadq
  have h2 : min dv v = dv := by injection h1
  omega

/-- On a non-negative graph the cut recursion is stable after `n - 1`
rounds. -/
theorem relaxW_cut_stab {n : Nat} {A : Mtx} {src : Nat → Bool} {cc : Int}
    (hA : ∀ i j, (A i j).isSome = true → i < n ∧ j < n)
    (hsrc : ∀ u, src u = true → u < n)
    (hpos : ∀ i j w, A i j = some w → 0 ≤ w) :
    ∀ j, relaxW n A (some cc) src ((n - 1) + 1) j =
      relaxW n A (some cc) src (n - 1) j := by
  have hnc : ∀ u v, src u = true → HasWalk A u v → ¬ NegCycleFrom A v := by
    rintro u v _ _ ⟨l, x, _, _, hw, hx⟩
    have := walk_nonneg hpos l v x hw
    omega
  intro j
  have hstabnone := relaxW_stab_nonneg hA hsrc hnc j
  cases h1 : relaxW n A (some cc) src ((n - 1) + 1) j with
  | some x =>
    have hc := (relaxW_cut_char hpos ((n - 1) + 1) j x).mp h1
    rw [hstabnone] at hc
    rw [(relaxW_cut_char hpos (n - 1) j x).mpr hc]
  | none =>
    cases h2 : relaxW n A (some cc) src (n - 1) j with
    | none => rfl
    | some x =>
      have hc := (relaxW_cut_char hpos (n - 1) j x).mp h2
      rw [← hstabnone] at hc
      rw [(relaxW_cut_char hpos ((n - 1) + 1) j x).mpr hc] at h1
      cases h1

theorem Graph.adj_nonneg {G : Graph} (hpos : AllNonNeg G) :
    ∀ i j w, G.adj i j = some w → 0 ≤ w := by
  intro i j w h
  exact hpos _ (Graph.adj_some_mem h)

theorem Graph.offdiag_nonneg {G : Graph} (hpos : AllNonNeg G) :
    ∀ i j w, G.offdiag i j = some w → 0 ≤ w := by
  intro i j w h
  exact Graph.adj_nonneg hpos i j w (Graph.offdiag_some h).1

theorem Graph.has_negative_diagonal_false {G : Graph} (hpos : AllNonNeg G) :
    G.has_negative_diagonal = false := by
  apply Bool.eq_false_iff.mpr
  intro h
  obtain ⟨j, _, w, hadj, hw⟩ := Graph.has_negative_diagonal_iff.mp h
  have h2 : (0 : Int) ≤ w := Graph.adj_nonneg hpos j j w hadj
  omega

/-- On a non-negative graph, `bellmanGeneral` with a cutoff succeeds and is
described exactly: an entry with value `x` exists iff the shortest
simple-path length is `x` and either fits under the cutoff or is the
source's own untouched 0. -/
theorem bellmanGeneral_cut_ok {G : Graph} {source : Nat} {cc : Int}
    (hWF : G.WF) (hs : source < G.n) (hpos : AllNonNeg G) :
    bellmanGeneral G source (some cc) =
      .ok (relaxW G.n G.offdiag (some cc) (srcSingle source) (G.n - 1)) ∧
    (∀ j x, relaxW G.n G.offdiag (some cc) (srcSingle source) (G.n - 1) j =
        some x ↔
      (spLen G.n G.adj (srcSingle source) j = some x ∧
        (x ≤ cc ∨ (j = source ∧ x = 0)))) := by
  have hAoff : ∀ i j, (G.offdiag i j).isSome = true → i < G.n ∧ j < G.n :=
    fun i j h => Graph.offdiag_lt hWF h
  have hsrc1 := srcSingle_lt hs
  have hposoff := Graph.offdiag_nonneg hpos
  have hnc : ∀ u v, srcSingle source u = true → HasWalk G.offdiag u v →
      ¬ NegCycleFrom G.offdiag v := by
    rintro u v _ _ ⟨l, x, _, _, hw, hx⟩
    have := walk_nonneg hposoff l v x hw
    omega
  constructor
  · rw [bellmanGeneral_eq hWF hs]
    rw [if_neg (by
      rw [no_improvement_of_stab (relaxW_cut_stab hAoff hsrc1 hposoff)]
      simp)]
    rw [if_neg (by
      rw [Graph.has_negative_diagonal_false hpos]
      simp)]
  · intro j x
    rw [relaxW_cut_char hposoff]
    rw [Graph.spLen_adj_offdiag]
    rw [relaxW_eq_spLen hAoff hsrc1 hnc j]
    constructor
    · rintro ⟨h1, h2⟩
      refine ⟨h1, ?_⟩
      rcases h2 with h2 | ⟨h2, h3⟩
      · exact Or.inl h2
      · exact Or.inr ⟨srcSingle_iff.mp h2, h3⟩
    · rintro ⟨h1, h2⟩
      refine ⟨h1, ?_⟩
      rcases h2 with h2 | ⟨h2, h3⟩
      · exact Or.inl h2
      · exact Or.inr ⟨srcSingle_iff.mpr h2, h3⟩

/-! ### Level BFS versus unit-weight relaxation -/

theorem unitOf_some {A : Mtx} {i j : Nat} {w : Int}
    (h : unitOf A i j = some w) : w = 1 ∧ (A i j).isSome = true := by
  unfold unitOf at h
  cases hA : A i j with
  | none => rw [hA] at h; cases h
  | some w0 =>
    rw [hA] at h
    have : some (1 : Int) = some w := h
    exact ⟨by injection this with h2; omega, rfl⟩

theorem unitOf_of_some {A : Mtx} {i j : Nat} (h : (A i j).isSome = true) :
    unitOf A i j = some 1 := by
  unfold unitOf
  obtain ⟨w, hw⟩ := Option.isSome_iff_exists.mp h
  rw [hw]
  rfl

theorem unit_walk_len {A : Mtx} :
    ∀ (l : List Nat) (u : Nat) (x : Int),
      walkWeight (unitOf A) u l = some x → x = (l.length : Int) := by
  intro l
  induction l with
  | nil =>
    intro u x h
    have : (some 0 : Option Int) = some x := h
    injection this with h2
    simp [← h2]
  | cons v t ih =>
    intro u x h
    unfold walkWeight at h
    cases he : unitOf A u v with
    | none => rw [he] at h; cases h
    | some w =>
      rw [he] at h
      cases ht : walkWeight (unitOf A) v t with
      | none => rw [ht] at h; cases h
      | some y =>
        rw [ht] at h
        have hx : w + y = x := by
          have : some (w + y) = some x := h
          injection this
        have hw1 := (unitOf_some he).1
        have hy := ih v y ht
        simp only [List.length_cons]
        push_cast
        omega

theorem unitW_val_le {n : Nat} {A : Mtx} {src : Nat → Bool} :
    ∀ (t j : Nat) (h : Int),
      relaxW n (unitOf A) none src t j = some h → 0 ≤ h ∧ h ≤ (t : Int) := by
  intro t j h hW
  obtain ⟨u, l, _, hw, _, hlen⟩ := relaxW_attained t j h hW
  have := unit_walk_len l u h hw
  constructor <;> omega

/-- In the unit-weight recursion a found level transfers to every round
count that can hold it. -/
theorem unitW_transfer {n : Nat} {A : Mtx} {src : Nat → Bool}
    (hA : ∀ i j, ((unitOf A) i j).isSome = true → i < n ∧ j < n) :
    ∀ (t t' j : Nat) (h : Int),
      relaxW n (unitOf A) none src t j = some h → h ≤ (t' : Int) →
      relaxW n (unitOf A) none src t' j = some h := by
  intro t t' j h hW hle
  obtain ⟨u, l, hu, hw, hend, _⟩ := relaxW_attained t j h hW
  have hlenh := unit_walk_len l u h hw
  have hlen' : l.length ≤ t' := by omega
  have h1 := relaxW_le_walk hA l u t' h hu hw hlen'
  rw [hend] at h1
  obtain ⟨h2, hh2, hh2le⟩ := optLE_some_right h1
  obtain ⟨u2, l2, hu2, hw2, hend2, hlen2⟩ := relaxW_attained t' j h2 hh2
  have hlenh2 := unit_walk_len l2 u2 h2 hw2
  -- the shorter walk also fits within `t` rounds
  have hlen2t : l2.length ≤ t := by
    have hlenht := unit_walk_len l u h hw
    obtain ⟨u3, l3, hu3, hw3, hend3, hlen3⟩ := relaxW_attained t j h hW
    omega
  have h3 := relaxW_le_walk hA l2 u2 t h2 hu2 hw2 hlen2t
  rw [hend2] at h3
  rw [hW] at h3
  have hhh : h ≤ h2 := optLE_some_some.mp h3
  have : h = h2 := by omega
  rw [hh2, ← this]

/-- Stability of the unit-weight recursion at one node: a node keeps its
value from one round to the next unless it is first reached exactly now. -/
theorem unitW_keep {n : Nat} {A : Mtx} {src : Nat → Bool}
    (hA : ∀ i j, ((unitOf A) i j).isSome = true → i < n ∧ j < n)
    (t : Nat) (j2 : Nat)
    (hnew : ¬ relaxW n (unitOf A) none src (t + 1) j2 = some ((t : Int) + 1)) :
    relaxW n (unitOf A) none src (t + 1) j2 =
      relaxW n (unitOf A) none src t j2 := by
  cases hW1 : relaxW n (unitOf A) none src (t + 1) j2 with
  | none =>
    cases hW0 : relaxW n (unitOf A) none src t j2 with
    | none => rfl
    | some h0 =>
      have hb := (unitW_val_le t j2 h0 hW0).2
      have htr := unitW_transfer hA t (t + 1) j2 h0 hW0 (by push_cast; omega)
      rw [hW1] at htr
      cases htr
  | some h =>
    have hb := (unitW_val_le (t + 1) j2 h hW1).2
    by_cases hht : h ≤ (t : Int)
    · exact (unitW_transfer hA (t + 1) t j2 h hW1 hht).symm
    · exfalso
      apply hnew
      have hh : h = ((t : Nat) : Int) + 1 := by push_cast at hb ⊢; omega
      rw [hW1, hh]

/-- The Level-BFS loop computes the unit-weight relaxation: from a state
that matches round `t`, running `fuel` more frontier expansions lands on
round `t + fuel`. -/
theorem bfsLevelLoop_inv {G : Graph} {source : Nat} (hWF : G.WF)
    (hs : source < G.n) :
    ∀ (fuel t : Nat) (v : Vec) (q : Nat → Bool),
      (∀ j, v j = relaxW G.n (unitOf G.adj) none (srcSingle source) t j) →
      (∀ j, q j = true ↔
        relaxW G.n (unitOf G.adj) none (srcSingle source) t j =
          some (t : Int)) →
      ∀ j, bfsLevelLoop G.n G.adj false fuel v q ((t : Int) + 1) j =
        relaxW G.n (unitOf G.adj) none (srcSingle source) (t + fuel) j := by
  have hA : ∀ i j, ((unitOf G.adj) i j).isSome = true → i < G.n ∧ j < G.n := by
    intro i j h
    obtain ⟨w, hw⟩ := Option.isSome_iff_exists.mp h
    exact Graph.adj_lt hWF (unitOf_some hw).2
  have hAsupp : ∀ i j, G.n ≤ j → unitOf G.adj i j = none := by
    intro i j hj
    cases hu : unitOf G.adj i j with
    | none => rfl
    | some w =>
      have := (hA i j (by rw [hu]; rfl)).2
      omega
  intro fuel
  induction fuel with
  | zero =>
    intro t v q hv _ j
    show v j = _
    rw [hv j, Nat.add_zero]
  | succ fuel ih =>
    intro t v q hv hq j
    have hq1 : ∀ j2, bfsFront G.n G.adj false v q j2 = true ↔
        relaxW G.n (unitOf G.adj) none (srcSingle source) (t + 1) j2 =
          some ((t : Int) + 1) := by
      intro j2
      unfold bfsFront
      rw [Bool.and_eq_true, List.any_eq_true]
      constructor
      · rintro ⟨⟨i, hir, hi⟩, hnone⟩
        rw [Bool.and_eq_true] at hi
        obtain ⟨hqi, hedge⟩ := hi
        have hWi := (hq i).mp hqi
        have hvj : relaxW G.n (unitOf G.adj) none (srcSingle source) t j2 =
            none := by
          rw [← hv j2]
          exact Option.isNone_iff_eq_none.mp hnone
        have hle : optLE
            (relaxW G.n (unitOf G.adj) none (srcSingle source) (t + 1) j2)
            (some ((t : Int) + 1)) = true := by
          rw [relaxW_succ]
          refine optLE_trans (optMin_le_right _ _) ?_
          show optLE (cutF none _) _ = true
          exact minPlusMV_le (List.mem_range.mp hir) hWi (unitOf_of_some hedge)
        obtain ⟨h, hh, hhle⟩ := optLE_some_right hle
        have hlow : ¬ h ≤ (t : Int) := by
          intro hcon
          have htr := unitW_transfer hA (t + 1) t j2 h hh hcon
          rw [hvj] at htr
          cases htr
        have hht : h = (t : Int) + 1 := by omega
        rw [hh, hht]
      · intro hj2
        have hvj : relaxW G.n (unitOf G.adj) none (srcSingle source) t j2 =
            none := by
          cases hWt : relaxW G.n (unitOf G.adj) none (srcSingle source) t j2
            with
          | none => rfl
          | some h0 =>
            have hb := (unitW_val_le t j2 h0 hWt).2
            have htr := unitW_transfer hA t (t + 1) j2 h0 hWt
              (by push_cast; omega)
            rw [hj2] at htr
            have h9 : (t : Int) + 1 = h0 := by injection htr
            omega
        refine ⟨?_, by rw [← hv j2] at hvj; simp [hvj]⟩
        have hj2' := hj2
        rw [relaxW_succ] at hj2'
        rcases optMin_cases
            (relaxW G.n (unitOf G.adj) none (srcSingle source) t j2)
            (cutF none (minPlusMV G.n
              (relaxW G.n (unitOf G.adj) none (srcSingle source) t)
              (unitOf G.adj) j2)) with he | he
        · rw [he, hvj] at hj2'
          cases hj2'
        · rw [he] at hj2'
          have hmp : minPlusMV G.n
              (relaxW G.n (unitOf G.adj) none (srcSingle source) t)
              (unitOf G.adj) j2 = some ((t : Int) + 1) := hj2'
          obtain ⟨i0, hi0, ci, w0, hci, hAw, hx⟩ := minPlusMV_attained hmp
          have hw01 := (unitOf_some hAw).1
          have hci_t : ci = (t : Int) := by omega
          refine ⟨i0, List.mem_range.mpr hi0, ?_⟩
          rw [Bool.and_eq_true]
          exact ⟨(hq i0).mpr (by rw [← hci_t]; exact hci),
            (unitOf_some hAw).2⟩
    show bfsLevelLoop G.n G.adj false (fuel + 1) v q ((t : Int) + 1) j = _
    unfold bfsLevelLoop
    by_cases hemp : ((List.range G.n).all
        fun j2 => !bfsFront G.n G.adj false v q j2) = true
    · rw [if_pos hemp]
      have hnone : ∀ j2,
          ¬ relaxW G.n (unitOf G.adj) none (srcSingle source) (t + 1) j2 =
            some ((t : Int) + 1) := by
        intro j2 hj2
        have hj2n : j2 < G.n := by
          by_contra hge
          have hsupp := @relaxW_support G.n (unitOf G.adj) none
            (srcSingle source) hAsupp (srcSingle_supp hs) (t + 1) j2
            (by omega)
          rw [hsupp] at hj2
          cases hj2
        have hall := List.all_eq_true.mp hemp j2 (List.mem_range.mpr hj2n)
        rw [(hq1 j2).mpr hj2] at hall
        simp at hall
      have hstable : ∀ j2,
          relaxW G.n (unitOf G.adj) none (srcSingle source) (t + 1) j2 =
            relaxW G.n (unitOf G.adj) none (srcSingle source) t j2 :=
        fun j2 => unitW_keep hA t j2 (hnone j2)
      have hstab := relaxW_stable G.n (unitOf G.adj) none (srcSingle source)
        hstable
      rw [hv j, hstab (t + (fuel + 1)) (by omega) j]
    · rw [if_neg hemp]
      have hrec := ih (t + 1)
        (fun j2 => if bfsFront G.n G.adj false v q j2 then
          some ((t : Int) + 1) else v j2)
        (bfsFront G.n G.adj false v q) ?_ ?_ j
      · rw [show (((t + 1 : Nat) : Int)) + 1 = ((t : Int) + 1) + 1 by
          push_cast; ring] at hrec
        rw [hrec]
        congr 1
        omega
      · intro j2
        show (if bfsFront G.n G.adj false v q j2 then some ((t : Int) + 1)
          else v j2) =
          relaxW G.n (unitOf G.adj) none (srcSingle source) (t + 1) j2
        by_cases hf : bfsFront G.n G.adj false v q j2 = true
        · rw [if_pos hf]
          exact ((hq1 j2).mp hf).symm
        · rw [if_neg hf]
          rw [hv j2]
          refine (unitW_keep hA t j2 ?_).symm
          intro hj2
          exact hf ((hq1 j2).mpr hj2)
      · intro j2
        exact hq1 j2

/-! ### Iso-valued graphs: weighted lengths are scaled hop counts -/

theorem Graph.is_iso_edges {G : Graph} (h : G.is_iso = true) :
    ∀ e ∈ G.edges, e.2.2 = G.iso_value := by
  intro e he
  unfold Graph.is_iso at h
  unfold Graph.iso_value
  cases hE : G.edges with
  | nil =>
    rw [hE] at he
    cases he
  | cons e0 es =>
    rw [hE] at he h
    rcases List.mem_cons.mp he with rfl | he2
    · rfl
    · have h3 := List.all_eq_true.mp h e he2
      simpa using h3

theorem Graph.adj_iso {G : Graph} (h : G.is_iso = true) {i j : Nat} {x : Int}
    (hadj : G.adj i j = some x) : x = G.iso_value := by
  have hmem := Graph.adj_some_mem hadj
  exact Graph.is_iso_edges h _ hmem

theorem Graph.has_negative_edges_false_iff {G : Graph} :
    G.has_negative_edges = false ↔ AllNonNeg G := by
  unfold Graph.has_negative_edges AllNonNeg
  rw [← Bool.not_eq_true, List.any_eq_true]
  constructor
  · intro h e he
    by_contra hneg
    exact h ⟨e, he, by simp; omega⟩
  · rintro h ⟨e, he, hneg⟩
    have := h e he
    simp at hneg
    omega

/-- On an iso-valued graph every walk weighs its length times the shared
value. -/
theorem walk_iso_scale {G : Graph} (hiso : G.is_iso = true) :
    ∀ (l : List Nat) (u : Nat) (x : Int), walkWeight G.adj u l = some x →
      x = G.iso_value * (l.length : Int) ∧
      walkWeight (unitOf G.adj) u l = some (l.length : Int) := by
  intro l
  induction l with
  | nil =>
    intro u x h
    have h1 : (some 0 : Option Int) = some x := h
    have h2 : (0 : Int) = x := by injection h1
    constructor
    · simp [← h2]
    · rfl
  | cons v t ih =>
    intro u x h
    unfold walkWeight at h
    cases he : G.adj u v with
    | none => rw [he] at h; cases h
    | some w =>
      rw [he] at h
      cases ht : walkWeight G.adj v t with
      | none => rw [ht] at h; cases h
      | some y =>
        rw [ht] at h
        have hx : w + y = x := by
          have h1 : some (w + y) = some x := h
          injection h1
        obtain ⟨hy, hunit⟩ := ih v y ht
        have hw : w = G.iso_value := Graph.adj_iso hiso he
        constructor
        · simp only [List.length_cons]
          push_cast
          rw [← hx, hw, hy]
          ring
        · show walkWeight (unitOf G.adj) u (v :: t) = _
          unfold walkWeight
          rw [unitOf_of_some (by rw [he]; rfl), hunit]
          simp only [List.length_cons]
          push_cast
          show some (1 + (t.length : Int)) = some ((t.length : Int) + 1)
          rw [Int.add_comm]

/-- Conversely, a unit walk of length `h` weighs `iso_value * h` in the
original matrix. -/
theorem walk_iso_unscale {G : Graph} (hiso : G.is_iso = true) :
    ∀ (l : List Nat) (u : Nat) (h : Int),
      walkWeight (unitOf G.adj) u l = some h →
      walkWeight G.adj u l = some (G.iso_value * (l.length : Int)) := by
  intro l
  induction l with
  | nil => intro u h _; simp [walkWeight]
  | cons v t ih =>
    intro u h hw
    unfold walkWeight at hw
    cases he : unitOf G.adj u v with
    | none => rw [he] at hw; cases hw
    | some w =>
      rw [he] at hw
      cases ht : walkWeight (unitOf G.adj) v t with
      | none => rw [ht] at hw; cases hw
      | some y =>
        obtain ⟨w0, hadj⟩ := Option.isSome_iff_exists.mp (unitOf_some he).2
        have hw0 : w0 = G.iso_value := Graph.adj_iso hiso hadj
        have hrest := ih v y ht
        show walkWeight G.adj u (v :: t) = _
        unfold walkWeight
        rw [hadj, hrest]
        simp only [List.length_cons]
        push_cast
        rw [hw0]
        show some (G.iso_value + G.iso_value * (t.length : Int)) = _
        have : G.iso_value + G.iso_value * (t.length : Int) =
            G.iso_value * ((t.length : Int) + 1) := by ring
        rw [this]

/-- The shortest path length on an iso graph is the scaled hop count. -/
theorem spLen_iso {G : Graph} (hWF : G.WF) (hiso : G.is_iso = true)
    (hw : 0 ≤ G.iso_value) (src : Nat → Bool) (j : Nat) :
    spLen G.n G.adj src j =
      (spLen G.n (unitOf G.adj) src j).map (fun h => G.iso_value * h) := by
  have hA : ∀ i j, (G.adj i j).isSome = true → i < G.n ∧ j < G.n :=
    fun i j h => Graph.adj_lt hWF h
  cases hu : spLen G.n (unitOf G.adj) src j with
  | none =>
    show spLen G.n G.adj src j = none
    cases ha : spLen G.n G.adj src j with
    | none => rfl
    | some x =>
      obtain ⟨u, l, hun, hsu, hwk, hend, hnd⟩ := spLen_attained ha
      obtain ⟨_, hunit⟩ := walk_iso_scale hiso l u x hwk
      have hlt : ∀ v ∈ l, v < G.n := walk_nodes_lt hA l u x hwk
      have hle := spLen_le hsu hun hlt hnd hunit
      rw [hend, hu] at hle
      simp [optLE] at hle
  | some h =>
    obtain ⟨u, l, hun, hsu, hwk, hend, hnd⟩ := spLen_attained hu
    have hlen : h = (l.length : Int) := unit_walk_len l u h hwk
    have hadjw := walk_iso_unscale hiso l u h hwk
    have hlt : ∀ v ∈ l, v < G.n := by
      intro v hv
      exact walk_nodes_lt hA l u _ hadjw v hv
    have hle := spLen_le hsu hun hlt hnd hadjw
    rw [hend] at hle
    obtain ⟨x, hx, hxle⟩ := optLE_some_right hle
    -- the found value cannot be better than the scaled hop count
    obtain ⟨u2, l2, hun2, hsu2, hwk2, hend2, hnd2⟩ := spLen_attained hx
    obtain ⟨hx2, hunit2⟩ := walk_iso_scale hiso l2 u2 x hwk2
    have hlt2 : ∀ v ∈ l2, v < G.n := walk_nodes_lt hA l2 u2 x hwk2
    have hle2 := spLen_le hsu2 hun2 hlt2 hnd2 hunit2
    rw [hend2, hu] at hle2
    have hh2 : h ≤ (l2.length : Int) := optLE_some_some.mp hle2
    have hxh : x = G.iso_value * h := by
      have h1 : G.iso_value * h ≤ G.iso_value * (l2.length : Int) :=
        mul_le_mul_of_nonneg_left hh2 hw
      rw [hlen] at h1 ⊢
      omega
    rw [hx, hxh]
    rfl

/-- Values of the unit-weight recursion, in terms of hop counts. -/
theorem unitW_char {G : Graph} {source : Nat} (hWF : G.WF)
    (hs : source < G.n) :
    ∀ (t : Nat) (j : Nat) (h : Int), t ≤ G.n - 1 →
      (relaxW G.n (unitOf G.adj) none (srcSingle source) t j = some h ↔
        (spLen G.n (unitOf G.adj) (srcSingle source) j = some h ∧
          h ≤ (t : Int))) := by
  have hA : ∀ i j, ((unitOf G.adj) i j).isSome = true → i < G.n ∧ j < G.n := by
    intro i j h
    obtain ⟨w, hw⟩ := Option.isSome_iff_exists.mp h
    exact Graph.adj_lt hWF (unitOf_some hw).2
  have hpos : ∀ i j w, unitOf G.adj i j = some w → 0 ≤ w := by
    intro i j w h
    have := (unitOf_some h).1
    omega
  have hnc : ∀ u v, srcSingle source u = true → HasWalk (unitOf G.adj) u v →
      ¬ NegCycleFrom (unitOf G.adj) v := by
    rintro u v _ _ ⟨l, x, _, _, hw, hx⟩
    have := walk_nonneg hpos l v x hw
    omega
  intro t j h ht
  constructor
  · intro hW
    have hle := (unitW_val_le t j h hW).2
    have htr := unitW_transfer hA t (G.n - 1) j h hW
      (by
        have : (t : Int) ≤ ((G.n - 1 : Nat) : Int) := by exact_mod_cast ht
        omega)
    rw [relaxW_eq_spLen hA (srcSingle_lt hs) hnc j] at htr
    exact ⟨htr, hle⟩
  · rintro ⟨hsp, hle⟩
    have h9 : relaxW G.n (unitOf G.adj) none (srcSingle source) (G.n - 1) j =
        some h := by
      rw [relaxW_eq_spLen hA (srcSingle_lt hs) hnc j]
      exact hsp
    exact unitW_transfer hA (G.n - 1) t j h h9 hle

/-- The modelled `_bfs_level` evaluates the unit-weight recursion for the
effective number of rounds. -/
theorem bfs_level_eq {G : Graph} {source : Nat} (hWF : G.WF)
    (hs : source < G.n) (bound : Option Int) :
    ∀ j, bfs_level G source bound false j =
      relaxW G.n (unitOf G.adj) none (srcSingle source)
        (match bound with
          | none => G.n - 1
          | some b => min b.toNat (G.n - 1)) j := by
  intro j
  unfold bfs_level
  have hv : ∀ j2, (fun j3 => if j3 == source then some (0 : Int) else none) j2
      = relaxW G.n (unitOf G.adj) none (srcSingle source) 0 j2 := by
    intro j2
    rfl
  have hq : ∀ j2, srcSingle source j2 = true ↔
      relaxW G.n (unitOf G.adj) none (srcSingle source) 0 j2 =
        some ((0 : Nat) : Int) := by
    intro j2
    show _ ↔ seedVec (srcSingle source) j2 = some 0
    unfold seedVec
    by_cases hj2 : srcSingle source j2 = true
    · rw [hj2]
      simp
    · simp [hj2]
  have hinv := bfsLevelLoop_inv hWF hs
    (match bound with
      | none => G.n - 1
      | some b => min b.toNat (G.n - 1)) 0
    (fun j3 => if j3 == source then some (0 : Int) else none)
    (srcSingle source) hv hq j
  rw [show (((0 : Nat) : Int) + 1) = (1 : Int) by norm_num] at hinv
  rw [hinv]
  rw [Nat.zero_add]

/-- Hop counts are non-negative, at most `n - 1`, and `0` exactly at the
source. -/
theorem spLen_unit_facts {G : Graph} {source : Nat} (hWF : G.WF)
    (hs : source < G.n) :
    (spLen G.n (unitOf G.adj) (srcSingle source) source = some 0) ∧
    (∀ j h, spLen G.n (unitOf G.adj) (srcSingle source) j = some h →
      0 ≤ h ∧ h ≤ ((G.n - 1 : Nat) : Int) ∧ (h = 0 → j = source)) := by
  have hA : ∀ i j, ((unitOf G.adj) i j).isSome = true → i < G.n ∧ j < G.n := by
    intro i j h
    obtain ⟨w, hw⟩ := Option.isSome_iff_exists.mp h
    exact Graph.adj_lt hWF (unitOf_some hw).2
  constructor
  · apply optLE_antisymm
    · have h8 := @spLen_le G.n (unitOf G.adj) (srcSingle source) source [] 0
        (srcSingle_iff.mpr rfl) hs
        (by intro v hv; cases hv) (List.nodup_singleton source) rfl
      exact h8
    · cases hsp : spLen G.n (unitOf G.adj) (srcSingle source) source with
      | none => exact optLE_none_right _
      | some h =>
        obtain ⟨u, l, _, hsu, hw, _, _⟩ := spLen_attained hsp
        have hlen := unit_walk_len l u h hw
        rw [optLE_some_some]
        omega
  · intro j h hsp
    obtain ⟨u, l, hun, hsu, hw, hend, hnd⟩ := spLen_attained hsp
    have hlen := unit_walk_len l u h hw
    have hus : u = source := srcSingle_iff.mp hsu
    have hlt : ∀ v ∈ l, v < G.n := by
      intro v hv
      obtain ⟨x2, hx2⟩ := Option.isSome_iff_exists.mp
        (Option.isSome_iff_exists.mpr ⟨h, hw⟩)
      exact walk_nodes_lt hA l u h hw v hv
    have hlbound : l.length ≤ G.n - 1 := nodup_walk_length hnd (by omega) hlt
    have hcast : (l.length : Int) ≤ ((G.n - 1 : Nat) : Int) := by
      exact_mod_cast hlbound
    refine ⟨by omega, by omega, ?_⟩
    intro h0
    have : l = [] := by
      apply List.length_eq_zero.mp
      omega
    subst this
    rw [← hend, hus]
    rfl

theorem Graph.iso_neg_value {G : Graph} (hiso : G.is_iso = true)
    (hneg : G.has_negative_edges = true) : G.iso_value < 0 := by
  unfold Graph.has_negative_edges at hneg
  rw [List.any_eq_true] at hneg
  obtain ⟨e, he, hlt⟩ := hneg
  have := Graph.is_iso_edges hiso e he
  simp at hlt
  omega

theorem Graph.iso_nonneg_value {G : Graph} (hiso : G.is_iso = true)
    (hneg : G.has_negative_edges = false) : 0 ≤ G.iso_value := by
  have hnn := Graph.has_negative_edges_false_iff.mp hneg
  unfold Graph.is_iso at hiso
  cases hE : G.edges with
  | nil => rw [hE] at hiso; cases hiso
  | cons e0 es =>
    have := hnn e0 (by rw [hE]; exact List.mem_cons_self e0 es)
    unfold Graph.iso_value
    rw [hE]
    exact this

theorem allNonNeg_noNegCycle {G : Graph} (hpos : AllNonNeg G)
    (src : Nat → Bool) : ¬ NegCycleReachable G.adj src := by
  rintro ⟨u, j, _, _, l, x, _, _, hw, hx⟩
  have := walk_nonneg (Graph.adj_nonneg hpos) l j x hw
  omega

theorem iso_fast_value (G : Graph) (source : Nat) (bound : Option Int) :
    ∀ j, (if G.iso_value == 1 then bfs_level G source bound false
      else vecScale G.iso_value (bfs_level G source bound false)) j =
      (bfs_level G source bound false j).map
        (fun h => G.iso_value * h) := by
  intro j
  by_cases h1 : G.iso_value = 1
  · rw [if_pos (by simpa using h1)]
    cases hb : bfs_level G source bound false j with
    | none => rfl
    | some h =>
      show some h = some (G.iso_value * h)
      rw [h1, Int.one_mul]
  · rw [if_neg (by simpa using h1)]
    rfl

theorem unitW_full {G : Graph} {source : Nat} (hWF : G.WF)
    (hs : source < G.n) :
    ∀ j, relaxW G.n (unitOf G.adj) none (srcSingle source) (G.n - 1) j =
      spLen G.n (unitOf G.adj) (srcSingle source) j := by
  have hA : ∀ i j, ((unitOf G.adj) i j).isSome = true → i < G.n ∧ j < G.n := by
    intro i j h
    obtain ⟨w, hw⟩ := Option.isSome_iff_exists.mp h
    exact Graph.adj_lt hWF (unitOf_some hw).2
  have hpos : ∀ i j w, unitOf G.adj i j = some w → 0 ≤ w := by
    intro i j w h
    have := (unitOf_some h).1
    omega
  have hnc : ∀ u v, srcSingle source u = true → HasWalk (unitOf G.adj) u v →
      ¬ NegCycleFrom (unitOf G.adj) v := by
    rintro u v _ _ ⟨l, x, _, _, hw, hx⟩
    have := walk_nonneg hpos l v x hw
    omega
  exact relaxW_eq_spLen hA (srcSingle_lt hs) hnc

theorem bfs_level_none_eq {G : Graph} {source : Nat} (hWF : G.WF)
    (hs : source < G.n) :
    ∀ j, bfs_level G source none false j =
      relaxW G.n (unitOf G.adj) none (srcSingle source) (G.n - 1) j :=
  fun j => bfs_level_eq hWF hs none j

theorem bfs_level_some_eq {G : Graph} {source : Nat} (hWF : G.WF)
    (hs : source < G.n) (b : Int) :
    ∀ j, bfs_level G source (some b) false j =
      relaxW G.n (unitOf G.adj) none (srcSingle source)
        (min b.toNat (G.n - 1)) j :=
  fun j => bfs_level_eq hWF hs (some b) j

/-- Without a cutoff and without a reachable negative cycle, the single
source algorithm returns exactly the shortest simple-path lengths. -/
theorem single_source_none_ok {G : Graph} {source : Nat} (hWF : G.WF)
    (hs : source < G.n)
    (hnc : ¬ NegCycleReachable G.adj (srcSingle source)) :
    ∃ d, single_source_bellman_ford_path_length G source none = .ok d ∧
      ∀ j, d j = spLen G.n G.adj (srcSingle source) j := by
  by_cases hiso : G.is_iso = true
  · by_cases hneg : G.has_negative_edges = true
    · -- an iso graph with a negative shared value: the quick checks cannot
      -- fire, because the source would reach a negative cycle
      have hw0 : G.iso_value < 0 := Graph.iso_neg_value hiso hneg
      have hsl : (G.adj source source).isSome = false := by
        apply Bool.eq_false_iff.mpr
        intro hsome
        obtain ⟨w, hw⟩ := Option.isSome_iff_exists.mp hsome
        have hwv : w = G.iso_value := Graph.adj_iso hiso hw
        exact hnc ⟨source, source, srcSingle_iff.mpr rfl, hasWalk_refl _ _,
          Graph.negloop_negCycleFrom hw (by omega)⟩
      have hrow : (!G.directed && G.rowNonempty source) = false := by
        apply Bool.eq_false_iff.mpr
        intro hcond
        rw [Bool.and_eq_true] at hcond
        obtain ⟨hdir, hrow1⟩ := hcond
        unfold Graph.rowNonempty at hrow1
        rw [List.any_eq_true] at hrow1
        obtain ⟨j0, hj0r, hj0⟩ := hrow1
        obtain ⟨w, hw⟩ := Option.isSome_iff_exists.mp hj0
        have hwv : w = G.iso_value := Graph.adj_iso hiso hw
        have hdir2 : G.directed = false := by simpa using hdir
        have hsym := hWF.2.2 hdir2 source (List.mem_range.mpr hs) j0 hj0r
        have hback : G.adj j0 source = some w := by rw [← hsym]; exact hw
        apply hnc
        refine ⟨source, source, srcSingle_iff.mpr rfl, hasWalk_refl _ _,
          [j0, source], w + (w + 0), by simp, rfl, ?_, by omega⟩
        show walkWeight G.adj source [j0, source] = some (w + (w + 0))
        simp [walkWeight, hw, hback]
      obtain ⟨hbg, hval⟩ := bellmanGeneral_none_ok hWF hs hnc
      refine ⟨_, ?_, hval⟩
      unfold single_source_bellman_ford_path_length
      simp [hiso, hneg, hsl, hrow, hbg]
    · -- the iso fast path: scaled level BFS
      have hnegF : G.has_negative_edges = false := by
        cases h : G.has_negative_edges
        · rfl
        · exact absurd h hneg
      have hwpos : 0 ≤ G.iso_value := Graph.iso_nonneg_value hiso hnegF
      refine ⟨(if G.iso_value == 1 then bfs_level G source none false
        else vecScale G.iso_value (bfs_level G source none false)), ?_, ?_⟩
      · unfold single_source_bellman_ford_path_length
        simp [hiso, hnegF]
      · intro j
        rw [iso_fast_value G source none j]
        rw [bfs_level_none_eq hWF hs j]
        rw [unitW_full hWF hs j]
        rw [spLen_iso hWF hiso hwpos]
  · have hisoF : G.is_iso = false := by
      cases h : G.is_iso
      · rfl
      · exact absurd h hiso
    obtain ⟨hbg, hval⟩ := bellmanGeneral_none_ok hWF hs hnc
    refine ⟨_, ?_, hval⟩
    unfold single_source_bellman_ford_path_length
    simp [hisoF, hbg]

/-- Without a cutoff, a reachable negative cycle always raises `Unbounded`. -/
theorem single_source_none_raise {G : Graph} {source : Nat} (hWF : G.WF)
    (hs : source < G.n)
    (hcy : NegCycleReachable G.adj (srcSingle source)) :
    single_source_bellman_ford_path_length G source none =
      .error .unbounded := by
  by_cases hiso : G.is_iso = true
  · by_cases hneg : G.has_negative_edges = true
    · unfold single_source_bellman_ford_path_length
      by_cases hsl : (G.adj source source).isSome = true
      · simp [hiso, hneg, hsl]
      · by_cases hrow : (!G.directed && G.rowNonempty source) = true
        · simp [hiso, hneg, hsl, hrow]
        · have hbg := bellmanGeneral_none_raise hWF hs hcy
          simp [hiso, hneg, hsl, hrow, hbg]
    · -- impossible: an iso graph without negative edges has no negative
      -- cycle at all
      exfalso
      have hnegF : G.has_negative_edges = false := by
        cases h : G.has_negative_edges
        · rfl
        · exact absurd h hneg
      exact allNonNeg_noNegCycle
        (Graph.has_negative_edges_false_iff.mp hnegF) _ hcy
  · have hisoF : G.is_iso = false := by
      cases h : G.is_iso
      · rfl
      · exact absurd h hiso
    have hbg := bellmanGeneral_none_raise hWF hs hcy
    unfold single_source_bellman_ford_path_length
    simp [hisoF, hbg]

theorem fdiv_bound_iff {w cc h : Int} (hw : 0 < w) (hh : 0 ≤ h) :
    h ≤ ((Int.fdiv cc w).toNat : Int) ↔ (w * h ≤ cc ∨ h = 0) := by
  rw [Int.fdiv_eq_ediv _ (le_of_lt hw)]
  by_cases hc : 0 ≤ cc
  · have hq : 0 ≤ cc / w := Int.ediv_nonneg hc (le_of_lt hw)
    rw [Int.toNat_of_nonneg hq]
    rw [Int.le_ediv_iff_mul_le hw]
    constructor
    · intro h1
      exact Or.inl (by rw [mul_comm]; exact h1)
    · rintro (h1 | h1)
      · rw [mul_comm]
        exact h1
      · subst h1
        simpa using hc
  · have hq : cc / w < 0 := Int.ediv_neg' (by omega) hw
    rw [Int.toNat_of_nonpos (le_of_lt hq)]
    constructor
    · intro h1
      right
      omega
    · rintro (h1 | h1)
      · exfalso
        nlinarith
      · omega

/-- With a cutoff on a graph without negative edges (and, for an iso graph,
a nonzero shared weight) the algorithm succeeds and each returned entry is
the true shortest distance kept only when within the cutoff, the seed zero
at the source always surviving. -/
theorem single_source_cut_ok {G : Graph} {source : Nat} {cc : Int}
    (hWF : G.WF) (hs : source < G.n) (hpos : AllNonNeg G)
    (hnz : G.is_iso = true → G.iso_value ≠ 0) :
    ∃ d, single_source_bellman_ford_path_length G source (some cc) = .ok d ∧
      ∀ j x, d j = some x ↔
        (spLen G.n G.adj (srcSingle source) j = some x ∧
          (x ≤ cc ∨ (j = source ∧ x = 0))) := by
  by_cases hiso : G.is_iso = true
  · have hneg : G.has_negative_edges = false :=
      Graph.has_negative_edges_false_iff.mpr hpos
    have hw0 : 0 ≤ G.iso_value := Graph.iso_nonneg_value hiso hneg
    have hwpos : 0 < G.iso_value := lt_of_le_of_ne hw0 (Ne.symm (hnz hiso))
    refine ⟨(if G.iso_value == 1 then
        bfs_level G source (some (Int.fdiv cc G.iso_value)) false
      else vecScale G.iso_value
        (bfs_level G source (some (Int.fdiv cc G.iso_value)) false)),
      ?_, ?_⟩
    · unfold single_source_bellman_ford_path_length
      have hz : (G.iso_value == 0) = false := by
        simp [hnz hiso]
      simp [hiso, hneg, hz]
    · intro j x
      rw [iso_fast_value G source (some (Int.fdiv cc G.iso_value)) j]
      rw [bfs_level_some_eq hWF hs (Int.fdiv cc G.iso_value) j]
      rw [spLen_iso hWF hiso hw0]
      constructor
      · intro hmap
        obtain ⟨h, hrel, hx⟩ := Option.map_eq_some'.mp hmap
        obtain ⟨hsp, hle⟩ := (unitW_char hWF hs
          (min (Int.fdiv cc G.iso_value).toNat (G.n - 1)) j h
          (Nat.min_le_right _ _)).mp hrel
        have hfacts := (spLen_unit_facts hWF hs).2 j h hsp
        constructor
        · rw [hsp]
          simpa using hx
        · have h1 : h ≤ ((Int.fdiv cc G.iso_value).toNat : Int) := by
            have h2 := Nat.min_le_left (Int.fdiv cc G.iso_value).toNat
              (G.n - 1)
            omega
          rcases (fdiv_bound_iff hwpos hfacts.1).mp h1 with h2 | h2
          · left
            rw [← hx]
            exact h2
          · right
            refine ⟨hfacts.2.2 h2, ?_⟩
            rw [← hx, h2, mul_zero]
      · rintro ⟨hsp, hcond⟩
        obtain ⟨h, hu, hx⟩ := Option.map_eq_some'.mp hsp
        have hfacts := (spLen_unit_facts hWF hs).2 j h hu
        have hcases : G.iso_value * h ≤ cc ∨ h = 0 := by
          rcases hcond with h2 | ⟨h2, h3⟩
          · left
            rw [hx]
            exact h2
          · right
            subst h2
            have h0 := (spLen_unit_facts hWF hs).1
            rw [h0] at hu
            injection hu with hu
            omega
        have hle2 : h ≤ ((Int.fdiv cc G.iso_value).toNat : Int) :=
          (fdiv_bound_iff hwpos hfacts.1).mpr hcases
        have hb := hfacts.2.1
        have hlen : h ≤
            ((min (Int.fdiv cc G.iso_value).toNat (G.n - 1) : Nat) : Int) := by
          omega
        rw [(unitW_char hWF hs
          (min (Int.fdiv cc G.iso_value).toNat (G.n - 1)) j h
          (Nat.min_le_right _ _)).mpr ⟨hu, hlen⟩]
        simpa using hx
  · have hisoF : G.is_iso = false := by
      cases h : G.is_iso
      · rfl
      · exact absurd h hiso
    obtain ⟨hbg, hch⟩ := bellmanGeneral_cut_ok hWF hs hpos
    refine ⟨relaxW G.n G.offdiag (some cc) (srcSingle source) (G.n - 1),
      ?_, ?_⟩
    · unfold single_source_bellman_ford_path_length
      simp [hisoF]
      exact hbg
    · intro j x
      exact hch j x

/-- A cutoff together with a zero shared iso weight raises
`ZeroDivisionError` before any relaxation happens. -/
theorem single_source_zero_div {G : Graph} {source : Nat} {cc : Int}
    (hiso : G.is_iso = true) (hneg : G.has_negative_edges = false)
    (hz : G.iso_value = 0) :
    single_source_bellman_ford_path_length G source (some cc) =
      .error .zeroDivision := by
  unfold single_source_bellman_ford_path_length
  simp [hiso, hneg, hz]

/-! ### The matrix (multi-source) form -/

theorem iso_scale_value (G : Graph) (d : Vec) (j : Nat) :
    (if G.iso_value == 1 then d else vecScale G.iso_value d) j =
      (d j).map (fun h => G.iso_value * h) := by
  by_cases h1 : G.iso_value = 1
  · rw [if_pos (by simpa using h1)]
    cases hb : d j with
    | none => rfl
    | some h =>
      show some h = some (G.iso_value * h)
      rw [h1, Int.one_mul]
  · rw [if_neg (by simpa using h1)]
    rfl

theorem walk_neg_edge {A : Mtx} :
    ∀ (l : List Nat) (u : Nat) (x : Int), walkWeight A u l = some x → x < 0 →
      ∃ i j w, A i j = some w ∧ w < 0 := by
  intro l
  induction l with
  | nil =>
    intro u x hw hx
    injection hw with hw
    omega
  | cons v t ih =>
    intro u x hw hx
    unfold walkWeight at hw
    cases hA : A u v with
    | none => rw [hA] at hw; cases hw
    | some w1 =>
      rw [hA] at hw
      cases ht : walkWeight A v t with
      | none => rw [ht] at hw; cases hw
      | some x2 =>
        rw [ht] at hw
        injection hw with hw
        by_cases hx2 : x2 < 0
        · exact ih v x2 ht hx2
        · exact ⟨u, v, w1, hA, by omega⟩

theorem walk_first_step {A : Mtx} {u : Nat} {l : List Nat} {x : Int}
    (hne : l ≠ []) (hw : walkWeight A u l = some x) :
    ∃ v, (A u v).isSome = true := by
  cases l with
  | nil => exact absurd rfl hne
  | cons v t =>
    unfold walkWeight at hw
    cases hA : A u v with
    | none => rw [hA] at hw; cases hw
    | some w1 => exact ⟨v, by rw [hA]; rfl⟩

theorem hncOff_of_hnc {G : Graph} {src : Nat → Bool}
    (hnc : ¬ NegCycleReachable G.adj src) :
    ∀ u v, src u = true → HasWalk G.offdiag u v →
      ¬ NegCycleFrom G.offdiag v := by
  intro u v hu hw hcy
  exact hnc ⟨u, v, hu, Graph.hasWalk_offdiag_to_adj hw,
    Graph.negCycleFrom_offdiag_to_adj hcy⟩

theorem undirected_negrow_cycle {G : Graph} (hWF : G.WF) {s : Nat}
    (hs : s < G.n) (hdir : G.directed = false) (hrow : G.rowNonempty s = true)
    (hiso : G.is_iso = true) (hwneg : G.iso_value < 0) :
    NegCycleReachable G.adj (srcSingle s) := by
  unfold Graph.rowNonempty at hrow
  rw [List.any_eq_true] at hrow
  obtain ⟨j0, hj0r, hj0⟩ := hrow
  obtain ⟨w, hw⟩ := Option.isSome_iff_exists.mp hj0
  have hwv : w = G.iso_value := Graph.adj_iso hiso hw
  have hsym := hWF.2.2 hdir s (List.mem_range.mpr hs) j0 hj0r
  have hback : G.adj j0 s = some w := by rw [← hsym]; exact hw
  refine ⟨s, s, srcSingle_iff.mpr rfl, hasWalk_refl _ _,
    [j0, s], w + (w + 0), by simp, rfl, ?_, by omega⟩
  show walkWeight G.adj s [j0, s] = some (w + (w + 0))
  simp [walkWeight, hw, hback]

theorem matSeed_eq (nodes : Option (List Nat)) :
    matSeed nodes = fun r => seedVec (matSrcs nodes r) := by
  funext r j
  cases nodes with
  | none => rfl
  | some ns =>
    show (match ns[r]? with
      | some s => seedVec (srcSingle s)
      | none => fun _ => none) j =
      seedVec (match ns[r]? with
        | some s => srcSingle s
        | none => fun _ => false) j
    cases h : ns[r]? with
    | none => rfl
    | some s => rfl

theorem matSrcs_supp {G : Graph} {ns : List Nat} (hWF : G.WF)
    (hns : ∀ s ∈ ns, s < G.n) :
    ∀ r j, G.n ≤ j → matSrcs (some ns) r j = false := by
  intro r j hj
  show (match ns[r]? with
    | some s => srcSingle s
    | none => fun _ => false) j = false
  cases h : ns[r]? with
  | none => rfl
  | some s =>
    have hsn : s < G.n := hns s (List.getElem?_mem h)
    exact srcSingle_supp hsn j hj

theorem matSrcs_lt {G : Graph} {ns : List Nat}
    (hns : ∀ s ∈ ns, s < G.n) :
    ∀ r u, matSrcs (some ns) r u = true → u < G.n := by
  intro r u hu
  revert hu
  show (match ns[r]? with
    | some s => srcSingle s
    | none => fun _ => false) u = true → u < G.n
  cases h : ns[r]? with
  | none => intro hu; cases hu
  | some s =>
    intro hu
    have hsn : s < G.n := hns s (List.getElem?_mem h)
    exact srcSingle_lt hsn u hu

theorem matSrcs_some {ns : List Nat} {r s : Nat} (h : ns[r]? = some s) :
    matSrcs (some ns) r = srcSingle s := by
  show (match ns[r]? with
    | some s => srcSingle s
    | none => fun _ => false) = srcSingle s
  rw [h]

theorem matEmptyB_iff {rows n : Nat} {M : Nat → Vec} :
    matEmptyB rows n M = true ↔ ∀ r < rows, vecEmptyB n (M r) = true := by
  unfold matEmptyB
  rw [List.all_eq_true]
  constructor
  · intro h r hr
    exact h r (List.mem_range.mpr hr)
  · intro h r hr
    exact h r (List.mem_range.mp hr)

/-- The matrix loop runs the reference relaxation independently in each row,
with the break firing exactly when every row's frontier is empty. -/
theorem bfLoopM_spec {rows n : Nat} {A : Mtx} {srcs : Nat → Nat → Bool}
    (hA : ∀ i j, n ≤ j → A i j = none)
    (hsrc : ∀ r j, n ≤ j → srcs r j = false) :
    ∀ (fuel k : Nat) (res : (Nat → Vec) × (Nat → Vec) × Bool),
    res = bfLoopM rows n A fuel (fun r => relaxW n A none (srcs r) k)
        (fun r => frontSpec n A none (srcs r) k) →
    (∀ r, r < rows → res.1 r = relaxW n A none (srcs r) (k + fuel)) ∧
    (∀ r, r < rows → res.2.1 r = frontSpec n A none (srcs r) (k + fuel)) ∧
    res.2.2 = ((fuel != 0) &&
      matEmptyB rows n (fun r => frontSpec n A none (srcs r) (k + fuel))) := by
  intro fuel
  induction fuel with
  | zero =>
    intro k res hres
    simp only [bfLoopM] at hres
    subst hres
    refine ⟨fun r _ => by simp, fun r _ => by simp, by simp⟩
  | succ fuel ih =>
    intro k res hres
    simp only [bfLoopM] at hres
    have hC2 : (fun r => (bfStep n A none (relaxW n A none (srcs r) k)
        (frontSpec n A none (srcs r) k)).2) =
        fun r => frontSpec n A none (srcs r) (k + 1) :=
      funext fun r => by rw [bfStep_inv]
    have hD2 : (fun r => mergeS (relaxW n A none (srcs r) k)
        ((bfStep n A none (relaxW n A none (srcs r) k)
          (frontSpec n A none (srcs r) k)).2)) =
        fun r => relaxW n A none (srcs r) (k + 1) :=
      funext fun r => by
        have h1 : (bfStep n A none (relaxW n A none (srcs r) k)
            (frontSpec n A none (srcs r) k)).1 =
            relaxW n A none (srcs r) (k + 1) := by rw [bfStep_inv]
        rw [← h1]
        rfl
    rw [hC2, hD2] at hres
    by_cases hE : matEmptyB rows n
        (fun r => frontSpec n A none (srcs r) (k + 1)) = true
    · rw [if_pos hE] at hres
      subst hres
      have hstabAll : ∀ r, r < rows →
          (∀ j, frontSpec n A none (srcs r) (k + (fuel + 1)) j = none) ∧
          (∀ m, k ≤ m → ∀ j,
            relaxW n A none (srcs r) m j = relaxW n A none (srcs r) k j) := by
        intro r hr
        have hErow := matEmptyB_iff.mp hE r hr
        have hFnone : ∀ j, frontSpec n A none (srcs r) (k + 1) j = none := by
          intro j
          rcases Nat.lt_or_ge j n with hj | hj
          · exact vecEmptyB_iff.mp hErow j hj
          · exact frontSpec_support hA (hsrc r) (k + 1) j hj
        have hWeq : ∀ j, relaxW n A none (srcs r) (k + 1) j =
            relaxW n A none (srcs r) k j :=
          fun j => (frontSpec_succ_none_iff n A none (srcs r) k j).mp (hFnone j)
        have hstab := relaxW_stable n A none (srcs r) hWeq
        have hFnone2 : ∀ j,
            frontSpec n A none (srcs r) (k + (fuel + 1)) j = none := by
          intro j
          cases fuel with
          | zero => exact hFnone j
          | succ m =>
            apply (frontSpec_succ_none_iff n A none (srcs r) (k + (m + 1))
              j).mpr
            rw [hstab (k + (m + 1) + 1) (by omega) j,
              hstab (k + (m + 1)) (by omega) j]
        exact ⟨hFnone2, hstab⟩
      refine ⟨?_, ?_, ?_⟩
      · intro r hr
        funext j
        exact ((hstabAll r hr).2 (k + (fuel + 1)) (by omega) j).symm
      · intro r hr
        funext j
        show frontSpec n A none (srcs r) (k + 1) j =
          frontSpec n A none (srcs r) (k + (fuel + 1)) j
        rw [(hstabAll r hr).1 j]
        have hErow := matEmptyB_iff.mp hE r hr
        rcases Nat.lt_or_ge j n with hj | hj
        · exact vecEmptyB_iff.mp hErow j hj
        · exact frontSpec_support hA (hsrc r) (k + 1) j hj
      · show true = _
        have hE2 : matEmptyB rows n
            (fun r => frontSpec n A none (srcs r) (k + (fuel + 1))) = true :=
          matEmptyB_iff.mpr fun r hr =>
            vecEmptyB_iff.mpr fun j _ => (hstabAll r hr).1 j
        rw [hE2]
        simp
    · rw [if_neg hE] at hres
      have hres2 := ih (k + 1) res hres
      have hkk : k + 1 + fuel = k + (fuel + 1) := by omega
      rw [hkk] at hres2
      refine ⟨hres2.1, hres2.2.1, ?_⟩
      rw [hres2.2.2]
      cases fuel with
      | zero =>
        have hEf : matEmptyB rows n
            (fun r => frontSpec n A none (srcs r) (k + (0 + 1))) = false := by
          rw [Bool.eq_false_iff]
          intro hcontra
          exact hE (by simpa using hcontra)
        rw [hEf]
        simp
      | succ m => simp

theorem anyLtM_eq_false {rows n : Nat} {Cur D : Nat → Vec}
    (h : ∀ r, r < rows → anyLt n (Cur r) (D r) = false) :
    anyLtM rows n Cur D = false := by
  apply Bool.eq_false_iff.mpr
  intro hany
  unfold anyLtM at hany
  rw [List.any_eq_true] at hany
  obtain ⟨r, hrm, hr⟩ := hany
  have hr2 : anyLt n (Cur r) (D r) = true := hr
  rw [h r (List.mem_range.mp hrm)] at hr2
  cases hr2

theorem anyNegDiagReachedM_eq_false {rows n : Nat} {D : Nat → Vec}
    {diagv : Vec}
    (h : ∀ r, r < rows → anyNegDiagReached n (D r) diagv = false) :
    anyNegDiagReachedM rows n D diagv = false := by
  apply Bool.eq_false_iff.mpr
  intro hany
  unfold anyNegDiagReachedM at hany
  rw [List.any_eq_true] at hany
  obtain ⟨r, hrm, hr⟩ := hany
  have hr2 : anyNegDiagReached n (D r) diagv = true := hr
  rw [h r (List.mem_range.mp hrm)] at hr2
  cases hr2

/-- The matrix form without expansion: on success every row holds the
shortest simple-path lengths from its requested source. -/
theorem matrix_ok {G : Graph} {ns : List Nat} (hWF : G.WF)
    (hns : ∀ s ∈ ns, s < G.n)
    (hnc : ∀ s ∈ ns, ¬ NegCycleReachable G.adj (srcSingle s)) :
    ∃ D, bellman_ford_path_lengths G (some ns) false = .ok D ∧
      ∀ r s, ns[r]? = some s →
        ∀ j, D r j = spLen G.n G.adj (srcSingle s) j := by
  by_cases hcond : (G.is_iso &&
      (!G.has_negative_edges ||
        (!G.directed && (ns.any fun s => G.rowNonempty s)))) = true
  · have hiso : G.is_iso = true := (Bool.and_eq_true _ _ |>.mp hcond).1
    have hrest := (Bool.and_eq_true _ _ |>.mp hcond).2
    by_cases hneg : G.has_negative_edges = true
    · exfalso
      rw [Bool.or_eq_true] at hrest
      rcases hrest with h1 | h2
      · rw [hneg] at h1
        cases h1
      · rw [Bool.and_eq_true] at h2
        obtain ⟨hdir, hany⟩ := h2
        rw [List.any_eq_true] at hany
        obtain ⟨s0, hs0m, hrow⟩ := hany
        have hdir2 : G.directed = false := by simpa using hdir
        exact hnc s0 hs0m (undirected_negrow_cycle hWF (hns s0 hs0m) hdir2
          hrow hiso (Graph.iso_neg_value hiso hneg))
    · have hnegF : G.has_negative_edges = false := by
        cases h : G.has_negative_edges
        · rfl
        · exact absurd h hneg
      have hw0 : 0 ≤ G.iso_value := Graph.iso_nonneg_value hiso hnegF
      refine ⟨(if G.iso_value == 1 then bfs_levels G (some ns)
        else fun r => vecScale G.iso_value (bfs_levels G (some ns) r)),
        ?_, ?_⟩
      · unfold bellman_ford_path_lengths
        simp [hiso, hnegF]
      · intro r s hrs j
        have hsn : s < G.n := hns s (List.getElem?_mem hrs)
        have hbv : bfs_levels G (some ns) r = bfs_level G s none false := by
          show (match ns[r]? with
            | some s => bfs_level G s none false
            | none => fun _ => none) = _
          rw [hrs]
        have hchain : (bfs_level G s none false j).map
            (fun h => G.iso_value * h) = spLen G.n G.adj (srcSingle s) j := by
          rw [bfs_level_none_eq hWF hsn j, unitW_full hWF hsn j,
            spLen_iso hWF hiso hw0]
        rw [← hchain]
        by_cases h1 : (G.iso_value == 1) = true
        · rw [if_pos h1, hbv]
          have h1v : G.iso_value = 1 := by simpa using h1
          cases hb : bfs_level G s none false j with
          | none => rfl
          | some h =>
            show some h = some (G.iso_value * h)
            rw [h1v, Int.one_mul]
        · rw [if_neg h1, hbv]
          rfl
  · have hcondF : (G.is_iso &&
        (!G.has_negative_edges ||
          (!G.directed && (ns.any fun s => G.rowNonempty s)))) = false :=
      Bool.eq_false_iff.mpr hcond
    have hA := Graph.offdiag_supp hWF
    have hsrcS := matSrcs_supp hWF hns
    have hAoff : ∀ i j, (G.offdiag i j).isSome = true → i < G.n ∧ j < G.n :=
      fun i j h => Graph.offdiag_lt hWF h
    have h0 : matSeed (some ns) =
        fun r => relaxW G.n G.offdiag none (matSrcs (some ns) r) 0 := by
      rw [matSeed_eq]
      funext r
      show seedVec _ = relaxW _ _ _ _ 0
      rfl
    obtain ⟨hD, hCur, hB⟩ := @bfLoopM_spec ns.length G.n G.offdiag
      (matSrcs (some ns)) hA hsrcS (G.n - 1) 0
      (bfLoopM ns.length G.n G.offdiag (G.n - 1) (matSeed (some ns))
        (matSeed (some ns)))
      (by rw [h0]; rfl)
    have hc1 : anyLtM ns.length G.n
        (fun r => minPlusMV G.n
          ((bfLoopM ns.length G.n G.offdiag (G.n - 1) (matSeed (some ns))
            (matSeed (some ns))).2.1 r) G.offdiag)
        (bfLoopM ns.length G.n G.offdiag (G.n - 1) (matSeed (some ns))
          (matSeed (some ns))).1 = false := by
      apply anyLtM_eq_false
      intro r hrlt
      obtain ⟨s, hrs⟩ : ∃ s, ns[r]? = some s :=
        ⟨ns[r], List.getElem?_eq_getElem hrlt⟩
      have hsm : s ∈ ns := List.getElem?_mem hrs
      rw [hCur r hrlt, hD r hrlt, matSrcs_some hrs]
      rw [Nat.zero_add]
      exact nocycle_no_improvement hAoff (srcSingle_lt (hns s hsm))
        (hncOff_of_hnc (hnc s hsm))
    have hc2 : anyNegDiagReachedM ns.length G.n
        (bfLoopM ns.length G.n G.offdiag (G.n - 1) (matSeed (some ns))
          (matSeed (some ns))).1 G.diag = false := by
      apply anyNegDiagReachedM_eq_false
      intro r hrlt
      obtain ⟨s, hrs⟩ : ∃ s, ns[r]? = some s :=
        ⟨ns[r], List.getElem?_eq_getElem hrlt⟩
      have hsm : s ∈ ns := List.getElem?_mem hrs
      rw [hD r hrlt, matSrcs_some hrs, Nat.zero_add]
      apply Bool.eq_false_iff.mpr
      intro hr
      obtain ⟨j, hjn, hsome, w, hdg, hw⟩ := anyNegDiagReached_iff.mp hr
      obtain ⟨x, hx⟩ := Option.isSome_iff_exists.mp hsome
      obtain ⟨u, l, hu, hwk, hend, _⟩ := relaxW_attained (G.n - 1) j x hx
      have hreach : HasWalk G.adj u j := by
        apply Graph.hasWalk_offdiag_to_adj
        exact hend ▸ hasWalk_of_walk hwk
      exact hnc s hsm ⟨u, j, hu, hreach, Graph.negloop_negCycleFrom hdg hw⟩
    refine ⟨(bfLoopM ns.length G.n G.offdiag (G.n - 1) (matSeed (some ns))
      (matSeed (some ns))).1, ?_, ?_⟩
    · unfold bellman_ford_path_lengths
      simp only [matRows]
      rw [hcondF]
      simp only [Bool.false_eq_true, if_false]
      rw [hc1, hc2]
      simp
    · intro r s hrs j
      have hrlt : r < ns.length := by
        by_contra hge
        rw [List.getElem?_eq_none (by omega)] at hrs
        cases hrs
      have hsm : s ∈ ns := List.getElem?_mem hrs
      rw [hD r hrlt, matSrcs_some hrs, Nat.zero_add]
      rw [Graph.spLen_adj_offdiag]
      exact relaxW_eq_spLen hAoff (srcSingle_lt (hns s hsm))
        (hncOff_of_hnc (hnc s hsm)) j

theorem anyLtM_eq_true {rows n : Nat} {Cur D : Nat → Vec} {r : Nat}
    (hr : r < rows) (h : anyLt n (Cur r) (D r) = true) :
    anyLtM rows n Cur D = true := by
  unfold anyLtM
  rw [List.any_eq_true]
  exact ⟨r, List.mem_range.mpr hr, h⟩

theorem anyNegDiagReachedM_eq_true {rows n : Nat} {D : Nat → Vec}
    {diagv : Vec} {r : Nat} (hr : r < rows)
    (h : anyNegDiagReached n (D r) diagv = true) :
    anyNegDiagReachedM rows n D diagv = true := by
  unfold anyNegDiagReachedM
  rw [List.any_eq_true]
  exact ⟨r, List.mem_range.mpr hr, h⟩

theorem indexOf_getElem {ns : List Nat} :
    ns.Nodup → ∀ {r s : Nat}, ns[r]? = some s → ns.indexOf s = r := by
  induction ns with
  | nil =>
    intro _ r s h
    cases h
  | cons a t ih =>
    intro hnd r s h
    rw [List.nodup_cons] at hnd
    cases r with
    | zero =>
      have hsa : a = s := by
        rw [List.getElem?_cons_zero] at h
        injection h
      subst hsa
      exact List.indexOf_cons_self a t
    | succ r =>
      rw [List.getElem?_cons_succ] at h
      have hst : s ∈ t := List.getElem?_mem h
      have hne : s ≠ a := by
        intro he
        subst he
        exact hnd.1 hst
      rw [List.indexOf_cons_ne t (Ne.symm hne)]
      rw [ih hnd.2 h]

theorem expandRows_getElem {ns : List Nat} {D : Nat → Vec} {r s : Nat}
    (hnd : ns.Nodup) (h : ns[r]? = some s) :
    expandRows ns D s = D r := by
  unfold expandRows
  rw [if_pos (List.elem_eq_true_of_mem (List.getElem?_mem h))]
  rw [indexOf_getElem hnd h]

theorem expandRows_not_mem {ns : List Nat} {D : Nat → Vec} {r : Nat}
    (h : ¬ r ∈ ns) : expandRows ns D r = fun _ => none := by
  unfold expandRows
  rw [if_neg]
  intro hc
  exact h (List.mem_of_elem_eq_true hc)

/-- The matrix form raises `Unbounded` whenever one of its query sources
reaches a negative cycle, with or without output expansion. -/
theorem matrix_raise {G : Graph} {ns : List Nat} (hWF : G.WF)
    (hns : ∀ s ∈ ns, s < G.n) {s0 : Nat} (hmem : s0 ∈ ns)
    (hcy : NegCycleReachable G.adj (srcSingle s0)) (eo : Bool) :
    bellman_ford_path_lengths G (some ns) eo = .error .unbounded := by
  by_cases hcond : (G.is_iso &&
      (!G.has_negative_edges ||
        (!G.directed && (ns.any fun s => G.rowNonempty s)))) = true
  · have hiso : G.is_iso = true := (Bool.and_eq_true _ _ |>.mp hcond).1
    by_cases hneg : G.has_negative_edges = true
    · unfold bellman_ford_path_lengths
      simp only [matRows]
      rw [hcond, hneg]
      simp
    · exfalso
      have hnegF : G.has_negative_edges = false := by
        cases h : G.has_negative_edges
        · rfl
        · exact absurd h hneg
      exact allNonNeg_noNegCycle
        (Graph.has_negative_edges_false_iff.mp hnegF) _ hcy
  · have hcondF : (G.is_iso &&
        (!G.has_negative_edges ||
          (!G.directed && (ns.any fun s => G.rowNonempty s)))) = false :=
      Bool.eq_false_iff.mpr hcond
    obtain ⟨r, hrl, hre⟩ := List.getElem_of_mem hmem
    have hrs : ns[r]? = some s0 := by
      rw [List.getElem?_eq_getElem hrl, hre]
    have hA := Graph.offdiag_supp hWF
    have hsrcS := matSrcs_supp hWF hns
    have hAoff : ∀ i j, (G.offdiag i j).isSome = true → i < G.n ∧ j < G.n :=
      fun i j h => Graph.offdiag_lt hWF h
    have hs0n : s0 < G.n := hns s0 hmem
    have h0 : matSeed (some ns) =
        fun r => relaxW G.n G.offdiag none (matSrcs (some ns) r) 0 := by
      rw [matSeed_eq]
      funext r
      show seedVec _ = relaxW _ _ _ _ 0
      rfl
    obtain ⟨hD, hCur, hB⟩ := @bfLoopM_spec ns.length G.n G.offdiag
      (matSrcs (some ns)) hA hsrcS (G.n - 1) 0
      (bfLoopM ns.length G.n G.offdiag (G.n - 1) (matSeed (some ns))
        (matSeed (some ns)))
      (by rw [h0]; rfl)
    obtain ⟨u, j, hu, hwalk, hcyc⟩ := hcy
    have hus : u = s0 := srcSingle_iff.mp hu
    subst hus
    unfold bellman_ford_path_lengths
    simp only [matRows]
    rw [hcondF]
    simp only [Bool.false_eq_true, if_false]
    rcases Graph.negCycleFrom_decomp hcyc with ⟨v, w, hreach, hloop, hneg⟩ |
        hoff
    · -- a reachable negative self-loop: the diagonal check fires (when the
      -- improvement check has not already fired)
      have hvn : v < G.n := (Graph.adj_lt hWF (by rw [hloop]; rfl)).1
      have hDiagTrue : (G.has_negative_diagonal && anyNegDiagReachedM
          ns.length G.n (bfLoopM ns.length G.n G.offdiag (G.n - 1)
            (matSeed (some ns)) (matSeed (some ns))).1 G.diag) = true := by
        rw [Bool.and_eq_true]
        constructor
        · exact Graph.has_negative_diagonal_iff.mpr ⟨v, hvn, w, hloop, hneg⟩
        · apply anyNegDiagReachedM_eq_true hrl
          rw [hD r hrl, matSrcs_some hrs, Nat.zero_add]
          have hreach2 : HasWalk G.adj u v := hasWalk_trans hwalk hreach
          obtain ⟨l, hls, hle⟩ := Graph.hasWalk_adj_to_offdiag hreach2
          obtain ⟨x, hx⟩ := Option.isSome_iff_exists.mp hls
          obtain ⟨l2, y, hwy, hey, hnd2⟩ :=
            walk_nodup_reach l.length u l x (le_refl _) hx
          have hlen2 : l2.length ≤ G.n - 1 :=
            nodup_walk_length hnd2 hs0n (walk_nodes_lt hAoff l2 u y hwy)
          have hle2 := relaxW_le_walk hAoff l2 u (G.n - 1) y
            (srcSingle_iff.mpr rfl) hwy hlen2
          rw [hey, hle] at hle2
          obtain ⟨dv, hdv, _⟩ := optLE_some_right hle2
          refine anyNegDiagReached_iff.mpr
            ⟨v, hvn, by rw [hdv]; rfl, w, ?_, hneg⟩
          show G.adj v v = some w
          exact hloop
      by_cases hC1 : (decide ((bfLoopM ns.length G.n G.offdiag (G.n - 1)
          (matSeed (some ns)) (matSeed (some ns))).2.2 = false) &&
          anyLtM ns.length G.n
            (fun r2 => minPlusMV G.n
              ((bfLoopM ns.length G.n G.offdiag (G.n - 1) (matSeed (some ns))
                (matSeed (some ns))).2.1 r2) G.offdiag)
            (bfLoopM ns.length G.n G.offdiag (G.n - 1) (matSeed (some ns))
              (matSeed (some ns))).1) = true
      · rw [hC1]
        simp
      · rw [Bool.eq_false_iff.mpr hC1]
        simp only [Bool.false_eq_true, if_false]
        rw [hDiagTrue]
        simp
    · -- an off-diagonal negative cycle: the improvement check fires
      have hcyOff : NegCycleReachable G.offdiag (srcSingle u) :=
        ⟨u, j, srcSingle_iff.mpr rfl, Graph.hasWalk_adj_to_offdiag hwalk,
          hoff⟩
      obtain ⟨hnoempty, himp⟩ := negcycle_detected hAoff
        (srcSingle_lt hs0n) hcyOff
      have hEmptyF : matEmptyB ns.length G.n (fun r2 =>
          frontSpec G.n G.offdiag none (matSrcs (some ns) r2)
            (0 + (G.n - 1))) = false := by
        rw [Bool.eq_false_iff]
        intro hcontra
        have := matEmptyB_iff.mp hcontra r hrl
        rw [matSrcs_some hrs, Nat.zero_add] at this
        rw [hnoempty (G.n - 1)] at this
        cases this
      have hres22 : (bfLoopM ns.length G.n G.offdiag (G.n - 1)
          (matSeed (some ns)) (matSeed (some ns))).2.2 = false := by
        rw [hB, hEmptyF]
        simp
      have hLt : anyLtM ns.length G.n
          (fun r2 => minPlusMV G.n
            ((bfLoopM ns.length G.n G.offdiag (G.n - 1) (matSeed (some ns))
              (matSeed (some ns))).2.1 r2) G.offdiag)
          (bfLoopM ns.length G.n G.offdiag (G.n - 1) (matSeed (some ns))
            (matSeed (some ns))).1 = true := by
        apply anyLtM_eq_true hrl
        rw [hCur r hrl, hD r hrl, matSrcs_some hrs, Nat.zero_add]
        exact himp
      have hC1 : (decide ((bfLoopM ns.length G.n G.offdiag (G.n - 1)
          (matSeed (some ns)) (matSeed (some ns))).2.2 = false) &&
          anyLtM ns.length G.n
            (fun r2 => minPlusMV G.n
              ((bfLoopM ns.length G.n G.offdiag (G.n - 1) (matSeed (some ns))
                (matSeed (some ns))).2.1 r2) G.offdiag)
            (bfLoopM ns.length G.n G.offdiag (G.n - 1) (matSeed (some ns))
              (matSeed (some ns))).1) = true := by
        rw [Bool.and_eq_true]
        constructor
        · rw [hres22]
          simp
        · exact hLt
      rw [hC1]
      simp

/-- The matrix form with output expansion: on success the result is an
`n`-row matrix, row `ids[i]` holding the shortest distances from the
`i`-th requested source and every other row entirely absent. -/
theorem matrix_expand_ok {G : Graph} {ns : List Nat} (hWF : G.WF)
    (hns : ∀ s ∈ ns, s < G.n)
    (hnc : ∀ s ∈ ns, ¬ NegCycleReachable G.adj (srcSingle s))
    (hnd : ns.Nodup) (hlen : ns.length ≠ G.n) :
    ∃ E, bellman_ford_path_lengths G (some ns) true = .ok E ∧
      (∀ (r s : Nat), ns[r]? = some s →
        ∀ j, E s j = spLen G.n G.adj (srcSingle s) j) ∧
      (∀ r, ¬ r ∈ ns → ∀ j, E r j = none) := by
  by_cases hcond : (G.is_iso &&
      (!G.has_negative_edges ||
        (!G.directed && (ns.any fun s => G.rowNonempty s)))) = true
  · have hiso : G.is_iso = true := (Bool.and_eq_true _ _ |>.mp hcond).1
    have hrest := (Bool.and_eq_true _ _ |>.mp hcond).2
    by_cases hneg : G.has_negative_edges = true
    · exfalso
      rw [Bool.or_eq_true] at hrest
      rcases hrest with h1 | h2
      · rw [hneg] at h1
        cases h1
      · rw [Bool.and_eq_true] at h2
        obtain ⟨hdir, hany⟩ := h2
        rw [List.any_eq_true] at hany
        obtain ⟨s0, hs0m, hrow⟩ := hany
        have hdir2 : G.directed = false := by simpa using hdir
        exact hnc s0 hs0m (undirected_negrow_cycle hWF (hns s0 hs0m) hdir2
          hrow hiso (Graph.iso_neg_value hiso hneg))
    · have hnegF : G.has_negative_edges = false := by
        cases h : G.has_negative_edges
        · rfl
        · exact absurd h hneg
      have hw0 : 0 ≤ G.iso_value := Graph.iso_nonneg_value hiso hnegF
      refine ⟨expandRows ns (if G.iso_value == 1 then bfs_levels G (some ns)
        else fun r => vecScale G.iso_value (bfs_levels G (some ns) r)),
        ?_, ?_, ?_⟩
      · unfold bellman_ford_path_lengths
        simp [matRows, hiso, hnegF, hlen]
      · intro r s hrs j
        rw [expandRows_getElem hnd hrs]
        have hsn : s < G.n := hns s (List.getElem?_mem hrs)
        have hbv : bfs_levels G (some ns) r = bfs_level G s none false := by
          show (match ns[r]? with
            | some s => bfs_level G s none false
            | none => fun _ => none) = _
          rw [hrs]
        have hchain : (bfs_level G s none false j).map
            (fun h => G.iso_value * h) = spLen G.n G.adj (srcSingle s) j := by
          rw [bfs_level_none_eq hWF hsn j, unitW_full hWF hsn j,
            spLen_iso hWF hiso hw0]
        rw [← hchain]
        by_cases h1 : (G.iso_value == 1) = true
        · rw [if_pos h1, hbv]
          have h1v : G.iso_value = 1 := by simpa using h1
          cases hb : bfs_level G s none false j with
          | none => rfl
          | some h =>
            show some h = some (G.iso_value * h)
            rw [h1v, Int.one_mul]
        · rw [if_neg h1, hbv]
          rfl
      · intro r hr j
        rw [expandRows_not_mem hr]
  · have hcondF : (G.is_iso &&
        (!G.has_negative_edges ||
          (!G.directed && (ns.any fun s => G.rowNonempty s)))) = false :=
      Bool.eq_false_iff.mpr hcond
    have hA := Graph.offdiag_supp hWF
    have hsrcS := matSrcs_supp hWF hns
    have hAoff : ∀ i j, (G.offdiag i j).isSome = true → i < G.n ∧ j < G.n :=
      fun i j h => Graph.offdiag_lt hWF h
    have h0 : matSeed (some ns) =
        fun r => relaxW G.n G.offdiag none (matSrcs (some ns) r) 0 := by
      rw [matSeed_eq]
      funext r
      show seedVec _ = relaxW _ _ _ _ 0
      rfl
    obtain ⟨hD, hCur, hB⟩ := @bfLoopM_spec ns.length G.n G.offdiag
      (matSrcs (some ns)) hA hsrcS (G.n - 1) 0
      (bfLoopM ns.length G.n G.offdiag (G.n - 1) (matSeed (some ns))
        (matSeed (some ns)))
      (by rw [h0]; rfl)
    have hc1 : anyLtM ns.length G.n
        (fun r => minPlusMV G.n
          ((bfLoopM ns.length G.n G.offdiag (G.n - 1) (matSeed (some ns))
            (matSeed (some ns))).2.1 r) G.offdiag)
        (bfLoopM ns.length G.n G.offdiag (G.n - 1) (matSeed (some ns))
          (matSeed (some ns))).1 = false := by
      apply anyLtM_eq_false
      intro r hrlt
      obtain ⟨s, hrs⟩ : ∃ s, ns[r]? = some s :=
        ⟨ns[r], List.getElem?_eq_getElem hrlt⟩
      have hsm : s ∈ ns := List.getElem?_mem hrs
      rw [hCur r hrlt, hD r hrlt, matSrcs_some hrs]
      rw [Nat.zero_add]
      exact nocycle_no_improvement hAoff (srcSingle_lt (hns s hsm))
        (hncOff_of_hnc (hnc s hsm))
    have hc2 : anyNegDiagReachedM ns.length G.n
        (bfLoopM ns.length G.n G.offdiag (G.n - 1) (matSeed (some ns))
          (matSeed (some ns))).1 G.diag = false := by
      apply anyNegDiagReachedM_eq_false
      intro r hrlt
      obtain ⟨s, hrs⟩ : ∃ s, ns[r]? = some s :=
        ⟨ns[r], List.getElem?_eq_getElem hrlt⟩
      have hsm : s ∈ ns := List.getElem?_mem hrs
      rw [hD r hrlt, matSrcs_some hrs, Nat.zero_add]
      apply Bool.eq_false_iff.mpr
      intro hr
      obtain ⟨j, hjn, hsome, w, hdg, hw⟩ := anyNegDiagReached_iff.mp hr
      obtain ⟨x, hx⟩ := Option.isSome_iff_exists.mp hsome
      obtain ⟨u, l, hu, hwk, hend, _⟩ := relaxW_attained (G.n - 1) j x hx
      have hreach : HasWalk G.adj u j := by
        apply Graph.hasWalk_offdiag_to_adj
        exact hend ▸ hasWalk_of_walk hwk
      exact hnc s hsm ⟨u, j, hu, hreach, Graph.negloop_negCycleFrom hdg hw⟩
    refine ⟨expandRows ns (bfLoopM ns.length G.n G.offdiag (G.n - 1)
      (matSeed (some ns)) (matSeed (some ns))).1, ?_, ?_, ?_⟩
    · unfold bellman_ford_path_lengths
      simp only [matRows]
      rw [hcondF]
      simp only [Bool.false_eq_true, if_false]
      rw [hc1, hc2]
      simp [hlen]
    · intro r s hrs j
      rw [expandRows_getElem hnd hrs]
      have hrlt : r < ns.length := by
        by_contra hge
        rw [List.getElem?_eq_none (by omega)] at hrs
        cases hrs
      have hsm : s ∈ ns := List.getElem?_mem hrs
      rw [hD r hrlt, matSrcs_some hrs, Nat.zero_add]
      rw [Graph.spLen_adj_offdiag]
      exact relaxW_eq_spLen hAoff (srcSingle_lt (hns s hsm))
        (hncOff_of_hnc (hnc s hsm)) j
    · intro r hr j
      rw [expandRows_not_mem hr]

/-! ### The global negative-cycle detector -/

theorem totalDegSeed_lt {G : Graph} (hWF : G.WF) :
    ∀ i, G.totalDegSeed i = true → i < G.n := by
  intro i hi
  unfold Graph.totalDegSeed at hi
  rw [Bool.or_eq_true] at hi
  rcases hi with hi | hi
  · rw [List.any_eq_true] at hi
    obtain ⟨j, _, hj⟩ := hi
    exact (Graph.offdiag_lt hWF hj).1
  · rw [List.any_eq_true] at hi
    obtain ⟨j, _, hj⟩ := hi
    exact (Graph.offdiag_lt hWF hj).2

theorem degSeed_lt {G : Graph} (hWF : G.WF) :
    ∀ i, G.degSeed i = true → i < G.n := by
  intro i hi
  unfold Graph.degSeed at hi
  rw [List.any_eq_true] at hi
  obtain ⟨j, _, hj⟩ := hi
  exact (Graph.offdiag_lt hWF hj).1

theorem detSeeds_lt {G : Graph} (hWF : G.WF) :
    ∀ i, (if G.directed then G.totalDegSeed else G.degSeed) i = true →
      i < G.n := by
  intro i
  by_cases hdir : G.directed = true
  · rw [if_pos hdir]
    exact totalDegSeed_lt hWF i
  · rw [if_neg hdir]
    exact degSeed_lt hWF i

theorem detSeeds_supp {G : Graph} (hWF : G.WF) :
    ∀ j, G.n ≤ j →
      (if G.directed then G.totalDegSeed else G.degSeed) j = false := by
  intro j hj
  apply Bool.eq_false_iff.mpr
  intro hc
  have := detSeeds_lt hWF j hc
  omega

theorem detSeeds_of_outedge {G : Graph} (hWF : G.WF) {i v : Nat}
    (h : (G.offdiag i v).isSome = true) :
    (if G.directed then G.totalDegSeed else G.degSeed) i = true := by
  have hvn : v < G.n := (Graph.offdiag_lt hWF h).2
  by_cases hdir : G.directed = true
  · rw [if_pos hdir]
    unfold Graph.totalDegSeed
    rw [Bool.or_eq_true]
    left
    rw [List.any_eq_true]
    exact ⟨v, List.mem_range.mpr hvn, h⟩
  · rw [if_neg hdir]
    unfold Graph.degSeed
    rw [List.any_eq_true]
    exact ⟨v, List.mem_range.mpr hvn, h⟩

/-- The global detector answers `true` exactly when the graph holds a
negative cycle anywhere. -/
theorem negative_edge_cycle_iff {G : Graph} (hWF : G.WF) :
    negative_edge_cycle G = true ↔ HasNegCycle G.adj := by
  have hAs := Graph.offdiag_supp hWF
  have hAoff : ∀ i j, (G.offdiag i j).isSome = true → i < G.n ∧ j < G.n :=
    fun i j h => Graph.offdiag_lt hWF h
  have hloop : bfLoop G.n G.offdiag none (G.n - 1)
      (seedVec (if G.directed then G.totalDegSeed else G.degSeed))
      (seedVec (if G.directed then G.totalDegSeed else G.degSeed)) =
      (relaxW G.n G.offdiag none
        (if G.directed then G.totalDegSeed else G.degSeed) (0 + (G.n - 1)),
       frontSpec G.n G.offdiag none
        (if G.directed then G.totalDegSeed else G.degSeed) (0 + (G.n - 1)),
       (((G.n - 1 : Nat) != 0) && vecEmptyB G.n (frontSpec G.n G.offdiag none
        (if G.directed then G.totalDegSeed else G.degSeed) (0 + (G.n - 1))))) :=
    bfLoop_spec hAs (detSeeds_supp hWF) (G.n - 1) 0
  constructor
  · intro hdet
    simp only [negative_edge_cycle] at hdet
    by_cases hdiag : G.has_negative_diagonal = true
    · obtain ⟨i, hin, w, hii, hw⟩ := Graph.has_negative_diagonal_iff.mp hdiag
      exact ⟨i, Graph.negloop_negCycleFrom hii hw⟩
    · rw [if_neg hdiag] at hdet
      by_cases hoffneg : G.has_negative_edges_offdiag = true
      · rw [if_neg (by rw [hoffneg]; simp)] at hdet
        by_contra hnocyc
        have hnc2 : ∀ u v,
            (if G.directed then G.totalDegSeed else G.degSeed) u = true →
            HasWalk G.offdiag u v → ¬ NegCycleFrom G.offdiag v := by
          intro u v _ _ hcyc
          exact hnocyc ⟨v, Graph.negCycleFrom_offdiag_to_adj hcyc⟩
        rw [hloop] at hdet
        by_cases hbrk : (((G.n - 1 : Nat) != 0) && vecEmptyB G.n
            (frontSpec G.n G.offdiag none
              (if G.directed then G.totalDegSeed else G.degSeed)
              (0 + (G.n - 1)))) = true
        · rw [if_pos hbrk] at hdet
          cases hdet
        · rw [if_neg hbrk] at hdet
          rw [Nat.zero_add] at hdet
          rw [nocycle_no_improvement hAoff (detSeeds_lt hWF) hnc2] at hdet
          cases hdet
      · rw [if_pos (by
          rw [Bool.eq_false_iff.mpr hoffneg]
          rfl)] at hdet
        cases hdet
  · intro hcy
    obtain ⟨j, hcyc⟩ := hcy
    simp only [negative_edge_cycle]
    by_cases hdiag : G.has_negative_diagonal = true
    · rw [if_pos hdiag]
    · rw [if_neg hdiag]
      rcases Graph.negCycleFrom_decomp hcyc with ⟨v, w, _, hloopvv, hneg⟩ |
          hoff
      · exfalso
        apply hdiag
        exact Graph.has_negative_diagonal_iff.mpr
          ⟨v, (Graph.adj_lt hWF (by rw [hloopvv]; rfl)).1, w, hloopvv, hneg⟩
      · obtain ⟨l, x, hne, hend, hw, hx⟩ := hoff
        have hoffneg : G.has_negative_edges_offdiag = true := by
          obtain ⟨i2, j2, w2, hoffe, hw2⟩ := walk_neg_edge l j x hw hx
          obtain ⟨hadj2, hne2⟩ := Graph.offdiag_some hoffe
          have hmem := Graph.adj_some_mem hadj2
          unfold Graph.has_negative_edges_offdiag
          rw [List.any_eq_true]
          refine ⟨(i2, j2, w2), hmem, ?_⟩
          simp [hne2, hw2]
        rw [if_neg (by rw [hoffneg]; simp)]
        obtain ⟨v0, hv0⟩ := walk_first_step hne hw
        have hseedj : (if G.directed then G.totalDegSeed else G.degSeed) j =
            true := detSeeds_of_outedge hWF hv0
        have hcyR : NegCycleReachable G.offdiag
            (if G.directed then G.totalDegSeed else G.degSeed) :=
          ⟨j, j, hseedj, hasWalk_refl _ _, ⟨l, x, hne, hend, hw, hx⟩⟩
        obtain ⟨hnoempty, himp⟩ := negcycle_detected hAoff
          (detSeeds_lt hWF) hcyR
        rw [hloop]
        rw [if_neg (by
          rw [Nat.zero_add, hnoempty (G.n - 1)]
          simp)]
        rw [Nat.zero_add]
        exact himp

/-! ### Remaining bridges for the claim statements -/

theorem negCycleReachable_hasNeg {A : Mtx} {src : Nat → Bool}
    (h : NegCycleReachable A src) : HasNegCycle A := by
  obtain ⟨u, j, _, _, hcy⟩ := h
  exact ⟨j, hcy⟩

theorem spLen_source_zero {G : Graph} {source : Nat} (hWF : G.WF)
    (hs : source < G.n)
    (hnc : ¬ NegCycleReachable G.adj (srcSingle source)) :
    spLen G.n G.adj (srcSingle source) source = some 0 := by
  apply optLE_antisymm
  · exact @spLen_le G.n G.adj (srcSingle source) source [] 0
      (srcSingle_iff.mpr rfl) hs (by intro v hv; cases hv)
      (List.nodup_singleton source) rfl
  · cases hsp : spLen G.n G.adj (srcSingle source) source with
    | none => exact optLE_none_right _
    | some y =>
      obtain ⟨u, l, hun, hsu, hw, hend, hnd⟩ := spLen_attained hsp
      have hus : u = source := srcSingle_iff.mp hsu
      subst hus
      by_cases hy : 0 ≤ y
      · rw [optLE_some_some]
        omega
      · exfalso
        have hne : l ≠ [] := by
          intro h0
          subst h0
          have : (some 0 : Option Int) = some y := hw
          injection this with this
          omega
        exact hnc ⟨u, u, srcSingle_iff.mpr rfl, hasWalk_refl _ _,
          l, y, hne, hend, hw, by omega⟩

/-! ### The claims -/

/-- C1, counterexample: with a cutoff on a graph carrying a negative edge
(but no negative cycle at all), the reported entry of a reachable node
within the cutoff is `4`, not the exact shortest path length `3`: the
cutoff prunes the intermediate value `5` at node 1 before the improving
relaxation through it can run. -/
theorem claim_C1_counterexample :
    (¬ NegCycleReachable Gcx1.adj (srcSingle 0)) ∧
    spLen Gcx1.n Gcx1.adj (srcSingle 0) 2 = some 3 ∧ ((3 : Int) ≤ 4) ∧
    (∃ d, single_source_bellman_ford_path_length Gcx1 0 (some 4) = .ok d ∧
      d 2 = some 4) := by
  refine ⟨?_, by decide, by decide, ?_⟩
  · intro hr
    have h1 := (negative_edge_cycle_iff (by decide)).mpr
      (negCycleReachable_hasNeg hr)
    exact absurd h1 (by decide)
  · exact ⟨_, rfl, rfl⟩

/-- C1 (amended to the code): without a cutoff the algorithm is exact — the
source maps to 0, every entry is the reference shortest simple-path length,
reachable nodes have entries and unreachable ones none.  With a cutoff the
same holds, the entries pruned to the cutoff, provided the graph has no
negative edge (and a nonzero shared value on the iso path). -/
theorem claim_C1 {G : Graph} {source : Nat} (hWF : G.WF)
    (hs : source < G.n)
    (hnc : ¬ NegCycleReachable G.adj (srcSingle source)) :
    (∃ d, single_source_bellman_ford_path_length G source none = .ok d ∧
      d source = some 0 ∧
      ∀ j, d j = spLen G.n G.adj (srcSingle source) j) ∧
    (∀ cc : Int, AllNonNeg G → (G.is_iso = true → G.iso_value ≠ 0) →
      ∃ d, single_source_bellman_ford_path_length G source (some cc) =
          .ok d ∧
        d source = some 0 ∧
        ∀ j x, d j = some x ↔
          (spLen G.n G.adj (srcSingle source) j = some x ∧
            (x ≤ cc ∨ (j = source ∧ x = 0)))) := by
  constructor
  · obtain ⟨d, hok, hval⟩ := single_source_none_ok hWF hs hnc
    refine ⟨d, hok, ?_, hval⟩
    rw [hval source]
    exact spLen_source_zero hWF hs hnc
  · intro cc hpos hnz
    obtain ⟨d, hok, hch⟩ := single_source_cut_ok hWF hs hpos hnz
    refine ⟨d, hok, ?_, hch⟩
    exact (hch source 0).mpr ⟨spLen_source_zero hWF hs hnc, Or.inr ⟨rfl, rfl⟩⟩

/-- C1, witness: scenario A — on the directed triangle from source 0 the
distances are exactly `{0: 0, 1: 1, 2: 2}` without error. -/
theorem claim_C1_witness :
    ∃ d, single_source_bellman_ford_path_length GA 0 none = .ok d ∧
      d 0 = some 0 ∧ d 1 = some 1 ∧ d 2 = some 2 := by
  obtain ⟨⟨d, hok, h0, hall⟩, _⟩ := @claim_C1 GA 0 (by decide) (by decide)
    (fun hr => absurd ((negative_edge_cycle_iff (by decide)).mpr
      (negCycleReachable_hasNeg hr)) (by decide))
  exact ⟨d, hok, h0, by rw [hall 1]; decide, by rw [hall 2]; decide⟩

/-- C2: without a cutoff, the single-source algorithm raises `Unbounded`
exactly when a negative cycle is reachable from the source; in particular a
reachable negative self-loop raises, and in an undirected graph a reachable
negative edge raises. -/
theorem claim_C2 {G : Graph} {source : Nat} (hWF : G.WF)
    (hs : source < G.n) :
    (single_source_bellman_ford_path_length G source none =
        .error .unbounded ↔
      NegCycleReachable G.adj (srcSingle source)) ∧
    (∀ v w, G.adj v v = some w → w < 0 → HasWalk G.adj source v →
      single_source_bellman_ford_path_length G source none =
        .error .unbounded) ∧
    (G.directed = false → ∀ u v w, G.adj u v = some w → w < 0 →
      HasWalk G.adj source u →
      single_source_bellman_ford_path_length G source none =
        .error .unbounded) := by
  have hiff : single_source_bellman_ford_path_length G source none =
      .error .unbounded ↔ NegCycleReachable G.adj (srcSingle source) := by
    constructor
    · intro h
      by_contra hnc
      obtain ⟨d, hok, _⟩ := single_source_none_ok hWF hs hnc
      rw [hok] at h
      cases h
    · exact single_source_none_raise hWF hs
  refine ⟨hiff, ?_, ?_⟩
  · intro v w hloop hw hwalk
    exact hiff.mpr ⟨source, v, srcSingle_iff.mpr rfl, hwalk,
      Graph.negloop_negCycleFrom hloop hw⟩
  · intro hdir u v w hadj hw hwalk
    apply hiff.mpr
    have hun : u < G.n := (Graph.adj_lt hWF (by rw [hadj]; rfl)).1
    have hvn : v < G.n := (Graph.adj_lt hWF (by rw [hadj]; rfl)).2
    have hsym := hWF.2.2 hdir u (List.mem_range.mpr hun) v
      (List.mem_range.mpr hvn)
    have hback : G.adj v u = some w := by rw [← hsym]; exact hadj
    refine ⟨source, u, srcSingle_iff.mpr rfl, hwalk,
      [v, u], w + (w + 0), by simp, rfl, ?_, by omega⟩
    show walkWeight G.adj u [v, u] = some (w + (w + 0))
    simp [walkWeight, hadj, hback]

/-- C2, witness: scenario C — the negative self-loop at node 2 of
`0→1:1, 2→2:-1` is unreachable from source 0, so no error is raised and
distances are computed (node 2 absent); from source 2 itself the error is
raised. -/
theorem claim_C2_witness :
    (∃ d, single_source_bellman_ford_path_length
        (⟨3, [(0, 1, 1), (2, 2, -1)], true⟩ : Graph) 0 none = .ok d ∧
      d 2 = none) ∧
    single_source_bellman_ford_path_length
        (⟨3, [(0, 1, 1), (2, 2, -1)], true⟩ : Graph) 2 none =
      .error .unbounded := by
  constructor
  · exact ⟨_, rfl, rfl⟩
  · exact (claim_C2 (by decide) (by decide)).2.1 2 (-1) (by decide)
      (by decide) (hasWalk_refl _ _)

/-- C3: the global detector answers `true` exactly when a negative cycle
exists anywhere; a negative self-loop answers `true` through the diagonal
short-circuit, and a graph without any negative edge answers `false`. -/
theorem claim_C3 {G : Graph} (hWF : G.WF) :
    (negative_edge_cycle G = true ↔ HasNegCycle G.adj) ∧
    (G.has_negative_diagonal = true → negative_edge_cycle G = true) ∧
    (G.has_negative_edges = false → negative_edge_cycle G = false) := by
  refine ⟨negative_edge_cycle_iff hWF, ?_, ?_⟩
  · intro hdiag
    simp only [negative_edge_cycle]
    rw [if_pos hdiag]
  · intro hne
    apply Bool.eq_false_iff.mpr
    intro hdet
    obtain ⟨j, l, x, hlne, _, hw, hx⟩ :=
      (negative_edge_cycle_iff hWF).mp hdet
    have := walk_nonneg
      (Graph.adj_nonneg (Graph.has_negative_edges_false_iff.mp hne)) l j x hw
    omega

/-- C3, witness: scenario B — the directed 2-cycle `0→1:1, 1→0:-3` (total
weight `-2`) makes the global detector answer `true`. -/
theorem claim_C3_witness : negative_edge_cycle GB = true :=
  (claim_C3 (by decide)).1.mpr
    ⟨0, [1, 0], -2, by decide, by decide, by decide, by decide⟩

/-- C4: on a graph whose edges all carry one shared positive weight, the
single-source result is exactly the Level-BFS hop count scaled by that
weight at every reachable node (absent elsewhere), and this agrees with the
general min-plus relaxation reference (the shortest simple-path length). -/
theorem claim_C4 {G : Graph} {source : Nat} (hWF : G.WF)
    (hs : source < G.n) (hiso : G.is_iso = true)
    (hpos : 0 < G.iso_value) :
    ∃ d, single_source_bellman_ford_path_length G source none = .ok d ∧
      ∀ j, d j = (bfs_level G source none false j).map
          (fun h => G.iso_value * h) ∧
        d j = spLen G.n G.adj (srcSingle source) j := by
  have hAllNN : AllNonNeg G := by
    intro e he
    have := Graph.is_iso_edges hiso e he
    omega
  have hnc := allNonNeg_noNegCycle hAllNN (srcSingle source)
  obtain ⟨d, hok, hval⟩ := single_source_none_ok hWF hs hnc
  refine ⟨d, hok, fun j => ⟨?_, hval j⟩⟩
  rw [hval j]
  rw [bfs_level_none_eq hWF hs j, unitW_full hWF hs j,
    spLen_iso hWF hiso (by omega)]

set_option maxRecDepth 8000 in
/-- C4, witness: scenario D's graph (every edge weight 2) from source 0 —
node 3 receives hop count 3 scaled by 2. -/
theorem claim_C4_witness :
    ∃ d, single_source_bellman_ford_path_length GD 0 none = .ok d ∧
      d 3 = (bfs_level GD 0 none false 3).map (fun h => GD.iso_value * h) ∧
      d 3 = some 6 := by
  obtain ⟨d, hok, hj⟩ := @claim_C4 GD 0 (by decide) (by decide) (by decide)
    (by decide)
  refine ⟨d, hok, (hj 3).1, ?_⟩
  rw [(hj 3).2]
  decide

/-- C5: a negative cycle is reported through the error channel, never as a
value — the single-source and matrix forms raise `Unbounded` whenever a
query source reaches one, and the global detector answers `true` whenever
one exists at all. -/
theorem claim_C5 {G : Graph} (hWF : G.WF) :
    (∀ source, source < G.n →
      NegCycleReachable G.adj (srcSingle source) →
      single_source_bellman_ford_path_length G source none =
        .error .unbounded) ∧
    (∀ ns : List Nat, (∀ s ∈ ns, s < G.n) → ∀ s0 ∈ ns,
      NegCycleReachable G.adj (srcSingle s0) → ∀ eo,
      bellman_ford_path_lengths G (some ns) eo = .error .unbounded) ∧
    (HasNegCycle G.adj → negative_edge_cycle G = true) := by
  refine ⟨?_, ?_, (negative_edge_cycle_iff hWF).mpr⟩
  · intro source hs hcy
    exact single_source_none_raise hWF hs hcy
  · intro ns hns s0 hmem hcy eo
    exact matrix_raise hWF hns hmem hcy eo

/-- C5, witness: scenario B — the negative 2-cycle makes the single-source
query from 0, the matrix query over `[0]` and the global detector all
report the cycle. -/
theorem claim_C5_witness :
    single_source_bellman_ford_path_length GB 0 none = .error .unbounded ∧
    bellman_ford_path_lengths GB (some [0]) false = .error .unbounded ∧
    negative_edge_cycle GB = true := by
  have h := @claim_C5 GB (by decide)
  have hcy : NegCycleReachable GB.adj (srcSingle 0) :=
    ⟨0, 0, by decide, hasWalk_refl _ _,
      [1, 0], -2, by decide, by decide, by decide, by decide⟩
  exact ⟨h.1 0 (by decide) hcy,
    h.2.1 [0] (by decide) 0 (by decide) hcy false,
    h.2.2 ⟨0, [1, 0], -2, by decide, by decide, by decide, by decide⟩⟩

/-- C6, counterexample: on a graph with a negative edge the reported
distances under two cutoffs `4 < 5` disagree where both report node 2
(`4` versus `3`), so cutoff monotonicity fails as stated for arbitrary
graphs. -/
theorem claim_C6_counterexample :
    (∃ d1, single_source_bellman_ford_path_length Gcx1 0 (some 4) =
      .ok d1 ∧ d1 2 = some 4) ∧
    (∃ d2, single_source_bellman_ford_path_length Gcx1 0 (some 5) =
      .ok d2 ∧ d2 2 = some 3) ∧
    ((4 : Int) < 5) ∧ ¬ ((some 4 : Option Int) = some 3) :=
  ⟨⟨_, rfl, rfl⟩, ⟨_, rfl, rfl⟩, by decide, by decide⟩

/-- C6 (amended to the code): on graphs without negative edges (and with a
nonzero shared value on the iso path) the cutoff is an inclusive bound on
the true distances, so for `c1 < c2` every entry under `c1` is present with
the same value under `c2`. -/
theorem claim_C6 {G : Graph} {source : Nat} {c1 c2 : Int} (hWF : G.WF)
    (hs : source < G.n) (hpos : AllNonNeg G)
    (hnz : G.is_iso = true → G.iso_value ≠ 0) (hlt : c1 < c2) :
    ∃ d1 d2,
      single_source_bellman_ford_path_length G source (some c1) = .ok d1 ∧
      single_source_bellman_ford_path_length G source (some c2) = .ok d2 ∧
      (∀ j x, d1 j = some x → d2 j = some x) ∧
      (∀ j x, d1 j = some x ↔
        (spLen G.n G.adj (srcSingle source) j = some x ∧
          (x ≤ c1 ∨ (j = source ∧ x = 0)))) := by
  obtain ⟨d1, hok1, hch1⟩ := @single_source_cut_ok G source c1 hWF hs hpos
    hnz
  obtain ⟨d2, hok2, hch2⟩ := @single_source_cut_ok G source c2 hWF hs hpos
    hnz
  refine ⟨d1, d2, hok1, hok2, ?_, hch1⟩
  intro j x h1
  obtain ⟨hsp, hcond⟩ := (hch1 j x).mp h1
  apply (hch2 j x).mpr
  refine ⟨hsp, ?_⟩
  rcases hcond with h | h
  · exact Or.inl (by omega)
  · exact Or.inr h

set_option maxRecDepth 8000 in
/-- C6, witness: scenario D's graph with cutoffs `3 < 5` — node 1 is
reported as 2 under both cutoffs. -/
theorem claim_C6_witness :
    ∃ d1 d2,
      single_source_bellman_ford_path_length GD 0 (some 3) = .ok d1 ∧
      single_source_bellman_ford_path_length GD 0 (some 5) = .ok d2 ∧
      d1 1 = some 2 ∧ d2 1 = some 2 := by
  obtain ⟨d1, d2, hok1, hok2, hmono, hch⟩ := @claim_C6 GD 0 3 5 (by decide)
    (by decide) (by unfold AllNonNeg; decide) (by decide) (by decide)
  have h1 : d1 1 = some 2 := (hch 1 2).mpr ⟨by decide, Or.inl (by decide)⟩
  exact ⟨d1, d2, hok1, hok2, h1, hmono 1 2 h1⟩

/-- C7, counterexample: with shared edge value 0 (non-negative) and cutoff
0, node 1 has weighted distance `1 × 0 = 0 ≤ 0` and should be reported,
but the floor-division of the cutoff by the edge value raises
`ZeroDivisionError` instead. -/
theorem claim_C7_counterexample :
    GcxZ.is_iso = true ∧ (0 : Int) ≤ GcxZ.iso_value ∧
    spLen GcxZ.n GcxZ.adj (srcSingle 0) 1 = some 0 ∧ ((0 : Int) ≤ 0) ∧
    single_source_bellman_ford_path_length GcxZ 0 (some 0) =
      .error .zeroDivision :=
  ⟨by decide, by decide, by decide, by decide, rfl⟩

/-- C7 (amended to the code): on the iso fast path with a *positive* shared
value `w` and a cutoff `c`, the floor-division conversion preserves the
inclusive-bound semantics — the result holds an entry `x` at node `j`
exactly when `j` has a BFS hop count `h` with `x = w * h` and
`w * h ≤ c` (the source's own `h = 0` always surviving), so unreachable
and beyond-cutoff nodes carry no entry of any value; with `w = 0` and a
cutoff, `ZeroDivisionError` is raised. -/
theorem claim_C7 {G : Graph} {source : Nat} {cc : Int} (hWF : G.WF)
    (hs : source < G.n) (hiso : G.is_iso = true)
    (hneg : G.has_negative_edges = false) :
    (G.iso_value = 0 →
      single_source_bellman_ford_path_length G source (some cc) =
        .error .zeroDivision) ∧
    (0 < G.iso_value →
      ∃ d, single_source_bellman_ford_path_length G source (some cc) =
          .ok d ∧
        ∀ j x, d j = some x ↔
          (∃ h, spLen G.n (unitOf G.adj) (srcSingle source) j = some h ∧
            x = G.iso_value * h ∧ (G.iso_value * h ≤ cc ∨ h = 0))) := by
  constructor
  · intro hz
    exact single_source_zero_div hiso hneg hz
  · intro hpos
    have hAllNN : AllNonNeg G := Graph.has_negative_edges_false_iff.mp hneg
    obtain ⟨d, hok, hch⟩ := @single_source_cut_ok G source cc hWF hs hAllNN
      (fun _ => by omega)
    refine ⟨d, hok, ?_⟩
    intro j x
    rw [hch j x]
    have hiso2 : spLen G.n G.adj (srcSingle source) j =
        (spLen G.n (unitOf G.adj) (srcSingle source) j).map
          (fun h => G.iso_value * h) := spLen_iso hWF hiso (by omega) _ j
    constructor
    · rintro ⟨hsp, hcond⟩
      rw [hiso2] at hsp
      obtain ⟨h, hu, hx⟩ := Option.map_eq_some'.mp hsp
      refine ⟨h, hu, hx.symm, ?_⟩
      rcases hcond with h1 | ⟨h1, h2⟩
      · left
        omega
      · right
        subst h1
        have h0 := (spLen_unit_facts hWF hs).1
        rw [h0] at hu
        injection hu with hu
        omega
    · rintro ⟨h, hu, hx, hcond⟩
      have hfacts := (spLen_unit_facts hWF hs).2 j h hu
      have hsp : spLen G.n G.adj (srcSingle source) j = some x := by
        rw [hiso2, hu, hx]
        rfl
      refine ⟨hsp, ?_⟩
      rcases hcond with h1 | h1
      · left
        omega
      · exact Or.inr ⟨hfacts.2.2 h1, by rw [hx, h1, mul_zero]⟩

set_option maxRecDepth 8000 in
/-- C7, witness: scenario D — every edge weight 2, cutoff 5: node 2 (hop
count 2, weighted distance 4 ≤ 5) is reported as 4, while node 3 (hop
count 3, weighted distance 6 > 5) gets no entry at all. -/
theorem claim_C7_witness :
    ∃ d, single_source_bellman_ford_path_length GD 0 (some 5) = .ok d ∧
      d 2 = some 4 ∧ d 3 = none := by
  obtain ⟨_, hp⟩ := @claim_C7 GD 0 5 (by decide) (by decide) (by decide)
    (by decide)
  obtain ⟨d, hok, hch⟩ := hp (by decide)
  refine ⟨d, hok, ?_, ?_⟩
  · exact (hch 2 4).mpr ⟨2, by decide, by decide, Or.inl (by decide)⟩
  · cases hd : d 3 with
    | none => rfl
    | some x =>
      obtain ⟨h, hu, _, hcond⟩ := (hch 3 x).mp hd
      rw [show spLen GD.n (unitOf GD.adj) (srcSingle 0) 3 = some 3 from
        by decide] at hu
      injection hu with hu
      subst hu
      rcases hcond with h1 | h1
      · exact absurd h1 (by decide)
      · exact absurd h1 (by decide)

/-- C8: the loop invariant of the relaxation — one loop body step maps the
round-`k` reference state to the round-`k+1` state, every present entry at
round `k` is the weight of some seeded walk of at most `k` edges and is
minimal among all such walks, and entries never increase from one round to
the next. -/
theorem claim_C8 {n : Nat} {A : Mtx} {src : Nat → Bool}
    (hA : ∀ i j, (A i j).isSome = true → i < n ∧ j < n) :
    ∀ k : Nat,
    (bfStep n A none (relaxW n A none src k) (frontSpec n A none src k) =
      (relaxW n A none src (k + 1), frontSpec n A none src (k + 1))) ∧
    (∀ j x, relaxW n A none src k j = some x →
      (∃ u l, src u = true ∧ walkWeight A u l = some x ∧
        walkEnd u l = j ∧ l.length ≤ k) ∧
      (∀ u l y, src u = true → walkWeight A u l = some y →
        walkEnd u l = j → l.length ≤ k → x ≤ y)) ∧
    (∀ j, optLE (relaxW n A none src (k + 1) j)
      (relaxW n A none src k j) = true) := by
  intro k
  refine ⟨bfStep_inv n A none src k, ?_, fun j => relaxW_step_le n A none
    src k j⟩
  intro j x hx
  refine ⟨relaxW_attained k j x hx, ?_⟩
  intro u l y hu hw hend hlen
  have hle := relaxW_le_walk hA l u k y hu hw hlen
  rw [hend, hx] at hle
  exact optLE_some_some.mp hle

/-- C8, witness: the invariant instantiated on scenario A's triangle at
round 1 — the monotonicity part evaluated at node 2. -/
theorem claim_C8_witness :
    optLE (relaxW 3 GA.adj none (srcSingle 0) 2 2)
      (relaxW 3 GA.adj none (srcSingle 0) 1 2) = true :=
  ((claim_C8 (fun i j h => Graph.adj_lt (by decide) h) 1).2.2) 2

/-- C9: the matrix form is the single-source algorithm broadcast over the
requested sources — each successful row equals the corresponding
single-source result (both are the reference shortest distances) — and with
`expand_output` over a proper subset of nodes the result is scattered to
full width: row `ids[i]` holds the distances from source `ids[i]` and every
other row is entirely absent. -/
theorem claim_C9 {G : Graph} {ns : List Nat} (hWF : G.WF)
    (hns : ∀ s ∈ ns, s < G.n)
    (hnc : ∀ s ∈ ns, ¬ NegCycleReachable G.adj (srcSingle s))
    (hnd : ns.Nodup) (hlen : ns.length ≠ G.n) :
    (∃ D, bellman_ford_path_lengths G (some ns) false = .ok D ∧
      ∀ (r s : Nat), ns[r]? = some s → ∃ d,
        single_source_bellman_ford_path_length G s none = .ok d ∧
        ∀ j, D r j = d j) ∧
    (∃ E, bellman_ford_path_lengths G (some ns) true = .ok E ∧
      (∀ (r s : Nat), ns[r]? = some s → ∃ d,
        single_source_bellman_ford_path_length G s none = .ok d ∧
        ∀ j, E s j = d j) ∧
      (∀ r, ¬ r ∈ ns → ∀ j, E r j = none)) := by
  constructor
  · obtain ⟨D, hok, hrow⟩ := matrix_ok hWF hns hnc
    refine ⟨D, hok, ?_⟩
    intro r s hrs
    have hsm : s ∈ ns := List.getElem?_mem hrs
    obtain ⟨d, hd, hval⟩ := single_source_none_ok hWF (hns s hsm)
      (hnc s hsm)
    refine ⟨d, hd, ?_⟩
    intro j
    rw [hrow r s hrs j, hval j]
  · obtain ⟨E, hok, hrow, habsent⟩ := matrix_expand_ok hWF hns hnc hnd hlen
    refine ⟨E, hok, ?_, habsent⟩
    intro r s hrs
    have hsm : s ∈ ns := List.getElem?_mem hrs
    obtain ⟨d, hd, hval⟩ := single_source_none_ok hWF (hns s hsm)
      (hnc s hsm)
    refine ⟨d, hd, ?_⟩
    intro j
    rw [hrow r s hrs j, hval j]

/-- C9, witness: scenario A's triangle with sources `[0, 2]` — row 1 of the
matrix result agrees with the single-source result from node 2. -/
theorem claim_C9_witness :
    ∃ D, bellman_ford_path_lengths GA (some [0, 2]) false = .ok D ∧
      ∃ d, single_source_bellman_ford_path_length GA 2 none = .ok d ∧
        D 1 0 = d 0 := by
  obtain ⟨⟨D, hok, hrow⟩, _⟩ := @claim_C9 GA [0, 2] (by decide) (by decide)
    (fun s _ => allNonNeg_noNegCycle (by unfold AllNonNeg; decide) _)
    (by decide) (by decide)
  obtain ⟨d, hd, hvals⟩ := hrow 1 2 (by decide)
  exact ⟨D, hok, d, hd, hvals 0⟩

/-- C10: `descendants` and `ancestors` never keep an entry for the source
itself — it is deleted before returning, even when the source lies on a
cycle or carries a self-loop. -/
theorem claim_C10 (G : Graph) (source : Nat) :
    descendants G source source = none ∧
    ancestors G source source = none := by
  constructor
  · unfold descendants
    simp
  · unfold ancestors
    simp
